import Mathlib

/-!
# captRecon: 3D hit reconstruction (`TCluster3D`) and road following (`TLinearRoad`)

A shallow embedding of `src/src/TCluster3D.cxx` and of `src/src/TLinearRoad.cxx`.

Conventions of the embedding.

* A C++ `double` that is a number is an element of a linearly ordered field `K` (exact
  arithmetic, no rounding).  Every definition is generic in `K` and computes for `K = ℚ`.
* The source never tests a divisor.  A `double` quotient with a zero divisor is an infinity
  or a NaN, and a comparison with a NaN is false.  What the code decides on such a value is
  computed in `Double K`, a number of `K` or one of the special values: the distance test
  of the search (`shift1D`, `PositionXYD`, `dist2D`), the charge that the cut at 10 reads
  (`sharedChargeD`, `keptD`) and the loop over the energy deposit (`rowLoop`).  The
  definitions with values in `K` divide in the field; they are the values of the code when
  no divisor is zero, and the theorems about these values have that hypothesis.
* The one place where the source loops on the result of a rounded operation is the loop
  `for (double q = GetEDeposit(); q > 0; q -= 1000)` of `NextCluster`; there the rounding
  of the difference is a parameter `fl : K → K`, and the loop runs on fuel.
* `std::sqrt` is a parameter `sqrt : K → K` of the definitions that call it.  In
  `TCluster3D` a comparison `v.Mag() > c` with `c ≥ 0` is written on the squares,
  `v.Mag2() > c * c`, and the product `dist * dist` of a magnitude with itself is the squared
  magnitude; in `TLinearRoad` a magnitude `v.Mag()` is `sqrt (v.Mag2())`.
* A `THandle<THit>` is a value of `THit`; its field `id` stands for the identity of the
  handle.
* Classes of the repository that are not among the sources (`TDriftPosition`,
  `TShareCharge`, `CreateCluster`) are parameters or are modelled from the specification,
  as said at each of them.
-/

namespace CP

/-! ## Units -/

namespace unit

/-- Modelled from the spec: `HEPUnits.hxx` is not among the sources.  The specification
names the units only (ns, microsecond, mm); the base units of time and length are the
nanosecond and the millimetre. -/
def ns {K : Type} [LinearOrderedField K] : K := 1

/-- Modelled from the spec: a microsecond is a thousand nanoseconds. -/
def microsecond {K : Type} [LinearOrderedField K] : K := 1000 * ns

/-- Modelled from the spec: the millimetre is the base unit of length. -/
def mm {K : Type} [LinearOrderedField K] : K := 1

/-- Modelled from the spec: a centimetre is ten millimetres. -/
def cm {K : Type} [LinearOrderedField K] : K := 10 * mm

/-- Modelled from the spec: a metre is a thousand millimetres. -/
def meter {K : Type} [LinearOrderedField K] : K := 1000 * mm

/-- Modelled from the spec: a kilometre is a thousand metres. -/
def kilometer {K : Type} [LinearOrderedField K] : K := 1000 * meter

/-- Modelled from the spec: the radian is the base unit of angle. -/
def radian {K : Type} [LinearOrderedField K] : K := 1

end unit

/-! ## Data model -/

/-- ROOT `TVector3`: three `double` components. -/
structure TVector3 (K : Type) where
  X : K
  Y : K
  Z : K
deriving DecidableEq, Repr

namespace TVector3

variable {K : Type} [LinearOrderedField K]

/-- Component-wise sum, `operator+`. -/
def add (a b : TVector3 K) : TVector3 K := ⟨a.X + b.X, a.Y + b.Y, a.Z + b.Z⟩

/-- Component-wise difference, `operator-`. -/
def sub (a b : TVector3 K) : TVector3 K := ⟨a.X - b.X, a.Y - b.Y, a.Z - b.Z⟩

/-- Scaling by a number, `operator*=`. -/
def scale (a : TVector3 K) (c : K) : TVector3 K := ⟨a.X * c, a.Y * c, a.Z * c⟩

/-- Replace the third component, `SetZ`. -/
def SetZ (a : TVector3 K) (z : K) : TVector3 K := ⟨a.X, a.Y, z⟩

/-- Squared magnitude, `Mag2()`. -/
def Mag2 (a : TVector3 K) : K := a.X * a.X + a.Y * a.Y + a.Z * a.Z

/-- Scalar product, `operator*` of two vectors. -/
def dot (a b : TVector3 K) : K := a.X * b.X + a.Y * b.Y + a.Z * b.Z

/-- Magnitude, `Mag()`: the square root of `Mag2()`. -/
def Mag (sqrt : K → K) (a : TVector3 K) : K := sqrt a.Mag2

/-- Unit vector, `Unit()`: a vector of squared magnitude zero is returned as it is. -/
def Unit (sqrt : K → K) (a : TVector3 K) : TVector3 K :=
  let tot2 := a.Mag2
  let tot := if tot2 > 0 then 1 / sqrt tot2 else 1
  ⟨a.X * tot, a.Y * tot, a.Z * tot⟩

end TVector3

/-- A `double` with its special values: a number of `K`, one of the two infinities, or a
NaN.  The numbers are exact, and the zero of `K` stands for the positive zero. -/
inductive Double (K : Type) where
  | num (x : K)
  | pinf
  | ninf
  | nan
deriving DecidableEq, Repr

namespace Double

variable {K : Type} [LinearOrderedField K]

/-- Unary minus. -/
def neg : Double K → Double K
  | num x => num (-x)
  | pinf => ninf
  | ninf => pinf
  | nan => nan

/-- The sum `a + b`: infinities of opposite sign add to NaN. -/
def add : Double K → Double K → Double K
  | num x, num y => num (x + y)
  | num _, pinf => pinf
  | num _, ninf => ninf
  | num _, nan => nan
  | pinf, num _ => pinf
  | pinf, pinf => pinf
  | pinf, ninf => nan
  | pinf, nan => nan
  | ninf, num _ => ninf
  | ninf, pinf => nan
  | ninf, ninf => ninf
  | ninf, nan => nan
  | nan, _ => nan

/-- The difference `a - b`. -/
def sub (a b : Double K) : Double K := add a (neg b)

/-- The product `a * b`: an infinity times zero is NaN. -/
def mul : Double K → Double K → Double K
  | num x, num y => num (x * y)
  | num x, pinf => if x = 0 then nan else if 0 < x then pinf else ninf
  | num x, ninf => if x = 0 then nan else if 0 < x then ninf else pinf
  | num _, nan => nan
  | pinf, num y => if y = 0 then nan else if 0 < y then pinf else ninf
  | pinf, pinf => pinf
  | pinf, ninf => ninf
  | pinf, nan => nan
  | ninf, num y => if y = 0 then nan else if 0 < y then ninf else pinf
  | ninf, pinf => ninf
  | ninf, ninf => pinf
  | ninf, nan => nan
  | nan, _ => nan

/-- The quotient `a / b`: a number over zero is an infinity of the sign of the number, and
zero over zero is NaN. -/
def div : Double K → Double K → Double K
  | num x, num y =>
    if y = 0 then (if 0 < x then pinf else if x < 0 then ninf else nan) else num (x / y)
  | num _, pinf => num 0
  | num _, ninf => num 0
  | num _, nan => nan
  | pinf, num y => if y < 0 then ninf else pinf
  | pinf, pinf => nan
  | pinf, ninf => nan
  | pinf, nan => nan
  | ninf, num y => if y < 0 then pinf else ninf
  | ninf, pinf => nan
  | ninf, ninf => nan
  | ninf, nan => nan
  | nan, _ => nan

/-- The comparison `a > b`, false when one of the two is NaN. -/
def gt : Double K → Double K → Bool
  | num x, num y => decide (x > y)
  | num _, pinf => false
  | num _, ninf => true
  | num _, nan => false
  | pinf, num _ => true
  | pinf, pinf => false
  | pinf, ninf => true
  | pinf, nan => false
  | ninf, _ => false
  | nan, _ => false

/-- The comparison `a < b`, false when one of the two is NaN. -/
def lt (a b : Double K) : Bool := gt b a

/-- The comparison `a <= b`, false when one of the two is NaN. -/
def le : Double K → Double K → Bool
  | num x, num y => decide (x ≤ y)
  | num _, pinf => true
  | num _, ninf => false
  | num _, nan => false
  | pinf, num _ => false
  | pinf, pinf => true
  | pinf, ninf => false
  | pinf, nan => false
  | ninf, num _ => true
  | ninf, pinf => true
  | ninf, ninf => true
  | ninf, nan => false
  | nan, _ => false

/-- The comparison `a >= b`, false when one of the two is NaN. -/
def ge (a b : Double K) : Bool := le b a

/-- The rounding of the result of an operation to a `double`, for the rounding `fl` of a
number; an infinity and a NaN are kept. -/
def round (fl : K → K) : Double K → Double K
  | num x => num (fl x)
  | pinf => pinf
  | ninf => ninf
  | nan => nan

/-- Difference of two vectors of `double`s, `operator-`. -/
def vsub (a b : TVector3 (Double K)) : TVector3 (Double K) :=
  ⟨sub a.X b.X, sub a.Y b.Y, sub a.Z b.Z⟩

/-- Squared magnitude of a vector of `double`s, `Mag2()`. -/
def vmag2 (a : TVector3 (Double K)) : Double K :=
  add (add (mul a.X a.X) (mul a.Y a.Y)) (mul a.Z a.Z)

end Double

/-- ROOT `TLorentzVector`: a position and a time. -/
structure TLorentzVector (K : Type) where
  Vect : TVector3 K
  T : K
deriving DecidableEq, Repr

/-- The value of `CP::GeomId::Captain::GetWirePlane(hit->GetGeomId())`: `Process`
distinguishes the X, V and U planes from every other value. -/
inductive WirePlane where
  | kXPlane
  | kVPlane
  | kUPlane
  | kOther
deriving DecidableEq, Repr

/-- A calibrated hit on one wire or one photo-sensor (`CP::THit`), with the accessors
that `TCluster3D` reads. -/
structure THit (K : Type) where
  /-- Identity of the handle. -/
  id : Nat
  /-- Result of `GetWirePlane(GetGeomId())`. -/
  Plane : WirePlane
  /-- Result of `GetPosition()`. -/
  Position : TVector3 K
  /-- Result of `GetYAxis()`, the direction of the wire. -/
  YAxis : TVector3 K
  /-- Result of `GetTime()`. -/
  Time : K
  /-- Result of `GetTimeRMS()`. -/
  TimeRMS : K
  /-- Result of `GetTimeUncertainty()`. -/
  TimeUncertainty : K
  /-- Result of `GetCharge()`. -/
  Charge : K
  /-- Result of `GetChargeUncertainty()`. -/
  ChargeUncertainty : K
  /-- Result of `GetRMS()`. -/
  RMS : TVector3 K
deriving DecidableEq, Repr

/-- A list of hit handles (`CP::THitSelection`). -/
abbrev THitSelection (K : Type) := List (THit K)

/-- The 3D hit built from three wire hits (`CP::TWritableReconHit`). -/
structure TWritableReconHit (K : Type) where
  /-- Constituent 0, the X wire hit. -/
  xh : THit K
  /-- Constituent 1, the V wire hit. -/
  vh : THit K
  /-- Constituent 2, the U wire hit. -/
  uh : THit K
  Time : K
  TimeUncertainty : K
  TimeRMS : K
  Charge : K
  ChargeUncertainty : K
  Position : TVector3 K
  RMS : TVector3 K
  Uncertainty : TVector3 K
deriving DecidableEq, Repr

/-- The drift model (`CP::TDriftPosition`), a class of the repository that is not among
the sources: its three methods used by `Process` are parameters. -/
structure TDriftPosition (K : Type) where
  /-- Drift-corrected time of a wire hit, `GetTime(hit)`. -/
  GetTime : THit K → K
  /-- Average drift velocity, `GetAverageDriftVelocity()`. -/
  GetAverageDriftVelocity : K
  /-- Position of a 3D hit at a given time zero, `GetPosition(hit, t0)`. -/
  GetPosition : TWritableReconHit K → K → TLorentzVector K

/-- The parameters held by the algorithm object (`CP::TCluster3D`). -/
structure TCluster3D (K : Type) where
  fMaxDrift : K
  fXSeparation : K
  fVSeparation : K
  fUSeparation : K
  fMinSeparation : K
  fEnergyPerCharge : K

namespace TCluster3D

variable {K : Type} [LinearOrderedField K]

/-- The constructor: five values come from the run-time parameters, the minimum
separation is fixed at 500 ns. -/
def create (maxDrift xSeparation vSeparation uSeparation energyPerCharge : K) :
    TCluster3D K :=
  { fMaxDrift := maxDrift
    fXSeparation := xSeparation
    fVSeparation := vSeparation
    fUSeparation := uSeparation
    fMinSeparation := 500 * unit.ns
    fEnergyPerCharge := energyPerCharge }

/-! ## `PositionXY` -/

/-- The divisor `dx2*dy1 - dx1*dy2` of `PositionXY`. -/
def crossDet (hit1 hit2 : THit K) : K :=
  hit2.YAxis.X * hit1.YAxis.Y - hit1.YAxis.X * hit2.YAxis.Y

/-- The shift `s1` along the first wire computed by `PositionXY`, for a divisor
`dx2*dy1 - dx1*dy2` that is not zero; `shift1D` is the shift with the value that the
division has for a zero divisor. -/
def shift1 (hit1 hit2 : THit K) : K :=
  let x1 := hit1.Position.X
  let y1 := hit1.Position.Y
  let dx1 := hit1.YAxis.X
  let dy1 := hit1.YAxis.Y
  let x2 := hit2.Position.X
  let y2 := hit2.Position.Y
  let dx2 := hit2.YAxis.X
  let dy2 := hit2.YAxis.Y
  (-(dx2 * (y1 - y2) + dy2 * x2 - dy2 * x1) / (dx2 * dy1 - dx1 * dy2))

/-- The shift `s2` along the second wire, given in the comment of `PositionXY`. -/
def shift2 (hit1 hit2 : THit K) : K :=
  let x1 := hit1.Position.X
  let y1 := hit1.Position.Y
  let dx1 := hit1.YAxis.X
  let dy1 := hit1.YAxis.Y
  let x2 := hit2.Position.X
  let y2 := hit2.Position.Y
  let dx2 := hit2.YAxis.X
  let dy2 := hit2.YAxis.Y
  (-(dx1 * (y1 - y2) + dy1 * x2 - dy1 * x1) / (dx2 * dy1 - dx1 * dy2))

/-- The point where the wires of two hits cross, `TCluster3D::PositionXY`, for a divisor
that is not zero; `PositionXYD` is the point with the values that the code computes for a
zero divisor. -/
def PositionXY (hit1 hit2 : THit K) : TVector3 K :=
  let x1 := hit1.Position.X
  let y1 := hit1.Position.Y
  let dx1 := hit1.YAxis.X
  let dy1 := hit1.YAxis.Y
  let s1 := shift1 hit1 hit2
  ⟨x1 + s1 * dx1, y1 + s1 * dy1, 0⟩

/-- The shift `s1` as `PositionXY` computes it, a `double` with its special values: for a
divisor `dx2*dy1 - dx1*dy2 = 0` it is an infinity or a NaN. -/
def shift1D (hit1 hit2 : THit K) : Double K :=
  let x1 := hit1.Position.X
  let y1 := hit1.Position.Y
  let dx1 := hit1.YAxis.X
  let dy1 := hit1.YAxis.Y
  let x2 := hit2.Position.X
  let y2 := hit2.Position.Y
  let dx2 := hit2.YAxis.X
  let dy2 := hit2.YAxis.Y
  Double.div (.num (-(dx2 * (y1 - y2) + dy2 * x2 - dy2 * x1))) (.num (dx2 * dy1 - dx1 * dy2))

/-- The point that `TCluster3D::PositionXY` returns, as `double`s with their special
values. -/
def PositionXYD (hit1 hit2 : THit K) : TVector3 (Double K) :=
  let x1 := hit1.Position.X
  let y1 := hit1.Position.Y
  let dx1 := hit1.YAxis.X
  let dy1 := hit1.YAxis.Y
  let s1 := shift1D hit1 hit2
  ⟨Double.add (.num x1) (Double.mul s1 (.num dx1)),
    Double.add (.num y1) (Double.mul s1 (.num dy1)), .num 0⟩

/-! ## `TimeZero` -/

/-- The inner loop of `TimeZero`, `while (++h != times.end()) if (*h - *t > 2 us) break;`:
the number of times following `t` that `h` passes without leaving the loop. -/
def windowSteps (t : K) : List K → Nat
  | [] => 0
  | h :: hs => if h - t > 2 * unit.microsecond then 0 else windowSteps t hs + 1

/-- The outer loop of `TimeZero` over the sorted times, with its two variables `t0` and
`maxHits`; `dh = h - t` is one more than `windowSteps`. -/
def windowScan : List K → K → Nat → K
  | [], t0, _ => t0
  | t :: rest, t0, maxHits =>
    let dh := windowSteps t rest + 1
    if dh > maxHits then windowScan rest t dh else windowScan rest t0 maxHits

/-- The event time zero, `TCluster3D::TimeZero`. -/
def TimeZero (pmts : THitSelection K) (_wires : THitSelection K) : K :=
  if pmts.isEmpty then 0
  else
    let times := (pmts.map THit.Time).insertionSort (fun a b => a ≤ b)
    windowScan times 0 0

/-! ## `OverlapTime` -/

/-- The overlap tolerance, `TCluster3D::OverlapTime`, as compiled (`QUADRATURE_OVERLAP`
is not defined). -/
def OverlapTime (_alg : TCluster3D K) (r1 r2 step : K) : K :=
  max r1 (max r2 step)

/-- The overlap tolerance of the `QUADRATURE_OVERLAP` branch. -/
def OverlapTimeQuadrature (sqrt : K → K) (r1 r2 step : K) : K :=
  sqrt (r1 * r1 + r2 * r2 + step * step)

/-! ## Specification-side counts for `TimeZero` -/

/-- The number of times, with multiplicity, in the closed window `[t, t + 2 us]`. -/
def windowCount (times : List K) (t : K) : Nat :=
  times.countP (fun h => decide (t ≤ h ∧ h - t ≤ 2 * unit.microsecond))

/-- The number of times, with multiplicity, in the half-open window `[t, t + 2 us)`. -/
def halfOpenCount (times : List K) (t : K) : Nat :=
  times.countP (fun h => decide (t ≤ h ∧ h - t < 2 * unit.microsecond))

/-- The state of the outer loop after the times `pre` of the sorted list `L`: `maxHits`
is the largest closed-window count seen and `t0` the first time that reaches it. -/
def ScanInv (L pre : List K) (t0 : K) (m : Nat) : Prop :=
  (pre = [] ∧ m = 0) ∨
    (t0 ∈ pre ∧ windowCount L t0 = m ∧ (∀ t ∈ pre, windowCount L t ≤ m) ∧
      (∀ t ∈ pre, windowCount L t = m → t0 ≤ t))

/-- What the outer loop returns on a sorted list. -/
def ScanPost (L : List K) (r : K) : Prop :=
  r ∈ L ∧ (∀ t ∈ L, windowCount L t ≤ windowCount L r) ∧
    (∀ t ∈ L, windowCount L t = windowCount L r → r ≤ t)

/-! ## The search for triplets in `Process` -/

/-- The largest time difference searched, `maxDeltaT` (`LIMIT_SEARCH` is not defined). -/
def maxDeltaT : K := 16 * unit.microsecond

/-- The tolerance of the X-U time check. -/
def overlapXU (alg : TCluster3D K) (xh uh : THit K) : K :=
  OverlapTime alg (alg.fXSeparation * xh.TimeRMS) (alg.fUSeparation * uh.TimeRMS)
    alg.fMinSeparation

/-- The tolerance of the X-V time check. -/
def overlapXV (alg : TCluster3D K) (xh vh : THit K) : K :=
  OverlapTime alg (alg.fXSeparation * xh.TimeRMS) (alg.fVSeparation * vh.TimeRMS)
    alg.fMinSeparation

/-- The tolerance of the U-V time check. -/
def overlapUV (alg : TCluster3D K) (uh vh : THit K) : K :=
  OverlapTime alg (alg.fUSeparation * uh.TimeRMS) (alg.fVSeparation * vh.TimeRMS)
    alg.fMinSeparation

/-- The square of `dist = (p2 - p1).Mag()` for `p1 = PositionXY(xh, vh)` and
`p2 = PositionXY(xh, uh)`, when neither divisor is zero. -/
def dist2 (xh vh uh : THit K) : K :=
  (TVector3.sub (PositionXY xh uh) (PositionXY xh vh)).Mag2

/-- The square of `dist = (p2 - p1).Mag()` as the loop body computes it from
`p1 = PositionXY(xh, vh)` and `p2 = PositionXY(xh, uh)`, a `double` with its special
values: it is `dist2` when neither divisor is zero, and an infinity or a NaN otherwise. -/
def dist2D (xh vh uh : THit K) : Double K :=
  Double.vmag2 (Double.vsub (PositionXYD xh uh) (PositionXYD xh vh))

/-- The loops `while (vBegin != end && drift.GetTime(**vBegin) - xTime < -maxDeltaT)
++vBegin;` and the same for `uBegin`. -/
def advanceBegin (drift : TDriftPosition K) (xTime : K) : List (THit K) → List (THit K)
  | [] => []
  | h :: hs =>
    if drift.GetTime h - xTime < -maxDeltaT then advanceBegin drift xTime hs else h :: hs

/-- The loop over `uh` from `uBegin`, for fixed `xh` and `vh`: a `break` ends the loop, a
`continue` skips the hit, and a hit that passes every test makes a triplet.  The test
`dist > 2*unit::mm` is written on the squares; it fails for a NaN. -/
def uLoop (alg : TCluster3D K) (drift : TDriftPosition K) (xh vh : THit K) :
    List (THit K) → List (THit K × THit K × THit K)
  | [] => []
  | uh :: us =>
    let xTime := drift.GetTime xh
    let vTime := drift.GetTime vh
    let uTime := drift.GetTime uh
    if uTime - xTime > maxDeltaT then []
    else if |uTime - xTime| > overlapXU alg xh uh then uLoop alg drift xh vh us
    else if |vTime - xTime| > overlapXV alg xh vh then uLoop alg drift xh vh us
    else if |vTime - uTime| > overlapUV alg uh vh then uLoop alg drift xh vh us
    else if Double.gt (dist2D xh vh uh) (.num ((2 * unit.mm) * (2 * unit.mm))) then
      uLoop alg drift xh vh us
    else (xh, vh, uh) :: uLoop alg drift xh vh us

/-- The loop over `vh` from `vBegin`, for fixed `xh`. -/
def vLoop (alg : TCluster3D K) (drift : TDriftPosition K) (xh : THit K)
    (uBegin : List (THit K)) : List (THit K) → List (THit K × THit K × THit K)
  | [] => []
  | vh :: vs =>
    if drift.GetTime vh - drift.GetTime xh > maxDeltaT then []
    else uLoop alg drift xh vh uBegin ++ vLoop alg drift xh uBegin vs

/-- The loop over `xh`, with the two lower bounds `vBegin` and `uBegin` carried from one
X hit to the next. -/
def xLoop (alg : TCluster3D K) (drift : TDriftPosition K) :
    List (THit K) → List (THit K) → List (THit K) → List (THit K × THit K × THit K)
  | [], _, _ => []
  | xh :: xs, vBegin, uBegin =>
    let vBegin1 := advanceBegin drift (drift.GetTime xh) vBegin
    let uBegin1 := advanceBegin drift (drift.GetTime xh) uBegin
    vLoop alg drift xh uBegin1 vBegin1 ++ xLoop alg drift xs vBegin1 uBegin1

/-- The triplets for which `Process` builds a 3D hit, in the order in which it builds
them.  What follows the last test in the body of the loops only builds the hit and
appends it. -/
def search (alg : TCluster3D K) (drift : TDriftPosition K)
    (xHits vHits uHits : List (THit K)) : List (THit K × THit K × THit K) :=
  xLoop alg drift xHits vHits uHits

/-! ## Specification-side triplets -/

/-- The constraints on a triplet as the loop body tests them: both time differences to the
X hit within the search window, the three overlap checks, and a distance of the two
crossing points on the X wire that is not greater than 2 mm. -/
def Consistent (alg : TCluster3D K) (drift : TDriftPosition K) (x v u : THit K) : Prop :=
  |drift.GetTime v - drift.GetTime x| ≤ maxDeltaT ∧
    |drift.GetTime u - drift.GetTime x| ≤ maxDeltaT ∧
    |drift.GetTime x - drift.GetTime u| ≤ overlapXU alg x u ∧
    |drift.GetTime x - drift.GetTime v| ≤ overlapXV alg x v ∧
    |drift.GetTime v - drift.GetTime u| ≤ overlapUV alg u v ∧
    Double.gt (dist2D x v u) (.num ((2 * unit.mm) * (2 * unit.mm))) = false

/-- The constraints on a triplet in the words of the specification: as `Consistent`, with
the two crossing points on the X wire within 2 mm, `dist <= 2 mm`. -/
def ConsistentSpec (alg : TCluster3D K) (drift : TDriftPosition K) (x v u : THit K) : Prop :=
  |drift.GetTime v - drift.GetTime x| ≤ maxDeltaT ∧
    |drift.GetTime u - drift.GetTime x| ≤ maxDeltaT ∧
    |drift.GetTime x - drift.GetTime u| ≤ overlapXU alg x u ∧
    |drift.GetTime x - drift.GetTime v| ≤ overlapXV alg x v ∧
    |drift.GetTime v - drift.GetTime u| ≤ overlapUV alg u v ∧
    Double.le (dist2D x v u) (.num ((2 * unit.mm) * (2 * unit.mm))) = true

instance (alg : TCluster3D K) (drift : TDriftPosition K) (x v u : THit K) :
    Decidable (ConsistentSpec alg drift x v u) := by
  unfold ConsistentSpec
  infer_instance

instance (alg : TCluster3D K) (drift : TDriftPosition K) (x v u : THit K) :
    Decidable (Consistent alg drift x v u) := by
  unfold Consistent
  infer_instance

/-- Every consistent triplet, in lexicographic order of the positions in the three
sequences. -/
def bruteForce (alg : TCluster3D K) (drift : TDriftPosition K)
    (xHits vHits uHits : List (THit K)) : List (THit K × THit K × THit K) :=
  xHits.flatMap fun x => vHits.flatMap fun v =>
    (uHits.filter fun u => decide (Consistent alg drift x v u)).map fun u => (x, v, u)

/-- Every triplet that is consistent in the words of the specification, in lexicographic
order of the positions in the three sequences. -/
def bruteForceSpec (alg : TCluster3D K) (drift : TDriftPosition K)
    (xHits vHits uHits : List (THit K)) : List (THit K × THit K × THit K) :=
  xHits.flatMap fun x => vHits.flatMap fun v =>
    (uHits.filter fun u => decide (ConsistentSpec alg drift x v u)).map fun u => (x, v, u)

/-- A list of hits in non-decreasing drift-corrected time. -/
def TimeSorted (drift : TDriftPosition K) (hits : List (THit K)) : Prop :=
  hits.Sorted (fun a b => drift.GetTime a ≤ drift.GetTime b)

/-- The tests that the body of the loops has passed when it reaches the construction of
the hit for `(xh, vh, uh)`: neither `break` taken and none of the four `continue`s. -/
def Accepted (alg : TCluster3D K) (drift : TDriftPosition K) (xh vh uh : THit K) : Prop :=
  drift.GetTime vh - drift.GetTime xh ≤ maxDeltaT ∧
    drift.GetTime uh - drift.GetTime xh ≤ maxDeltaT ∧
    |drift.GetTime uh - drift.GetTime xh| ≤ overlapXU alg xh uh ∧
    |drift.GetTime vh - drift.GetTime xh| ≤ overlapXV alg xh vh ∧
    |drift.GetTime vh - drift.GetTime uh| ≤ overlapUV alg uh vh ∧
    Double.gt (dist2D xh vh uh) (.num ((2 * unit.mm) * (2 * unit.mm))) = false

/-! ## Building the 3D hit -/

/-- The 3D hit of an accepted triplet as the loop body builds it before the time-zero
correction (`USE_BEST_TIME` is not defined, `USE_V_CHARGE` and `USE_U_CHARGE` are).  The
position, the RMS and the uncertainty are those of a triplet without a zero divisor in
`PositionXY`, the time and the charge with their uncertainties those of hits whose time
and charge uncertainties are not zero: for a zero divisor or a zero uncertainty the code
computes with infinities and NaN (`PositionXYD`, `dist2D`, `sharedChargeD`). -/
def fuse (drift : TDriftPosition K) (sqrt : K → K) (xh vh uh : THit K) :
    TWritableReconHit K :=
  let p1 := PositionXY xh vh
  let p2 := PositionXY xh uh
  let p3 := PositionXY vh uh
  let tXHit := drift.GetTime xh
  let tXUnc := xh.TimeUncertainty * xh.TimeUncertainty
  let tVHit := drift.GetTime vh
  let tVUnc := vh.TimeUncertainty * vh.TimeUncertainty
  let tUHit := drift.GetTime uh
  let tUUnc := uh.TimeUncertainty * uh.TimeUncertainty
  let tSum := tXHit / tXUnc + tVHit / tVUnc + tUHit / tUUnc
  let tWeight := 1 / tXUnc + 1 / tVUnc + 1 / tUUnc
  let tHit := tSum / tWeight
  let tUnc := sqrt (3 / tWeight)
  let tRMS := min xh.TimeRMS (min vh.TimeRMS uh.TimeRMS)
  let wX := xh.ChargeUncertainty
  let wV := vh.ChargeUncertainty
  let wU := uh.ChargeUncertainty
  let chargeSum := xh.Charge / (wX * wX) + vh.Charge / (wV * wV) + uh.Charge / (wU * wU)
  let chargeWeight := 1 / (wX * wX) + 1 / (wV * wV) + 1 / (wU * wU)
  let charge := chargeSum / chargeWeight
  let chargeUnc := sqrt (1 / chargeWeight)
  let pos := (((p1.add p2).add p3).scale (1 / 3)).SetZ 0
  let xyMean := (xh.RMS.X * xh.RMS.X + vh.RMS.X * vh.RMS.X + uh.RMS.X * uh.RMS.X) / 3
  let xyRMS := sqrt (xyMean + (xyMean + dist2 xh vh uh))
  { xh := xh
    vh := vh
    uh := uh
    Time := tHit
    TimeUncertainty := tUnc
    TimeRMS := tRMS
    Charge := charge
    ChargeUncertainty := chargeUnc
    Position := pos
    RMS := ⟨xyRMS, xyRMS, drift.GetAverageDriftVelocity * tRMS⟩
    Uncertainty := ⟨2 * xyRMS / sqrt 12, 2 * xyRMS / sqrt 12,
      drift.GetAverageDriftVelocity * tUnc⟩ }

/-- The correction for the time zero at the end of the loop body. -/
def correctTimeZero (drift : TDriftPosition K) (t0 : K) (hit : TWritableReconHit K) :
    TWritableReconHit K :=
  { hit with Time := t0, Position := (drift.GetPosition hit t0).Vect }

/-- The 3D hit that the loop body appends to `writableHits` for an accepted triplet. -/
def makeHit (drift : TDriftPosition K) (sqrt : K → K) (t0 : K) (xh vh uh : THit K) :
    TWritableReconHit K :=
  correctTimeZero drift t0 (fuse drift sqrt xh vh uh)

/-! ## Splitting and sorting the wire hits -/

/-- The contract of `std::sort` with the comparison `compareHitTime`: the result is a
permutation of the argument in which no hit comes before a hit of smaller time.  The order
of hits of equal time is not fixed by the library, so the sort is a parameter. -/
structure StdSort (K : Type) [LinearOrderedField K] where
  /-- The sorting function. -/
  sort : List (THit K) → List (THit K)
  /-- The result has the same hits. -/
  perm : ∀ l, (sort l).Perm l
  /-- The result is ordered by `GetTime()`. -/
  sorted : ∀ l, (sort l).Sorted (fun a b => ¬ b.Time < a.Time)

/-- The hits that the first loop of `Process` pushes to the selection of a plane. -/
def planeHits (plane : WirePlane) (wireHits : THitSelection K) : THitSelection K :=
  wireHits.filter fun h => decide (h.Plane = plane)

/-- The list `writableHits` after the loops of `Process`. -/
def writableHits (alg : TCluster3D K) (drift : TDriftPosition K) (S : StdSort K)
    (sqrt : K → K) (wireHits : THitSelection K) (t0 : K) : List (TWritableReconHit K) :=
  let xHits := S.sort (planeHits WirePlane.kXPlane wireHits)
  let vHits := S.sort (planeHits WirePlane.kVPlane wireHits)
  let uHits := S.sort (planeHits WirePlane.kUPlane wireHits)
  (search alg drift xHits vHits uHits).map fun p => makeHit drift sqrt t0 p.1 p.2.1 p.2.2

/-! ## Charge sharing -/

/-- A link of a measurement group to one wire hit, with the share of the charge of the
hit that the group has been given (`ShareCharge::TLink`). -/
structure TLink (K : Type) where
  /-- The wire hit, `GetMeasurement()->GetObject()`. -/
  hit : THit K
  /-- The share, `GetCharge()`. -/
  charge : K
deriving DecidableEq, Repr

/-- One group per 3D hit (`ShareCharge::TMeasurementGroup`). -/
structure TMeasurementGroup (K : Type) where
  /-- The 3D hit, `GetObject()`. -/
  object : TWritableReconHit K
  /-- The links to the constituents, `GetLinks()`. -/
  links : List (TLink K)
deriving DecidableEq, Repr

/-- The constituents of a 3D hit in the order of `GetConstituent(i)`. -/
def constituents (hit : TWritableReconHit K) : List (THit K) := [hit.xh, hit.vh, hit.uh]

/-- Modelled from the spec: `TShareCharge` is not among the sources.  The weight of a 3D
hit among the 3D hits that contend for a wire hit is the inverse variance of its charge. -/
def groupWeight (g : TWritableReconHit K) : K :=
  1 / (g.ChargeUncertainty * g.ChargeUncertainty)

/-- Modelled from the spec: `TShareCharge` is not among the sources.  The sum of the
weights of the links that reach the wire hit `h`, one term per link. -/
def totalWeight (groups : List (TWritableReconHit K)) (h : THit K) : K :=
  (groups.map fun g => ((constituents g).count h : K) * groupWeight g).sum

/-- Modelled from the spec: `TShareCharge` is not among the sources.  The share of the
charge of the wire hit `h` given to the 3D hit `g`: the charge of the hit apportioned by
the inverse-variance weights of the 3D hits that reference it. -/
def share (groups : List (TWritableReconHit K)) (g : TWritableReconHit K) (h : THit K) : K :=
  h.Charge * groupWeight g / totalWeight groups h

/-- Modelled from the spec: `TShareCharge::AddGroup`, `AddMeasurement` and `Solve` are not
among the sources.  One group per 3D hit in the order of `writableHits`, one link per
constituent, each link carrying its share after the single redistribution pass. -/
def Solve (groups : List (TWritableReconHit K)) : List (TMeasurementGroup K) :=
  groups.map fun g =>
    { object := g
      links := (constituents g).map fun h => { hit := h, charge := share groups g h } }

/-- The sum over all groups of the shares given to the wire hit `h`. -/
def sharedCharge (groups : List (TMeasurementGroup K)) (h : THit K) : K :=
  (groups.map fun g =>
    ((g.links.filter fun l => decide (l.hit = h)).map TLink.charge).sum).sum

/-- The loop of `Process` over the links of one group, and the update of the charge and
the charge uncertainty of its 3D hit, for links to hits whose charge uncertainty is not
zero; `sharedChargeD` is the charge with the value that the code computes for a zero
uncertainty. -/
def updateCharge (sqrt : K → K) (g : TMeasurementGroup K) : TWritableReconHit K :=
  let totalCharge := g.links.foldl
    (fun acc c => acc + c.charge / (c.hit.ChargeUncertainty * c.hit.ChargeUncertainty)) 0
  let totalSigma := g.links.foldl
    (fun acc c => acc + 1 / (c.hit.ChargeUncertainty * c.hit.ChargeUncertainty)) 0
  { g.object with
    Charge := totalCharge / totalSigma
    ChargeUncertainty := sqrt (1 / totalSigma) }

/-- The charge `totalCharge / totalSigma` that the loop of `Process` over the links of one
group computes, a `double` with its special values: a link to a hit of charge uncertainty
zero adds an infinity or a NaN to `totalCharge` and an infinity to `totalSigma`. -/
def sharedChargeD (g : TMeasurementGroup K) : Double K :=
  let totalCharge := g.links.foldl
    (fun acc c => Double.add acc
      (Double.div (.num c.charge) (.num (c.hit.ChargeUncertainty * c.hit.ChargeUncertainty))))
    (.num 0)
  let totalSigma := g.links.foldl
    (fun acc c => Double.add acc
      (Double.div (.num 1) (.num (c.hit.ChargeUncertainty * c.hit.ChargeUncertainty))))
    (.num 0)
  Double.div totalCharge totalSigma

/-- The test of the copy into `clustered` on a charge with its special values: the hit is
left out when `charge < 10.0`, and kept otherwise. -/
def keptD (charge : Double K) : Bool := !Double.lt charge (.num 10)

/-- The 3D hits after the charge has been shared (`SHARE_CLUSTERED_CHARGE` is defined,
`REMOVE_OUTLIERS` is not). -/
def sharedHits (sqrt : K → K) (hits : List (TWritableReconHit K)) :
    List (TWritableReconHit K) :=
  (Solve hits).map (updateCharge sqrt)

/-- The copy of the 3D hits into `clustered`: a hit of charge below 10 is left out.  The
charge is a number; `keptD` is the test on a charge with its special values. -/
def clusteredHits (hits : List (TWritableReconHit K)) : List (TWritableReconHit K) :=
  hits.filter fun hit => !decide (hit.Charge < 10)

/-! ## The used and unused wire hits -/

/-- The size limit `hitLimit` of the bookkeeping. -/
def hitLimit : Nat := 3000

/-- The method `THitSelection::AddHit` of the event library: a handle is appended unless
the selection holds it. -/
def AddHit (sel : THitSelection K) (h : THit K) : THitSelection K :=
  if h ∈ sel then sel else sel ++ [h]

/-- The method `THitSelection::RemoveHit` of the event library: the first occurrence of
the handle is erased. -/
def RemoveHit (sel : THitSelection K) (h : THit K) : THitSelection K :=
  sel.erase h

/-- The bookkeeping of the loop body for one accepted triplet, on the pair
`(used, unused)`. -/
def markUsed (b : THitSelection K × THitSelection K) (p : THit K × THit K × THit K) :
    THitSelection K × THitSelection K :=
  let used1 := AddHit b.1 p.1
  let unused1 := RemoveHit b.2 p.1
  let used2 := AddHit used1 p.2.1
  let unused2 := RemoveHit unused1 p.2.1
  let used3 := AddHit used2 p.2.2
  let unused3 := RemoveHit unused2 p.2.2
  (used3, unused3)

/-- The selections `used` and `unused` at the end of the loops.  The first loop fills
`unused` with every wire hit, and each accepted triplet moves its hits to `used`; both
happen only for fewer than `hitLimit` wire hits. -/
def bookkeeping (triplets : List (THit K × THit K × THit K)) (wireHits : THitSelection K) :
    THitSelection K × THitSelection K :=
  if wireHits.length < hitLimit then triplets.foldl markUsed ([], wireHits) else ([], [])

/-! ## `Process` -/

/-- What `Process` returns (`CP::TAlgorithmResult`): the container `final` with the one
cluster made by `CreateCluster`, given by its hits, and the hit selections added by
`AddHits`. -/
structure TAlgorithmResult (K : Type) where
  /-- The clusters of the container `final`, each given by its hits. -/
  final : List (List (TWritableReconHit K))
  /-- The selection `unused`, added when it is not empty. -/
  unused : Option (THitSelection K)
  /-- The selection `used`, added when it is not empty. -/
  used : Option (THitSelection K)
  /-- The selection `clustered`. -/
  clustered : List (TWritableReconHit K)

/-- The algorithm `TCluster3D::Process`.  The arguments `wires` and `pmts` are the handles
returned by `GetHits()` of the two inputs, `none` for an empty handle; the value `none`
is the empty result handle. -/
def Process (alg : TCluster3D K) (drift : TDriftPosition K) (S : StdSort K) (sqrt : K → K)
    (wires pmts : Option (THitSelection K)) : Option (TAlgorithmResult K) :=
  match wires with
  | none => none
  | some wireHits =>
    match pmts with
    | none => none
    | some pmtHits =>
      if pmtHits.length < 1 then none
      else
        let t0 := TimeZero pmtHits wireHits
        let xHits := S.sort (planeHits WirePlane.kXPlane wireHits)
        let vHits := S.sort (planeHits WirePlane.kVPlane wireHits)
        let uHits := S.sort (planeHits WirePlane.kUPlane wireHits)
        let books := bookkeeping (search alg drift xHits vHits uHits) wireHits
        let hits := sharedHits sqrt (writableHits alg drift S sqrt wireHits t0)
        let clustered := clusteredHits hits
        some
          { final := [clustered]
            unused := if books.2.length > 0 then some books.2 else none
            used := if books.1.length > 0 then some books.1 else none
            clustered := clustered }

/-! ## Fixtures -/

/-- A photo-sensor hit that carries a time only. -/
def pmtAt (i : Nat) (t : K) : THit K :=
  { id := i
    Plane := WirePlane.kOther
    Position := ⟨0, 0, 0⟩
    YAxis := ⟨0, 0, 0⟩
    Time := t
    TimeRMS := 0
    TimeUncertainty := 0
    Charge := 0
    ChargeUncertainty := 0
    RMS := ⟨0, 0, 0⟩ }

/-- A wire hit of a plane at `(x, y)` with wire direction `(dx, dy)`, drift time `t` and
time RMS `rms`; uncertainties are one. -/
def wireAt (i : Nat) (plane : WirePlane) (x y dx dy t rms : K) : THit K :=
  { id := i
    Plane := plane
    Position := ⟨x, y, 0⟩
    YAxis := ⟨dx, dy, 0⟩
    Time := t
    TimeRMS := rms
    TimeUncertainty := 1
    Charge := 100
    ChargeUncertainty := 1
    RMS := ⟨1, 0, 0⟩ }

/-- Trigger times 0, 1.0 us, 1.9 us, 50 us and 50 us. -/
def triggerScenario : THitSelection ℚ :=
  [pmtAt 0 0, pmtAt 1 1000, pmtAt 2 1900, pmtAt 3 50000, pmtAt 4 50000]

/-- Trigger times 0, 1 us, 2 us, 10 us, 11 us and 11.5 us. -/
def triggerBoundary : THitSelection ℚ :=
  [pmtAt 0 0, pmtAt 1 1000, pmtAt 2 2000, pmtAt 3 10000, pmtAt 4 11000, pmtAt 5 11500]

/-- The drift model that leaves the hit time as it is. -/
def driftId : TDriftPosition ℚ :=
  { GetTime := fun h => h.Time
    GetAverageDriftVelocity := 1
    GetPosition := fun h t0 => ⟨h.Position, t0⟩ }

/-- Separation coefficients 1 and the 500 ns floor. -/
def algUnit : TCluster3D ℚ := create 0 1 1 1 1

/-- One X hit, one V hit and two U hits whose wires cross within 1 mm, all at time 0. -/
def scenarioX : THit ℚ := wireAt 0 WirePlane.kXPlane 0 0 0 1 0 0

/-- The V hit of the scenario, a wire along the x axis. -/
def scenarioV : THit ℚ := wireAt 1 WirePlane.kVPlane 0 0 1 0 0 0

/-- The first U hit of the scenario, a diagonal wire through the origin. -/
def scenarioU1 : THit ℚ := wireAt 2 WirePlane.kUPlane 0 0 1 1 0 0

/-- The second U hit of the scenario, a diagonal wire through `(0, 1)`. -/
def scenarioU2 : THit ℚ := wireAt 3 WirePlane.kUPlane 0 1 1 1 0 0

/-- A sort that meets the contract of `std::sort`: insertion sort by `GetTime()`. -/
def sortByTime : StdSort K where
  sort := fun l => l.insertionSort fun a b => a.Time ≤ b.Time
  perm := fun l => List.perm_insertionSort _ l
  sorted := fun l => by
    haveI : IsTotal (THit K) (fun a b => a.Time ≤ b.Time) := ⟨fun a b => le_total a.Time b.Time⟩
    haveI : IsTrans (THit K) (fun a b => a.Time ≤ b.Time) := ⟨fun _ _ _ h1 h2 => le_trans h1 h2⟩
    exact (List.sorted_insertionSort (fun a b : THit K => a.Time ≤ b.Time) l).imp
      (fun h => not_lt.mpr h)

/-- A square root on the rationals: exact on the square of a rational, rounded down in
numerator and denominator otherwise. -/
def sqrtQ (q : ℚ) : ℚ := (Nat.sqrt q.num.toNat : ℚ) / (Nat.sqrt q.den : ℚ)

/-- An X wire along the y axis through the origin, at time 0. -/
def fanX : THit ℚ := wireAt 0 WirePlane.kXPlane 0 0 0 1 0 0

/-- A V wire through the origin with unit direction `(12/13, 5/13)`. -/
def fanV : THit ℚ := wireAt 1 WirePlane.kVPlane 0 0 (12 / 13) (5 / 13) 0 0

/-- A U wire through `(0, 2)` with unit direction `(12/13, -5/13)`. -/
def fanU : THit ℚ := wireAt 2 WirePlane.kUPlane 0 2 (12 / 13) (-5 / 13) 0 0

/-- An X hit at time 0 with a time RMS of 40 us; its wire runs along the y axis. -/
def wideX : THit ℚ := wireAt 0 WirePlane.kXPlane 0 0 0 1 0 40000

/-- A V hit 16 us before `wideX`; its wire runs along the x axis. -/
def wideV : THit ℚ := wireAt 1 WirePlane.kVPlane 0 0 1 0 (-16000) 40000

/-- A U hit 16 us after `wideX`; its wire is the diagonal through the origin. -/
def wideU : THit ℚ := wireAt 2 WirePlane.kUPlane 0 0 1 1 16000 40000

/-- An X wire along the y axis through the origin. -/
def parX : THit ℚ := wireAt 0 WirePlane.kXPlane 0 0 0 1 0 0

/-- A V wire along the y axis through `(1, 0)`, parallel to `parX`. -/
def parV : THit ℚ := wireAt 1 WirePlane.kVPlane 1 0 0 1 0 0

/-- A U wire along the x axis through the origin. -/
def parU : THit ℚ := wireAt 2 WirePlane.kUPlane 0 0 1 0 0 0

/-- The X hit of the scenario with a charge uncertainty of zero. -/
def zeroX : THit ℚ := { scenarioX with ChargeUncertainty := 0 }

/-- The group of the 3D hit of `zeroX` and the V and first U hit of the scenario, with the
whole charge of each hit on its link. -/
def zeroGroup : TMeasurementGroup ℚ :=
  { object := makeHit driftId sqrtQ 0 zeroX scenarioV scenarioU1
    links := [{ hit := zeroX, charge := 100 }, { hit := scenarioV, charge := 100 },
      { hit := scenarioU1, charge := 100 }] }

/-- An X wire through the origin with direction `(1, 1)`. -/
def diagX : THit ℚ := wireAt 0 WirePlane.kXPlane 0 0 1 1 0 0

/-- A V wire through `(0, 1)` with direction `(1, 1)`, parallel to `diagX`. -/
def diagV : THit ℚ := wireAt 1 WirePlane.kVPlane 0 1 1 1 0 0

/-- A U wire along the x axis through the origin. -/
def diagU : THit ℚ := wireAt 2 WirePlane.kUPlane 0 0 1 0 0 0

/-- A 3D hit with the given constituents and charge uncertainty, for the charge sharing. -/
def candidate (xh vh uh : THit K) (chargeUncertainty : K) : TWritableReconHit K :=
  { xh := xh
    vh := vh
    uh := uh
    Time := 0
    TimeUncertainty := 1
    TimeRMS := 0
    Charge := 100
    ChargeUncertainty := chargeUncertainty
    Position := ⟨0, 0, 0⟩
    RMS := ⟨1, 1, 1⟩
    Uncertainty := ⟨1, 1, 1⟩ }

/-- Two 3D hits that share the X hit and the V hit of the scenario. -/
def sharingGroups : List (TWritableReconHit ℚ) :=
  [candidate scenarioX scenarioV scenarioU1 1, candidate scenarioX scenarioV scenarioU2 2]

/-! ## `Process` with the bookkeeping limit as a parameter -/

/-- The selections `used` and `unused` at the end of the loops when the constant
`hitLimit` of `Process` has the value `limit`. -/
def bookkeepingWithLimit (limit : Nat) (triplets : List (THit K × THit K × THit K))
    (wireHits : THitSelection K) : THitSelection K × THitSelection K :=
  if wireHits.length < limit then triplets.foldl markUsed ([], wireHits) else ([], [])

/-- The result that `Process` builds once both inputs are present, when the constant
`hitLimit` has the value `limit`. -/
def buildResult (limit : Nat) (alg : TCluster3D K) (drift : TDriftPosition K) (S : StdSort K)
    (sqrt : K → K) (wireHits pmtHits : THitSelection K) : TAlgorithmResult K :=
  let t0 := TimeZero pmtHits wireHits
  let xHits := S.sort (planeHits WirePlane.kXPlane wireHits)
  let vHits := S.sort (planeHits WirePlane.kVPlane wireHits)
  let uHits := S.sort (planeHits WirePlane.kUPlane wireHits)
  let books := bookkeepingWithLimit limit (search alg drift xHits vHits uHits) wireHits
  let hits := sharedHits sqrt (writableHits alg drift S sqrt wireHits t0)
  let clustered := clusteredHits hits
  { final := [clustered]
    unused := if books.2.length > 0 then some books.2 else none
    used := if books.1.length > 0 then some books.1 else none
    clustered := clustered }

/-- The algorithm `Process` when the constant `hitLimit` has the value `limit`. -/
def ProcessWithLimit (limit : Nat) (alg : TCluster3D K) (drift : TDriftPosition K)
    (S : StdSort K) (sqrt : K → K) (wires pmts : Option (THitSelection K)) :
    Option (TAlgorithmResult K) :=
  match wires with
  | none => none
  | some wireHits =>
    match pmts with
    | none => none
    | some pmtHits =>
      if pmtHits.length < 1 then none
      else some (buildResult limit alg drift S sqrt wireHits pmtHits)

/-- The hits of the selection `used` of a result; a selection that was not added has no
hits. -/
def usedHits (r : TAlgorithmResult K) : THitSelection K := r.used.getD []

/-- The hits of the selection `unused` of a result; a selection that was not added has no
hits. -/
def unusedHits (r : TAlgorithmResult K) : THitSelection K := r.unused.getD []

/-- The 3D hits of `Process` after the charge has been shared, before the copy into
`clustered`. -/
def candidates (alg : TCluster3D K) (drift : TDriftPosition K) (S : StdSort K)
    (sqrt : K → K) (wireHits pmtHits : THitSelection K) : List (TWritableReconHit K) :=
  sharedHits sqrt (writableHits alg drift S sqrt wireHits (TimeZero pmtHits wireHits))

/-- The hits of a list of triplets, in the order in which the loop body handles them. -/
def tripletHits (triplets : List (THit K × THit K × THit K)) : List (THit K) :=
  triplets.flatMap fun p => [p.1, p.2.1, p.2.2]

/-- The drift model that leaves the hit time as it is, over any field. -/
def driftRaw : TDriftPosition K :=
  { GetTime := fun h => h.Time
    GetAverageDriftVelocity := 1
    GetPosition := fun h t0 => ⟨h.Position, t0⟩ }

/-- The X hit of the scenario with a charge of 1. -/
def faintX : THit ℚ := { scenarioX with Charge := 1 }

/-- The V hit of the scenario with a charge of 1. -/
def faintV : THit ℚ := { scenarioV with Charge := 1 }

/-- The first U hit of the scenario with a charge of 1. -/
def faintU : THit ℚ := { scenarioU1 with Charge := 1 }

/-- Three thousand hits of no wire plane, with distinct identities. -/
def limitHits : THitSelection ℚ := (List.range 3000).map fun i => pmtAt i 0

/-! ## Definitions for the plane sequences -/

/-- A sort that meets the contract of `std::sort` and reverses the order of hits of equal
time: insertion sort of the reversed list. -/
def sortReversed : StdSort K where
  sort := fun l => l.reverse.insertionSort fun a b => a.Time ≤ b.Time
  perm := fun l => (List.perm_insertionSort _ l.reverse).trans (List.reverse_perm l)
  sorted := fun l => by
    haveI : IsTotal (THit K) (fun a b => a.Time ≤ b.Time) := ⟨fun a b => le_total a.Time b.Time⟩
    haveI : IsTrans (THit K) (fun a b => a.Time ≤ b.Time) := ⟨fun _ _ _ h1 h2 => le_trans h1 h2⟩
    exact (List.sorted_insertionSort (fun a b : THit K => a.Time ≤ b.Time) l.reverse).imp
      (fun h => not_lt.mpr h)

/-- The hits that `Process` classifies to one of the three wire planes. -/
def recognised (h : THit K) : Bool :=
  decide (h.Plane = WirePlane.kXPlane) || decide (h.Plane = WirePlane.kVPlane)
    || decide (h.Plane = WirePlane.kUPlane)

/-- Two X hits with the same time, for the order of ties. -/
def tieA : THit ℚ := wireAt 0 WirePlane.kXPlane 0 0 0 1 7 0

/-- The second X hit with the time of `tieA`. -/
def tieB : THit ℚ := wireAt 1 WirePlane.kXPlane 3 0 0 1 7 0

/-- A hit of no wire plane. -/
def strayHit : THit ℚ := pmtAt 9 0

/-- The square of the largest of the three distances between the crossing points
`PositionXY(x, v)`, `PositionXY(x, u)` and `PositionXY(v, u)`, the crossing spread of the
specification. -/
def crossingSpread2 (xh vh uh : THit K) : K :=
  max (TVector3.sub (PositionXY xh uh) (PositionXY xh vh)).Mag2
    (max (TVector3.sub (PositionXY vh uh) (PositionXY xh vh)).Mag2
      (TVector3.sub (PositionXY vh uh) (PositionXY xh uh)).Mag2)

/-- The X wire of the fan with a position RMS of 4 across the wire. -/
def spreadX : THit ℚ := { fanX with RMS := ⟨4, 0, 0⟩ }

end TCluster3D

/-! # Road following (`TLinearRoad`)

A shallow embedding of `src/src/TLinearRoad.cxx`.  The containers of cluster handles
(`SeedContainer`, `RemainingContainer`, `TReconObjectContainer`) are lists; `std::find` and
`erase` on them are `List.erase`, which removes the first element equal to the handle.
`std::abort()` and an `erase` at the end position are the result `none`.  In this class a
magnitude `Mag()` is the value `sqrt (Mag2())` of the parameter `sqrt`. -/

/-- A cluster of 3D hits (`CP::TReconCluster`), with the accessors that `TLinearRoad`
reads. -/
structure TReconCluster (K : Type) where
  /-- Identity of the handle. -/
  id : Nat
  /-- Result of `GetPosition().Vect()`. -/
  Position : TVector3 K
  /-- Result of `GetLongAxis()`. -/
  LongAxis : TVector3 K
  /-- Result of `GetEDeposit()`, a `double` with its special values. -/
  EDeposit : Double K
  /-- The positions `GetPosition()` of the hits of `GetHits()`. -/
  Hits : List (TVector3 K)
deriving DecidableEq, Repr

/-- ROOT `TPrincipal` after `MakePrincipals()`: the two changes of coordinates that
`TLinearRoad` calls. -/
structure TPrincipal (K : Type) where
  /-- Result `P` of `X2P(X, P)`. -/
  X2P : TVector3 K → TVector3 K
  /-- Result `X` of `P2X(P, X, 3)`. -/
  P2X : TVector3 K → TVector3 K

/-- The parameters and the three containers of the algorithm object
(`CP::TLinearRoad`). -/
structure TLinearRoad (K : Type) where
  fMaxClusters : Int
  fRoadWidth : K
  fRoadStep : K
  fOpeningAngle : K
  fSeedSize : Nat
  fSeedLength : K
  fRemainingClusters : List (TReconCluster K)
  fOriginalClusters : List (TReconCluster K)
  fTrackClusters : List (TReconCluster K)

namespace TLinearRoad

variable {K : Type} [LinearOrderedField K]

/-- The constructor `TLinearRoad(int maxClusters)`. -/
def create (maxClusters : Int) : TLinearRoad K :=
  { fMaxClusters := maxClusters
    fRoadWidth := 12 * unit.mm
    fRoadStep := 5 * unit.cm
    fOpeningAngle := 15 / 100 * unit.radian
    fSeedSize := 10
    fSeedLength := 5 * unit.cm
    fRemainingClusters := []
    fOriginalClusters := []
    fTrackClusters := [] }

/-! ## `NextCluster` -/

/-- The first principal coordinate of a position, `FindPositionPrincipal`. -/
def FindPositionPrincipal (pca : TPrincipal K) (position : TVector3 K) : K :=
  (pca.X2P position).X

/-- The position at a first principal coordinate, `FindPrincipalPosition`. -/
def FindPrincipalPosition (pca : TPrincipal K) (principal : K) : TVector3 K :=
  pca.P2X ⟨principal, 0, 0⟩

/-- The extent of the seed along the principal axis: the least and the greatest first
principal coordinate of the hits of the seed, starting from the pair `(0, 0)`. -/
def seedExtent (pca : TPrincipal K) (seed : List (TReconCluster K)) : K × K :=
  seed.foldl (fun extent s =>
    s.Hits.foldl (fun extent h =>
      let p := FindPositionPrincipal pca h
      let first := if extent.1 > p then p else extent.1
      let second := if extent.2 < p then p else extent.2
      (first, second)) extent) (0, 0)

/-- The end of the seed to be extended and the direction of the seed
(`seedPosition`, `seedDirection`), for the principal components `pca` of the seed and its
first and last cluster. -/
def seedEnd (sqrt : K → K) (pca : TPrincipal K) (seed : List (TReconCluster K))
    (front back : TReconCluster K) (extendBack : Bool) : TVector3 K × TVector3 K :=
  let extent := seedExtent pca seed
  let pFront := FindPositionPrincipal pca front.Position
  let pBack := FindPositionPrincipal pca back.Position
  let pPosition :=
    if extendBack then
      if pFront < pBack then extent.2 else extent.1
    else
      if pFront < pBack then extent.1 else extent.2
  let seedPosition := FindPrincipalPosition pca pPosition
  let seedDirection := FindPrincipalPosition pca 0
  (seedPosition, TVector3.Unit sqrt (seedPosition.sub seedDirection))

/-- The distance from the seed position to the closest hit of a cluster, starting from one
kilometre. -/
def clusterDist (sqrt : K → K) (seedPosition : TVector3 K) (cluster : TReconCluster K) : K :=
  cluster.Hits.foldl (fun clusterDist h => min (TVector3.Mag sqrt (h.sub seedPosition)) clusterDist)
    (1 * unit.kilometer)

/-- One pass of the loop over the clusters in `NextCluster`, on the pair
`(bestDistance, bestCluster)`. -/
def checkCluster (road : TLinearRoad K) (sqrt : K → K) (seedPosition seedDirection : TVector3 K)
    (best : K × Option (TReconCluster K)) (cluster : TReconCluster K) :
    K × Option (TReconCluster K) :=
  let diff := cluster.Position.sub seedPosition
  let dotProd := diff.dot seedDirection
  if dotProd < -(1 / 2) * road.fRoadWidth then best
  else
    let localWidth := road.fRoadWidth + dotProd * road.fOpeningAngle
    let transDist := TVector3.Mag sqrt (diff.sub (seedDirection.scale dotProd))
    if transDist > 1 / 2 * localWidth then best
    else if dotProd < best.1 then
      if clusterDist sqrt seedPosition cluster < road.fRoadStep then (dotProd, some cluster)
      else best
    else best

/-- The loop over the clusters in `NextCluster` and the handle it returns, for a seed
position and a seed direction. -/
def selectCluster (road : TLinearRoad K) (sqrt : K → K) (seedPosition seedDirection : TVector3 K)
    (clusters : List (TReconCluster K)) : Option (TReconCluster K) :=
  (clusters.foldl (checkCluster road sqrt seedPosition seedDirection)
    (100 * unit.meter, none)).2

/-- The method `NextCluster(seed, clusters, extendBack)` after its loop over the seed that
adds the rows: `principal seed` is the principal components analysis of these rows.  The
loop that adds the rows is `seedRows`, and `NextClusterWithin` is the method with this
loop.  For an empty seed `seed.front()` is undefined; `Process` calls the method with a
seed of more than two clusters. -/
def NextCluster (road : TLinearRoad K) (sqrt : K → K)
    (principal : List (TReconCluster K) → TPrincipal K) (seed clusters : List (TReconCluster K))
    (extendBack : Bool) : Option (TReconCluster K) :=
  match seed.head?, seed.getLast? with
  | some front, some back =>
    let seedPoint := seedEnd sqrt (principal seed) seed front back extendBack
    selectCluster road sqrt seedPoint.1 seedPoint.2 clusters
  | _, _ => none

/-- The loop `for (double q = (*s)->GetEDeposit(); q > 0; q -= 1000)` of `NextCluster` on
the rows added so far, with at most `fuel` tests of `q > 0`: each pass adds `row1`, three
times `row2` and `row3`.  The result is `none` when the loop has not ended within the
fuel.  The difference `q - 1000` of two numbers is rounded to a `double` by `fl`. -/
def rowLoop (fl : K → K) (row1 row2 row3 : TVector3 K) :
    Nat → Double K → List (TVector3 K) → Option (List (TVector3 K))
  | 0, _, _ => none
  | fuel + 1, q, rows =>
    if Double.gt q (.num 0) then
      rowLoop fl row1 row2 row3 fuel (Double.round fl (Double.sub q (.num 1000)))
        (rows ++ [row1, row2, row2, row2, row3])
    else some rows

/-- The loop of `NextCluster` over the clusters of the seed that adds the rows to the
principal components analysis, with the loop over `q` of each cluster on `fuel`; `none`
when one of these loops has not ended within the fuel. -/
def seedRows (fl : K → K) (fuel : Nat) :
    List (TReconCluster K) → List (TVector3 K) → Option (List (TVector3 K))
  | [], rows => some rows
  | s :: rest, rows =>
    match rowLoop fl (s.Position.sub s.LongAxis) s.Position (s.Position.add s.LongAxis)
        fuel s.EDeposit rows with
    | none => none
    | some rows1 => seedRows fl fuel rest rows1

/-- The method `NextCluster(seed, clusters, extendBack)` with its loop that adds the rows,
each loop over `q` on `fuel`: `none` when the method has not returned within the fuel, else
the handle that it returns.  `MakePrincipals` is the principal components analysis that
ROOT makes of the rows (`TPrincipal::AddRow`, `TPrincipal::MakePrincipals`). -/
def NextClusterWithin (fuel : Nat) (road : TLinearRoad K) (sqrt : K → K) (fl : K → K)
    (MakePrincipals : List (TVector3 K) → TPrincipal K) (seed clusters : List (TReconCluster K))
    (extendBack : Bool) : Option (Option (TReconCluster K)) :=
  match seedRows fl fuel seed [] with
  | none => none
  | some rows =>
    some (NextCluster road sqrt (fun _ => MakePrincipals rows) seed clusters extendBack)

/-! ## `Process` -/

/-- The copy of an input container into a list of clusters; `none` when a handle of the
container is not a cluster (`std::abort()`). -/
def copyClusters : List (Option (TReconCluster K)) → Option (List (TReconCluster K))
  | [] => some []
  | none :: _ => none
  | some cluster :: rest =>
    match copyClusters rest with
    | none => none
    | some copied => some (cluster :: copied)

/-- The distance between the first and the last cluster of the current seed. -/
def seedLength (sqrt : K → K) (currentSeed : List (TReconCluster K)) : K :=
  match currentSeed.head?, currentSeed.getLast? with
  | some front, some back => TVector3.Mag sqrt (front.Position.sub back.Position)
  | _, _ => 0

/-- The clusters at the upstream end of the track: the loop from the first track cluster
on, until the seed has `fSeedSize` clusters and the length `fSeedLength`. -/
def gatherUpstream (road : TLinearRoad K) (sqrt : K → K) :
    List (TReconCluster K) → List (TReconCluster K) → List (TReconCluster K)
  | [], currentSeed => currentSeed
  | c :: rest, currentSeed =>
    let currentSeed1 := currentSeed ++ [c]
    if currentSeed1.length < road.fSeedSize then gatherUpstream road sqrt rest currentSeed1
    else if seedLength sqrt currentSeed1 < road.fSeedLength then
      gatherUpstream road sqrt rest currentSeed1
    else currentSeed1

/-- The clusters at the downstream end of the track: the loop from the last track cluster
backwards; the first argument is the track in reverse order. -/
def gatherDownstream (road : TLinearRoad K) (sqrt : K → K) :
    List (TReconCluster K) → List (TReconCluster K) → List (TReconCluster K)
  | [], currentSeed => currentSeed
  | c :: rest, currentSeed =>
    let currentSeed1 := c :: currentSeed
    if currentSeed1.length < road.fSeedSize then gatherDownstream road sqrt rest currentSeed1
    else if seedLength sqrt currentSeed1 < road.fSeedLength then
      gatherDownstream road sqrt rest currentSeed1
    else currentSeed1

/-- The removal of the clusters of the current seed from the track: each is searched with
`std::find` and erased where found. -/
def eraseSeed (currentSeed track : List (TReconCluster K)) : List (TReconCluster K) :=
  currentSeed.foldl (fun track s => track.erase s) track

/-- The inner loop of the upstream search: while the seed has more than `fSeedSize`
clusters and at least the length `fSeedLength`, its last cluster goes to the front of the
track. -/
def popBack (road : TLinearRoad K) (sqrt : K → K) (currentSeed track : List (TReconCluster K)) :
    List (TReconCluster K) × List (TReconCluster K) :=
  if h : currentSeed.length > road.fSeedSize
      ∧ seedLength sqrt currentSeed ≥ road.fSeedLength then
    popBack road sqrt currentSeed.dropLast
      (currentSeed.getLast (List.ne_nil_of_length_pos (Nat.zero_lt_of_lt h.1)) :: track)
  else (currentSeed, track)
termination_by currentSeed.length
decreasing_by
  rw [List.length_dropLast]
  exact Nat.sub_lt (Nat.zero_lt_of_lt h.1) Nat.one_pos

/-- The inner loop of the downstream search: while the seed has more than `fSeedSize`
clusters and at least the length `fSeedLength`, its first cluster goes to the back of the
track. -/
def popFront (road : TLinearRoad K) (sqrt : K → K) :
    List (TReconCluster K) → List (TReconCluster K) →
      List (TReconCluster K) × List (TReconCluster K)
  | [], track => ([], track)
  | front :: rest, track =>
    if (front :: rest).length > road.fSeedSize
        ∧ seedLength sqrt (front :: rest) ≥ road.fSeedLength then
      popFront road sqrt rest (track ++ [front])
    else (front :: rest, track)

/-- The loop `Follow road upstream` on the remaining clusters, the current seed, the track
and the count of collected clusters.  The result is `none` when the cluster returned by
`next` is not among the remaining clusters, where the source erases at the end
position. -/
def followUpstream (road : TLinearRoad K) (sqrt : K → K)
    (next : List (TReconCluster K) → List (TReconCluster K) → Bool → Option (TReconCluster K))
    (remaining currentSeed track : List (TReconCluster K)) (collectedClusters : Int) :
    Option (List (TReconCluster K) × List (TReconCluster K) × List (TReconCluster K)) :=
  if remaining.isEmpty ∨ currentSeed.length ≤ 2 then some (remaining, currentSeed, track)
  else
    match next currentSeed remaining false with
    | none => some (remaining, currentSeed, track)
    | some cluster =>
      if h : cluster ∈ remaining then
        let popped := popBack road sqrt (cluster :: currentSeed) track
        if collectedClusters + 1 > road.fMaxClusters then
          some (remaining.erase cluster, popped.1, popped.2)
        else
          followUpstream road sqrt next (remaining.erase cluster) popped.1 popped.2
            (collectedClusters + 1)
      else none
termination_by remaining.length
decreasing_by
  rw [List.length_erase_of_mem h]
  exact Nat.sub_lt (List.length_pos_of_mem h) Nat.one_pos

/-- The loop `Follow road downstream`, as `followUpstream` with the new cluster at the
back of the seed. -/
def followDownstream (road : TLinearRoad K) (sqrt : K → K)
    (next : List (TReconCluster K) → List (TReconCluster K) → Bool → Option (TReconCluster K))
    (remaining currentSeed track : List (TReconCluster K)) (collectedClusters : Int) :
    Option (List (TReconCluster K) × List (TReconCluster K) × List (TReconCluster K)) :=
  if remaining.isEmpty ∨ currentSeed.length ≤ 2 then some (remaining, currentSeed, track)
  else
    match next currentSeed remaining true with
    | none => some (remaining, currentSeed, track)
    | some cluster =>
      if h : cluster ∈ remaining then
        let popped := popFront road sqrt (currentSeed ++ [cluster]) track
        if collectedClusters + 1 > road.fMaxClusters then
          some (remaining.erase cluster, popped.1, popped.2)
        else
          followDownstream road sqrt next (remaining.erase cluster) popped.1 popped.2
            (collectedClusters + 1)
      else none
termination_by remaining.length
decreasing_by
  rw [List.length_erase_of_mem h]
  exact Nat.sub_lt (List.length_pos_of_mem h) Nat.one_pos

/-- One pass of the body of the `do` loop of `Process` on the remaining clusters and the
track: the upstream search and then the downstream search. -/
def roadPass (road : TLinearRoad K) (sqrt : K → K)
    (next : List (TReconCluster K) → List (TReconCluster K) → Bool → Option (TReconCluster K))
    (remaining track : List (TReconCluster K)) :
    Option (List (TReconCluster K) × List (TReconCluster K)) :=
  let upSeed := gatherUpstream road sqrt track []
  match followUpstream road sqrt next remaining upSeed (eraseSeed upSeed track) 0 with
  | none => none
  | some (remaining1, upSeed1, track1) =>
    let track2 := upSeed1.foldr (fun c track => c :: track) track1
    let downSeed := gatherDownstream road sqrt track2.reverse []
    match followDownstream road sqrt next remaining1 downSeed (eraseSeed downSeed track2) 0 with
    | none => none
    | some (remaining2, downSeed1, track3) =>
      some (remaining2, downSeed1.foldl (fun track c => track ++ [c]) track3)

/-- The `do` loop of `Process`: the body is run, and run again while the track has grown
and the decremented throttle is positive.  The first argument is the throttle. -/
def roadLoop (road : TLinearRoad K) (sqrt : K → K)
    (next : List (TReconCluster K) → List (TReconCluster K) → Bool → Option (TReconCluster K)) :
    Nat → List (TReconCluster K) → List (TReconCluster K) →
      Option (List (TReconCluster K) × List (TReconCluster K))
  | 0, remaining, track => roadPass road sqrt next remaining track
  | throttle + 1, remaining, track =>
    match roadPass road sqrt next remaining track with
    | none => none
    | some (remaining1, track1) =>
      if track.length ≠ track1.length ∧ throttle > 0 then
        roadLoop road sqrt next throttle remaining1 track1
      else some (remaining1, track1)

/-- The method `Process(seed, clusters)` on the algorithm object, with the method
`NextCluster` as the parameter `next`.  The result is `none` where the source calls
`std::abort()`: one of the three containers is not empty, or an input handle is not a
cluster. -/
def Process (road : TLinearRoad K) (sqrt : K → K)
    (next : List (TReconCluster K) → List (TReconCluster K) → Bool → Option (TReconCluster K))
    (seed clusters : List (Option (TReconCluster K))) : Option (TLinearRoad K) :=
  if !road.fRemainingClusters.isEmpty then none
  else if !road.fOriginalClusters.isEmpty then none
  else if !road.fTrackClusters.isEmpty then none
  else
    match copyClusters clusters with
    | none => none
    | some remaining =>
      match copyClusters seed with
      | none => none
      | some track =>
        match roadLoop road sqrt next 5 remaining track with
        | none => none
        | some (remaining1, track1) =>
          some { road with
            fRemainingClusters := remaining1
            fOriginalClusters := track
            fTrackClusters := track1 }

/-! ## `Process` with a method `NextCluster` that may not return

The definitions of this section are those of the section before, for a method `next` whose
result is `none` when the call does not return; the result of the loops and of `Process`
is then `none`, and otherwise `some` of the result of the section before. -/

/-- The loop `Follow road upstream`, as `followUpstream`, for a method `next` that may not
return. -/
def followUpstreamWithin (road : TLinearRoad K) (sqrt : K → K)
    (next : List (TReconCluster K) → List (TReconCluster K) → Bool →
      Option (Option (TReconCluster K)))
    (remaining currentSeed track : List (TReconCluster K)) (collectedClusters : Int) :
    Option (Option (List (TReconCluster K) × List (TReconCluster K) × List (TReconCluster K))) :=
  if remaining.isEmpty ∨ currentSeed.length ≤ 2 then some (some (remaining, currentSeed, track))
  else
    match next currentSeed remaining false with
    | none => none
    | some none => some (some (remaining, currentSeed, track))
    | some (some cluster) =>
      if h : cluster ∈ remaining then
        let popped := popBack road sqrt (cluster :: currentSeed) track
        if collectedClusters + 1 > road.fMaxClusters then
          some (some (remaining.erase cluster, popped.1, popped.2))
        else
          followUpstreamWithin road sqrt next (remaining.erase cluster) popped.1 popped.2
            (collectedClusters + 1)
      else some none
termination_by remaining.length
decreasing_by
  rw [List.length_erase_of_mem h]
  exact Nat.sub_lt (List.length_pos_of_mem h) Nat.one_pos

/-- The loop `Follow road downstream`, as `followDownstream`, for a method `next` that may
not return. -/
def followDownstreamWithin (road : TLinearRoad K) (sqrt : K → K)
    (next : List (TReconCluster K) → List (TReconCluster K) → Bool →
      Option (Option (TReconCluster K)))
    (remaining currentSeed track : List (TReconCluster K)) (collectedClusters : Int) :
    Option (Option (List (TReconCluster K) × List (TReconCluster K) × List (TReconCluster K))) :=
  if remaining.isEmpty ∨ currentSeed.length ≤ 2 then some (some (remaining, currentSeed, track))
  else
    match next currentSeed remaining true with
    | none => none
    | some none => some (some (remaining, currentSeed, track))
    | some (some cluster) =>
      if h : cluster ∈ remaining then
        let popped := popFront road sqrt (currentSeed ++ [cluster]) track
        if collectedClusters + 1 > road.fMaxClusters then
          some (some (remaining.erase cluster, popped.1, popped.2))
        else
          followDownstreamWithin road sqrt next (remaining.erase cluster) popped.1 popped.2
            (collectedClusters + 1)
      else some none
termination_by remaining.length
decreasing_by
  rw [List.length_erase_of_mem h]
  exact Nat.sub_lt (List.length_pos_of_mem h) Nat.one_pos

/-- One pass of the body of the `do` loop of `Process`, as `roadPass`, for a method `next`
that may not return. -/
def roadPassWithin (road : TLinearRoad K) (sqrt : K → K)
    (next : List (TReconCluster K) → List (TReconCluster K) → Bool →
      Option (Option (TReconCluster K)))
    (remaining track : List (TReconCluster K)) :
    Option (Option (List (TReconCluster K) × List (TReconCluster K))) :=
  let upSeed := gatherUpstream road sqrt track []
  match followUpstreamWithin road sqrt next remaining upSeed (eraseSeed upSeed track) 0 with
  | none => none
  | some none => some none
  | some (some (remaining1, upSeed1, track1)) =>
    let track2 := upSeed1.foldr (fun c track => c :: track) track1
    let downSeed := gatherDownstream road sqrt track2.reverse []
    match followDownstreamWithin road sqrt next remaining1 downSeed
        (eraseSeed downSeed track2) 0 with
    | none => none
    | some none => some none
    | some (some (remaining2, downSeed1, track3)) =>
      some (some (remaining2, downSeed1.foldl (fun track c => track ++ [c]) track3))

/-- The `do` loop of `Process`, as `roadLoop`, for a method `next` that may not return.
The first argument is the throttle. -/
def roadLoopWithin (road : TLinearRoad K) (sqrt : K → K)
    (next : List (TReconCluster K) → List (TReconCluster K) → Bool →
      Option (Option (TReconCluster K))) :
    Nat → List (TReconCluster K) → List (TReconCluster K) →
      Option (Option (List (TReconCluster K) × List (TReconCluster K)))
  | 0, remaining, track => roadPassWithin road sqrt next remaining track
  | throttle + 1, remaining, track =>
    match roadPassWithin road sqrt next remaining track with
    | none => none
    | some none => some none
    | some (some (remaining1, track1)) =>
      if track.length ≠ track1.length ∧ throttle > 0 then
        roadLoopWithin road sqrt next throttle remaining1 track1
      else some (some (remaining1, track1))

/-- The method `Process(seed, clusters)`, as `Process`, for a method `next` that may not
return: `none` when a call of `next` does not return, `some none` where the source calls
`std::abort()` or erases at the end position, else `some` of the algorithm object after the
method. -/
def ProcessWithin (road : TLinearRoad K) (sqrt : K → K)
    (next : List (TReconCluster K) → List (TReconCluster K) → Bool →
      Option (Option (TReconCluster K)))
    (seed clusters : List (Option (TReconCluster K))) : Option (Option (TLinearRoad K)) :=
  if !road.fRemainingClusters.isEmpty then some none
  else if !road.fOriginalClusters.isEmpty then some none
  else if !road.fTrackClusters.isEmpty then some none
  else
    match copyClusters clusters with
    | none => some none
    | some remaining =>
      match copyClusters seed with
      | none => some none
      | some track =>
        match roadLoopWithin road sqrt next 5 remaining track with
        | none => none
        | some none => some none
        | some (some (remaining1, track1)) =>
          some (some { road with
            fRemainingClusters := remaining1
            fOriginalClusters := track
            fTrackClusters := track1 })

/-- The `do` loop of `Process` with a record of its passes, as `roadTrace`, for a method
`next` that may not return. -/
def roadTraceWithin (road : TLinearRoad K) (sqrt : K → K)
    (next : List (TReconCluster K) → List (TReconCluster K) → Bool →
      Option (Option (TReconCluster K))) :
    Nat → List (TReconCluster K) → List (TReconCluster K) →
      Option (Option (List (List (TReconCluster K) × List (TReconCluster K))))
  | 0, remaining, track =>
    match roadPassWithin road sqrt next remaining track with
    | none => none
    | some none => some none
    | some (some r) => some (some [r])
  | throttle + 1, remaining, track =>
    match roadPassWithin road sqrt next remaining track with
    | none => none
    | some none => some none
    | some (some (remaining1, track1)) =>
      if track.length ≠ track1.length ∧ throttle > 0 then
        match roadTraceWithin road sqrt next throttle remaining1 track1 with
        | none => none
        | some none => some none
        | some (some passes) => some (some ((remaining1, track1) :: passes))
      else some (some [(remaining1, track1)])

/-! ## Eligible clusters -/

/-- The forward distance `f = (pos - p).d` of a cluster from the seed position `p` along
the direction `d`. -/
def forward (p d : TVector3 K) (c : TReconCluster K) : K := (c.Position.sub p).dot d

/-- The transverse distance `|(pos - p) - f*d|` of a cluster from the axis of the road. -/
def transverse (sqrt : K → K) (p d : TVector3 K) (c : TReconCluster K) : K :=
  TVector3.Mag sqrt ((c.Position.sub p).sub (d.scale (forward p d c)))

/-- The eligible clusters of the specification of `NextCluster`. -/
def Eligible (road : TLinearRoad K) (sqrt : K → K) (p d : TVector3 K) (c : TReconCluster K) :
    Prop :=
  forward p d c ≥ -(1 / 2) * road.fRoadWidth ∧ forward p d c < 100 * unit.meter ∧
    transverse sqrt p d c ≤ 1 / 2 * (road.fRoadWidth + forward p d c * road.fOpeningAngle) ∧
    ∃ h ∈ c.Hits, TVector3.Mag sqrt (h.sub p) < road.fRoadStep

/-! ## Fixtures for the road -/

/-- A cluster with one hit at its position, long axis along x and an energy deposit of
1000. -/
def clusterAt (id : Nat) (x y z : K) : TReconCluster K :=
  { id := id
    Position := ⟨x, y, z⟩
    LongAxis := ⟨1, 0, 0⟩
    EDeposit := .num 1000
    Hits := [⟨x, y, z⟩] }

/-- A principal components analysis whose principal axes are the coordinate axes. -/
def principalId (_seed : List (TReconCluster K)) : TPrincipal K :=
  { X2P := fun x => x
    P2X := fun p => p }

/-- The principal components analysis of `principalId`, for every list of rows. -/
def principalRows (_rows : List (TVector3 K)) : TPrincipal K :=
  { X2P := fun x => x
    P2X := fun p => p }

/-- A seed of three clusters on the x axis whose second cluster has the energy deposit
`+inf`. -/
def infiniteSeed : List (TReconCluster ℚ) :=
  [clusterAt 1 0 0 0, { clusterAt 2 1 0 0 with EDeposit := .pinf }, clusterAt 3 2 0 0]

/-- A seed of twelve clusters whose first cluster is also its last: the cluster 1 at the
origin, the cluster 2 at x = 1 mm, the clusters 3 to 11 at x = 60 mm, and the cluster 1
again. -/
def loopSeed : List (TReconCluster ℚ) :=
  [clusterAt 1 0 0 0, clusterAt 2 1 0 0, clusterAt 3 60 0 0, clusterAt 4 60 0 0,
    clusterAt 5 60 0 0, clusterAt 6 60 0 0, clusterAt 7 60 0 0, clusterAt 8 60 0 0,
    clusterAt 9 60 0 0, clusterAt 10 60 0 0, clusterAt 11 60 0 0, clusterAt 1 0 0 0]

/-- The track that `Process` builds from `loopSeed`: the cluster 2 has come before the
cluster 1. -/
def loopTrack : List (TReconCluster ℚ) :=
  [clusterAt 2 1 0 0, clusterAt 1 0 0 0, clusterAt 3 60 0 0, clusterAt 4 60 0 0,
    clusterAt 5 60 0 0, clusterAt 6 60 0 0, clusterAt 7 60 0 0, clusterAt 8 60 0 0,
    clusterAt 9 60 0 0, clusterAt 10 60 0 0, clusterAt 11 60 0 0, clusterAt 1 0 0 0]

/-! ## The passes of the `do` loop and `GetTrack` -/

/-- The `do` loop of `Process` with a record of its passes: the remaining clusters and the
track after each pass of the body, in order.  The first argument is the throttle. -/
def roadTrace (road : TLinearRoad K) (sqrt : K → K)
    (next : List (TReconCluster K) → List (TReconCluster K) → Bool → Option (TReconCluster K)) :
    Nat → List (TReconCluster K) → List (TReconCluster K) →
      Option (List (List (TReconCluster K) × List (TReconCluster K)))
  | 0, remaining, track =>
    match roadPass road sqrt next remaining track with
    | none => none
    | some r => some [r]
  | throttle + 1, remaining, track =>
    match roadPass road sqrt next remaining track with
    | none => none
    | some (remaining1, track1) =>
      if track.length ≠ track1.length ∧ throttle > 0 then
        match roadTrace road sqrt next throttle remaining1 track1 with
        | none => none
        | some passes => some ((remaining1, track1) :: passes)
      else some [(remaining1, track1)]

/-- The method `GetTrack()`: an empty handle for fewer than two track clusters, else the
handle that `CreateTrackFromClusters`, a function that is not among the sources, returns
for the track clusters.  `CheckUnique` writes to the log only. -/
def GetTrack {T : Type} (CreateTrackFromClusters : List (TReconCluster K) → Option T)
    (road : TLinearRoad K) : Option T :=
  if road.fTrackClusters.length < 2 then none
  else CreateTrackFromClusters road.fTrackClusters

end TLinearRoad

/-! # Theorems -/

namespace TCluster3D

variable {K : Type} [LinearOrderedField K]

/-! ## `TimeZero` -/

theorem two_microsecond_nonneg : (0 : K) ≤ 2 * unit.microsecond := by
  simp [unit.microsecond, unit.ns]

theorem windowCount_nil (t : K) : windowCount ([] : List K) t = 0 := rfl

theorem windowCount_cons (a : K) (l : List K) (t : K) :
    windowCount (a :: l) t
      = windowCount l t + (if t ≤ a ∧ a - t ≤ 2 * unit.microsecond then 1 else 0) := by
  unfold windowCount
  rw [List.countP_cons]
  simp only [decide_eq_true_eq]

theorem windowCount_append (l₁ l₂ : List K) (t : K) :
    windowCount (l₁ ++ l₂) t = windowCount l₁ t + windowCount l₂ t := by
  unfold windowCount
  rw [List.countP_append]

theorem windowCount_eq_zero (l : List K) (t : K)
    (h : ∀ b ∈ l, ¬ (t ≤ b ∧ b - t ≤ 2 * unit.microsecond)) : windowCount l t = 0 := by
  unfold windowCount
  rw [List.countP_eq_zero]
  intro b hb
  simpa only [decide_eq_true_eq] using h b hb

theorem windowCount_perm {l₁ l₂ : List K} (h : l₁.Perm l₂) (t : K) :
    windowCount l₁ t = windowCount l₂ t := by
  unfold windowCount
  exact h.countP_eq _

/-- On a sorted list the inner loop counts the closed window that starts at `t`. -/
theorem windowSteps_eq_count (t : K) :
    ∀ rest : List K, (t :: rest).Sorted (fun a b => a ≤ b) →
      windowSteps t rest + 1 = windowCount (t :: rest) t := by
  intro rest
  have htt : t ≤ t ∧ t - t ≤ 2 * unit.microsecond := by
    refine ⟨le_refl t, ?_⟩
    rw [sub_self]
    exact two_microsecond_nonneg
  induction rest with
  | nil =>
    intro _
    rw [windowCount_cons, windowCount_nil, if_pos htt]
    rfl
  | cons h hs ih =>
    intro hsorted
    have hth : t ≤ h := List.rel_of_sorted_cons hsorted h (by simp)
    have hsorted2 : (t :: hs).Sorted (fun a b => a ≤ b) :=
      List.sorted_cons.2 ⟨fun b hb => List.rel_of_sorted_cons hsorted b (by simp [hb]),
        List.Sorted.of_cons (List.Sorted.of_cons hsorted)⟩
    have ih2 := ih hsorted2
    rw [windowCount_cons, if_pos htt] at ih2 ⊢
    rw [windowCount_cons]
    by_cases hgt : h - t > 2 * unit.microsecond
    · -- every later time is outside the window as well
      have hzero : ∀ b ∈ hs, ¬ (t ≤ b ∧ b - t ≤ 2 * unit.microsecond) := by
        intro b hb hcon
        have hhb : h ≤ b := List.rel_of_sorted_cons (List.Sorted.of_cons hsorted) b hb
        linarith [hcon.2]
      have hnot : ¬ (t ≤ h ∧ h - t ≤ 2 * unit.microsecond) := fun hc => absurd hc.2 (not_le.mpr hgt)
      rw [windowCount_eq_zero hs t hzero, if_neg hnot]
      simp [windowSteps, hgt]
    · have hle : h - t ≤ 2 * unit.microsecond := not_lt.mp hgt
      have e1 : windowSteps t (h :: hs) = windowSteps t hs + 1 := by
        simp [windowSteps, hgt]
      rw [e1, if_pos ⟨hth, hle⟩]
      omega

theorem windowScan_spec (L : List K) (hL : L.Sorted (fun a b => a ≤ b)) (hne : L ≠ []) :
    ∀ (suf pre : List K) (t0 : K) (m : Nat), L = pre ++ suf → ScanInv L pre t0 m →
      ScanPost L (windowScan suf t0 m) := by
  intro suf
  induction suf with
  | nil =>
    intro pre t0 m hsplit hinv
    rw [List.append_nil] at hsplit
    subst hsplit
    rcases hinv with ⟨hpre, _⟩ | ⟨hmem, hcnt, hmax, hmin⟩
    · exact absurd hpre hne
    · subst hcnt
      exact ⟨hmem, hmax, hmin⟩
  | cons t rest ih =>
    intro pre t0 m hsplit hinv
    have hsorted := hL
    rw [hsplit, List.Sorted, List.pairwise_append] at hsorted
    obtain ⟨_, hsuf, hcross⟩ := hsorted
    have hpre_le : ∀ b ∈ pre, b ≤ t := fun b hb => hcross b hb t (by simp)
    have hdh : windowSteps t rest + 1 = windowCount (t :: rest) t :=
      windowSteps_eq_count t rest hsuf
    have hsplitcount : windowCount L t = windowCount pre t + (windowSteps t rest + 1) := by
      rw [hdh, hsplit, windowCount_append]
    have hfresh : t ∉ pre → windowCount pre t = 0 := by
      intro hnot
      apply windowCount_eq_zero
      intro b hb hcon
      have : b = t := le_antisymm (hpre_le b hb) hcon.1
      exact hnot (this ▸ hb)
    have hsplit2 : L = (pre ++ [t]) ++ rest := by
      rw [hsplit, List.append_assoc]
      rfl
    show ScanPost L (if windowSteps t rest + 1 > m then windowScan rest t (windowSteps t rest + 1)
      else windowScan rest t0 m)
    by_cases hgt : windowSteps t rest + 1 > m
    · rw [if_pos hgt]
      apply ih (pre ++ [t]) t (windowSteps t rest + 1) hsplit2
      right
      have hnotmem : t ∉ pre := by
        intro hmem
        rcases hinv with ⟨hpre, _⟩ | ⟨_, _, hmax, _⟩
        · rw [hpre] at hmem
          exact absurd hmem (List.not_mem_nil t)
        · have := hmax t hmem
          omega
      have hcnt : windowCount L t = windowSteps t rest + 1 := by
        rw [hsplitcount, hfresh hnotmem, Nat.zero_add]
      refine ⟨by simp, hcnt, ?_, ?_⟩
      · intro b hb
        rcases List.mem_append.1 hb with hb | hb
        · rcases hinv with ⟨hpre, _⟩ | ⟨_, _, hmax, _⟩
          · rw [hpre] at hb
            exact absurd hb (List.not_mem_nil b)
          · have := hmax b hb
            omega
        · rw [List.mem_singleton] at hb
          rw [hb, hcnt]
      · intro b hb hbc
        rcases List.mem_append.1 hb with hb | hb
        · rcases hinv with ⟨hpre, _⟩ | ⟨_, _, hmax, _⟩
          · rw [hpre] at hb
            exact absurd hb (List.not_mem_nil b)
          · have := hmax b hb
            omega
        · rw [List.mem_singleton] at hb
          rw [hb]
    · rw [if_neg hgt]
      apply ih (pre ++ [t]) t0 m hsplit2
      right
      rcases hinv with ⟨_, hm⟩ | ⟨hmem, hcnt0, hmax, hmin⟩
      · omega
      · have hcnt : windowCount L t ≤ m := by
          by_cases hmemt : t ∈ pre
          · exact hmax t hmemt
          · rw [hsplitcount, hfresh hmemt]
            omega
        refine ⟨List.mem_append_left _ hmem, hcnt0, ?_, ?_⟩
        · intro b hb
          rcases List.mem_append.1 hb with hb | hb
          · exact hmax b hb
          · rw [List.mem_singleton] at hb
            rw [hb]
            exact hcnt
        · intro b hb hbc
          rcases List.mem_append.1 hb with hb | hb
          · exact hmin b hb hbc
          · rw [List.mem_singleton] at hb
            rw [hb]
            exact hpre_le t0 hmem

/-- The time zero of a non-empty selection, in terms of the closed-window counts of its
own times. -/
theorem TimeZero_spec (pmts wires : THitSelection K) (hne : pmts ≠ []) :
    ScanPost (pmts.map THit.Time) (TimeZero pmts wires) := by
  have hperm : ((pmts.map THit.Time).insertionSort (fun a b => a ≤ b)).Perm
      (pmts.map THit.Time) := List.perm_insertionSort _ _
  have hsorted : ((pmts.map THit.Time).insertionSort (fun a b => a ≤ b)).Sorted
      (fun a b => a ≤ b) := List.sorted_insertionSort _ _
  have hne2 : (pmts.map THit.Time).insertionSort (fun a b => a ≤ b) ≠ [] := by
    intro h
    rw [h] at hperm
    have := hperm.symm.eq_nil
    rw [List.map_eq_nil_iff] at this
    exact hne this
  have hempty : pmts.isEmpty = false := by
    cases pmts with
    | nil => exact absurd rfl hne
    | cons _ _ => rfl
  have key := windowScan_spec _ hsorted hne2 _ [] 0 0 (List.nil_append _).symm
    (Or.inl ⟨rfl, rfl⟩)
  have hdef : TimeZero pmts wires
      = windowScan ((pmts.map THit.Time).insertionSort (fun a b => a ≤ b)) 0 0 := by
    unfold TimeZero
    rw [hempty]
    rfl
  rw [hdef]
  obtain ⟨h1, h2, h3⟩ := key
  refine ⟨hperm.mem_iff.1 h1, ?_, ?_⟩
  · intro t ht
    rw [← windowCount_perm hperm, ← windowCount_perm hperm]
    exact h2 t (hperm.mem_iff.2 ht)
  · intro t ht hc
    rw [← windowCount_perm hperm, ← windowCount_perm hperm] at hc
    exact h3 t (hperm.mem_iff.2 ht) hc

/-- C3: for a non-empty collection of trigger hits, `TimeZero` returns a trigger time
whose closed window `[t, t + 2 us]` holds the largest number of trigger times (with
multiplicity) among the windows starting at a trigger time, and it is the smallest
trigger time with that count. -/
theorem TimeZero_earliest_densest_window (pmts wires : THitSelection K) (hne : pmts ≠ []) :
    TimeZero pmts wires ∈ pmts.map THit.Time ∧
      (∀ t ∈ pmts.map THit.Time,
        windowCount (pmts.map THit.Time) t
          ≤ windowCount (pmts.map THit.Time) (TimeZero pmts wires)) ∧
      (∀ t ∈ pmts.map THit.Time,
        windowCount (pmts.map THit.Time) t
          = windowCount (pmts.map THit.Time) (TimeZero pmts wires) →
        TimeZero pmts wires ≤ t) :=
  TimeZero_spec pmts wires hne

theorem TimeZero_triggerScenario : TimeZero triggerScenario [] = 0 := by
  simp [TimeZero, triggerScenario, pmtAt, windowScan, windowSteps, unit.microsecond, unit.ns,
    List.insertionSort, List.orderedInsert]
  norm_num

/-- Witness for C3: the times 0, 1.0 us, 1.9 us, 50 us, 50 us give time zero 0. -/
theorem TimeZero_earliest_densest_window_witness :
    triggerScenario ≠ [] ∧ TimeZero triggerScenario [] = 0 ∧
      TimeZero triggerScenario [] ∈ triggerScenario.map THit.Time :=
  ⟨by simp [triggerScenario], TimeZero_triggerScenario,
    (TimeZero_earliest_densest_window triggerScenario [] (by simp [triggerScenario])).1⟩

theorem TimeZero_triggerBoundary : TimeZero triggerBoundary [] = 0 := by
  simp [TimeZero, triggerBoundary, pmtAt, windowScan, windowSteps, unit.microsecond, unit.ns,
    List.insertionSort, List.orderedInsert]
  norm_num

/-- Counterexample to C4 as stated: for the trigger times 0, 1, 2, 10, 11, 11.5 us the
returned time 0 has two times in its half-open window `[0, 2 us)`, while the window
starting at the trigger time 10 us has three. -/
theorem TimeZero_half_open_not_maximal :
    (10000 : ℚ) ∈ triggerBoundary.map THit.Time ∧
      halfOpenCount (triggerBoundary.map THit.Time) (TimeZero triggerBoundary [])
        < halfOpenCount (triggerBoundary.map THit.Time) 10000 := by
  rw [TimeZero_triggerBoundary]
  constructor
  · simp [triggerBoundary, pmtAt]
  · simp [halfOpenCount, triggerBoundary, pmtAt, unit.microsecond, unit.ns, List.countP_cons]
    norm_num

/-- C4 (amended): for a non-empty collection of trigger hits, the closed window
`[t, t + 2 us]` of the returned time holds at least as many trigger times as the closed
window of any trigger time, and strictly more than the window of any earlier trigger
time. -/
theorem TimeZero_closed_window_maximal (pmts wires : THitSelection K) (hne : pmts ≠ []) :
    ∀ t ∈ pmts.map THit.Time,
      windowCount (pmts.map THit.Time) t
          ≤ windowCount (pmts.map THit.Time) (TimeZero pmts wires) ∧
        (t < TimeZero pmts wires →
          windowCount (pmts.map THit.Time) t
            < windowCount (pmts.map THit.Time) (TimeZero pmts wires)) := by
  intro t ht
  obtain ⟨_, hmax, hmin⟩ := TimeZero_spec pmts wires hne
  refine ⟨hmax t ht, fun hlt => ?_⟩
  rcases Nat.lt_or_eq_of_le (hmax t ht) with h | h
  · exact h
  · exact absurd (hmin t ht h) (not_le.mpr hlt)

/-- Witness for C4 (amended): the boundary times, where the closed window of 0 holds
three times. -/
theorem TimeZero_closed_window_maximal_witness :
    triggerBoundary ≠ [] ∧
      windowCount (triggerBoundary.map THit.Time) 10000
        ≤ windowCount (triggerBoundary.map THit.Time) (TimeZero triggerBoundary []) :=
  ⟨by simp [triggerBoundary],
    (TimeZero_closed_window_maximal triggerBoundary [] (by simp [triggerBoundary]) 10000
      (by simp [triggerBoundary, pmtAt])).1⟩

/-! ## `PositionXY` -/

/-- C7: for two hits whose wire directions are not parallel, the point returned by
`PositionXY` is `pos1 + s1 * dir1`, it is `pos2 + s2 * dir2` for some `s2`, and its third
component is zero. -/
theorem PositionXY_on_both_wires (hit1 hit2 : THit K)
    (hdet : hit2.YAxis.X * hit1.YAxis.Y - hit1.YAxis.X * hit2.YAxis.Y ≠ 0) :
    (PositionXY hit1 hit2).X = hit1.Position.X + shift1 hit1 hit2 * hit1.YAxis.X ∧
      (PositionXY hit1 hit2).Y = hit1.Position.Y + shift1 hit1 hit2 * hit1.YAxis.Y ∧
      (∃ s2 : K, (PositionXY hit1 hit2).X = hit2.Position.X + s2 * hit2.YAxis.X ∧
        (PositionXY hit1 hit2).Y = hit2.Position.Y + s2 * hit2.YAxis.Y) ∧
      (PositionXY hit1 hit2).Z = 0 := by
  refine ⟨rfl, rfl, ⟨shift2 hit1 hit2, ?_, ?_⟩, rfl⟩
  · simp only [PositionXY, shift1, shift2]
    field_simp
    ring
  · simp only [PositionXY, shift1, shift2]
    field_simp
    ring

/-- Witness for C7: a wire along the y axis through the origin and a wire along the x
axis through `(3, 5)` cross at `(0, 5, 0)`. -/
theorem PositionXY_on_both_wires_witness :
    PositionXY (wireAt 0 WirePlane.kXPlane (0 : ℚ) 0 0 1 0 0)
        (wireAt 1 WirePlane.kVPlane 3 5 1 0 0 0) = ⟨0, 5, 0⟩ ∧
      (PositionXY (wireAt 0 WirePlane.kXPlane (0 : ℚ) 0 0 1 0 0)
        (wireAt 1 WirePlane.kVPlane 3 5 1 0 0 0)).Z = 0 :=
  ⟨by simp [PositionXY, shift1, wireAt],
    (PositionXY_on_both_wires (wireAt 0 WirePlane.kXPlane (0 : ℚ) 0 0 1 0 0)
      (wireAt 1 WirePlane.kVPlane 3 5 1 0 0 0) (by simp [wireAt])).2.2.2⟩

/-! ## The special values of `PositionXY` -/

/-- For a divisor that is not zero the shift is a number. -/
theorem shift1D_eq (hit1 hit2 : THit K) (hdet : crossDet hit1 hit2 ≠ 0) :
    shift1D hit1 hit2 = Double.num (shift1 hit1 hit2) := by
  unfold crossDet at hdet
  simp only [shift1D, shift1, Double.div, if_neg hdet]

/-- For a divisor that is not zero the point of `PositionXY` is a point of numbers. -/
theorem PositionXYD_eq (hit1 hit2 : THit K) (hdet : crossDet hit1 hit2 ≠ 0) :
    PositionXYD hit1 hit2
      = ⟨Double.num (PositionXY hit1 hit2).X, Double.num (PositionXY hit1 hit2).Y,
          Double.num (PositionXY hit1 hit2).Z⟩ := by
  simp only [PositionXYD, shift1D_eq hit1 hit2 hdet, PositionXY, Double.mul, Double.add]

/-- When neither the V wire nor the U wire is parallel to the X wire, the squared distance
that the loop body tests is a number. -/
theorem dist2D_eq (x v u : THit K) (hxv : crossDet x v ≠ 0) (hxu : crossDet x u ≠ 0) :
    dist2D x v u = Double.num (dist2 x v u) := by
  simp only [dist2D, dist2, PositionXYD_eq x v hxv, PositionXYD_eq x u hxu, Double.vsub,
    Double.vmag2, Double.sub, Double.neg, Double.add, Double.mul, TVector3.sub, TVector3.Mag2,
    sub_eq_add_neg]

/-! ## The search for triplets -/

theorem maxDeltaT_nonneg : (0 : K) ≤ maxDeltaT := by
  simp [maxDeltaT, unit.microsecond, unit.ns]

/-- The four tests of the inner loop that follow the `break`, as one condition. -/
theorem consistent_iff_tests (alg : TCluster3D K) (drift : TDriftPosition K) (x v u : THit K)
    (hv : |drift.GetTime v - drift.GetTime x| ≤ maxDeltaT)
    (hu : |drift.GetTime u - drift.GetTime x| ≤ maxDeltaT) :
    Consistent alg drift x v u ↔
      (¬ |drift.GetTime u - drift.GetTime x| > overlapXU alg x u ∧
        ¬ |drift.GetTime v - drift.GetTime x| > overlapXV alg x v ∧
        ¬ |drift.GetTime v - drift.GetTime u| > overlapUV alg u v ∧
        ¬ Double.gt (dist2D x v u) (.num ((2 * unit.mm) * (2 * unit.mm))) = true) := by
  unfold Consistent
  rw [abs_sub_comm (drift.GetTime x) (drift.GetTime u),
    abs_sub_comm (drift.GetTime x) (drift.GetTime v)]
  simp only [not_lt, gt_iff_lt, Bool.not_eq_true]
  constructor
  · rintro ⟨_, _, h1, h2, h3, h4⟩
    exact ⟨h1, h2, h3, h4⟩
  · rintro ⟨h1, h2, h3, h4⟩
    exact ⟨hv, hu, h1, h2, h3, h4⟩

/-- One step of the inner loop on a hit inside the search window. -/
theorem uLoop_cons_inside (alg : TCluster3D K) (drift : TDriftPosition K) (x v u : THit K)
    (us : List (THit K))
    (hv : |drift.GetTime v - drift.GetTime x| ≤ maxDeltaT)
    (hu : |drift.GetTime u - drift.GetTime x| ≤ maxDeltaT) :
    uLoop alg drift x v (u :: us)
      = if Consistent alg drift x v u then (x, v, u) :: uLoop alg drift x v us
        else uLoop alg drift x v us := by
  have hnb : ¬ drift.GetTime u - drift.GetTime x > maxDeltaT :=
    not_lt.mpr (le_trans (le_abs_self _) hu)
  have hiff := consistent_iff_tests alg drift x v u hv hu
  by_cases hc : Consistent alg drift x v u
  · obtain ⟨h1, h2, h3, h4⟩ := hiff.1 hc
    rw [if_pos hc]
    simp only [uLoop, if_neg hnb, if_neg h1, if_neg h2, if_neg h3, if_neg h4]
  · rw [if_neg hc]
    by_cases h1 : |drift.GetTime u - drift.GetTime x| > overlapXU alg x u
    · simp only [uLoop, if_neg hnb, if_pos h1]
    · by_cases h2 : |drift.GetTime v - drift.GetTime x| > overlapXV alg x v
      · simp only [uLoop, if_neg hnb, if_neg h1, if_pos h2]
      · by_cases h3 : |drift.GetTime v - drift.GetTime u| > overlapUV alg u v
        · simp only [uLoop, if_neg hnb, if_neg h1, if_neg h2, if_pos h3]
        · by_cases h4 : Double.gt (dist2D x v u) (.num ((2 * unit.mm) * (2 * unit.mm))) = true
          · simp only [uLoop, if_neg hnb, if_neg h1, if_neg h2, if_neg h3, if_pos h4]
          · exact absurd (hiff.2 ⟨h1, h2, h3, h4⟩) hc

/-- On a sorted list that starts inside the search window, the inner loop keeps exactly
the consistent hits. -/
theorem uLoop_eq_filter (alg : TCluster3D K) (drift : TDriftPosition K) (x v : THit K)
    (hv : |drift.GetTime v - drift.GetTime x| ≤ maxDeltaT) :
    ∀ us : List (THit K), TimeSorted drift us →
      (∀ u ∈ us, -maxDeltaT ≤ drift.GetTime u - drift.GetTime x) →
      uLoop alg drift x v us
        = (us.filter fun u => decide (Consistent alg drift x v u)).map fun u => (x, v, u) := by
  intro us
  induction us with
  | nil => intro _ _; rfl
  | cons u rest ih =>
    intro hsorted hlow
    have hrest := ih (List.Sorted.of_cons hsorted) (fun w hw => hlow w (List.mem_cons_of_mem _ hw))
    by_cases hb : drift.GetTime u - drift.GetTime x > maxDeltaT
    · have hnone : ∀ w ∈ u :: rest, ¬ Consistent alg drift x v w := by
        intro w hw hc
        have hle : drift.GetTime u ≤ drift.GetTime w := by
          rcases List.mem_cons.1 hw with h | h
          · rw [h]
          · exact List.rel_of_sorted_cons hsorted w h
        have := le_trans (le_abs_self _) hc.2.1
        linarith
      have hfil : ((u :: rest).filter fun u => decide (Consistent alg drift x v u)) = [] := by
        rw [List.filter_eq_nil_iff]
        intro w hw
        simpa only [decide_eq_true_eq] using hnone w hw
      rw [hfil]
      simp only [uLoop, if_pos hb, List.map_nil]
    · have hu : |drift.GetTime u - drift.GetTime x| ≤ maxDeltaT :=
        abs_le.2 ⟨hlow u (List.mem_cons_self _ _), not_lt.mp hb⟩
      rw [uLoop_cons_inside alg drift x v u rest hv hu, hrest]
      by_cases hc : Consistent alg drift x v u
      · rw [if_pos hc, List.filter_cons_of_pos (by simpa only [decide_eq_true_eq] using hc)]
        rfl
      · rw [if_neg hc, List.filter_cons_of_neg (by simpa only [decide_eq_true_eq] using hc)]

/-- What the lower-bound loop drops and what it leaves. -/
theorem advanceBegin_split (drift : TDriftPosition K) (xTime : K) :
    ∀ l : List (THit K), TimeSorted drift l →
      ∃ d, l = d ++ advanceBegin drift xTime l ∧
        (∀ e ∈ d, drift.GetTime e - xTime < -maxDeltaT) ∧
        (∀ h ∈ advanceBegin drift xTime l, -maxDeltaT ≤ drift.GetTime h - xTime) := by
  intro l
  induction l with
  | nil =>
    intro _
    exact ⟨[], rfl, by simp, by simp [advanceBegin]⟩
  | cons h hs ih =>
    intro hsorted
    by_cases hlt : drift.GetTime h - xTime < -maxDeltaT
    · obtain ⟨d, hd, hdrop, hkeep⟩ := ih (List.Sorted.of_cons hsorted)
      refine ⟨h :: d, ?_, ?_, ?_⟩
      · simp only [advanceBegin, if_pos hlt, List.cons_append]
        rw [← hd]
      · intro e he
        rcases List.mem_cons.1 he with he | he
        · rw [he]; exact hlt
        · exact hdrop e he
      · simpa only [advanceBegin, if_pos hlt] using hkeep
    · refine ⟨[], ?_, by simp, ?_⟩
      · simp only [advanceBegin, if_neg hlt, List.nil_append]
      · simp only [advanceBegin, if_neg hlt]
        intro w hw
        have hle : drift.GetTime h ≤ drift.GetTime w := by
          rcases List.mem_cons.1 hw with e | e
          · rw [e]
          · exact List.rel_of_sorted_cons hsorted w e
        have := not_lt.mp hlt
        linarith

/-- A V hit outside the search window of `x` has no consistent triplet. -/
theorem row_outside (alg : TCluster3D K) (drift : TDriftPosition K) (x v : THit K)
    (us : List (THit K)) (hv : ¬ |drift.GetTime v - drift.GetTime x| ≤ maxDeltaT) :
    ((us.filter fun u => decide (Consistent alg drift x v u)).map fun u => (x, v, u)) = [] := by
  have hfil : (us.filter fun u => decide (Consistent alg drift x v u)) = [] := by
    rw [List.filter_eq_nil_iff]
    intro w _
    simp only [decide_eq_true_eq]
    exact fun hc => hv hc.1
  rw [hfil]
  rfl

/-- For a V hit inside the window, the inner loop from the lower bound gives the
consistent triplets of the whole U sequence. -/
theorem row_inside (alg : TCluster3D K) (drift : TDriftPosition K) (x v : THit K)
    (us du uB : List (THit K)) (hus : us = du ++ uB)
    (hdrop : ∀ d ∈ du, drift.GetTime d - drift.GetTime x < -maxDeltaT)
    (hsorted : TimeSorted drift uB)
    (hkeep : ∀ u ∈ uB, -maxDeltaT ≤ drift.GetTime u - drift.GetTime x)
    (hv : |drift.GetTime v - drift.GetTime x| ≤ maxDeltaT) :
    ((us.filter fun u => decide (Consistent alg drift x v u)).map fun u => (x, v, u))
      = uLoop alg drift x v uB := by
  rw [uLoop_eq_filter alg drift x v hv uB hsorted hkeep, hus, List.filter_append]
  have hfil : (du.filter fun u => decide (Consistent alg drift x v u)) = [] := by
    rw [List.filter_eq_nil_iff]
    intro w hw
    simp only [decide_eq_true_eq]
    intro hc
    have h1 := (abs_le.1 hc.2.1).1
    have h2 := hdrop w hw
    linarith
  rw [hfil, List.nil_append]

/-- The middle loop from a point inside the window gives the consistent triplets of the
V hits it is started on. -/
theorem vLoop_eq_flatMap (alg : TCluster3D K) (drift : TDriftPosition K) (x : THit K)
    (us du uB : List (THit K)) (hus : us = du ++ uB)
    (hdrop : ∀ d ∈ du, drift.GetTime d - drift.GetTime x < -maxDeltaT)
    (hsorted : TimeSorted drift uB)
    (hkeep : ∀ u ∈ uB, -maxDeltaT ≤ drift.GetTime u - drift.GetTime x) :
    ∀ vs : List (THit K), TimeSorted drift vs →
      (∀ v ∈ vs, -maxDeltaT ≤ drift.GetTime v - drift.GetTime x) →
      vLoop alg drift x uB vs
        = vs.flatMap fun v =>
            (us.filter fun u => decide (Consistent alg drift x v u)).map fun u => (x, v, u) := by
  intro vs
  induction vs with
  | nil => intro _ _; rfl
  | cons v rest ih =>
    intro hvs hlow
    have hrest := ih (List.Sorted.of_cons hvs) (fun w hw => hlow w (List.mem_cons_of_mem _ hw))
    by_cases hb : drift.GetTime v - drift.GetTime x > maxDeltaT
    · have hnone : ∀ w ∈ v :: rest,
          ((us.filter fun u => decide (Consistent alg drift x w u)).map fun u => (x, w, u))
            = [] := by
        intro w hw
        apply row_outside
        intro hc
        have hle : drift.GetTime v ≤ drift.GetTime w := by
          rcases List.mem_cons.1 hw with h | h
          · rw [h]
          · exact List.rel_of_sorted_cons hvs w h
        have := le_trans (le_abs_self _) hc
        linarith
      have hflat : ((v :: rest).flatMap fun v =>
          (us.filter fun u => decide (Consistent alg drift x v u)).map fun u => (x, v, u))
            = [] := by
        rw [List.flatMap_eq_nil_iff]
        exact hnone
      rw [hflat]
      simp only [vLoop, if_pos hb]
    · have hv : |drift.GetTime v - drift.GetTime x| ≤ maxDeltaT :=
        abs_le.2 ⟨hlow v (List.mem_cons_self _ _), not_lt.mp hb⟩
      rw [List.flatMap_cons, row_inside alg drift x v us du uB hus hdrop hsorted hkeep hv,
        ← hrest]
      simp only [vLoop, if_neg hb]

/-- The outer loop with its two lower bounds gives every consistent triplet, provided
what the bounds have dropped lies before the window of each X hit still to come. -/
theorem xLoop_eq_bruteForce (alg : TCluster3D K) (drift : TDriftPosition K)
    (vs us : List (THit K)) (hvs : TimeSorted drift vs) (hus : TimeSorted drift us) :
    ∀ (xs vB uB dv du : List (THit K)), TimeSorted drift xs →
      vs = dv ++ vB → us = du ++ uB →
      (∀ x ∈ xs, ∀ d ∈ dv, drift.GetTime d - drift.GetTime x < -maxDeltaT) →
      (∀ x ∈ xs, ∀ d ∈ du, drift.GetTime d - drift.GetTime x < -maxDeltaT) →
      xLoop alg drift xs vB uB = bruteForce alg drift xs vs us := by
  intro xs
  induction xs with
  | nil => intro _ _ _ _ _ _ _ _ _; rfl
  | cons x rest ih =>
    intro vB uB dv du hxs hv hu hdv hdu
    have hvB : TimeSorted drift vB := by
      have h := hvs
      rw [hv, TimeSorted, List.Sorted, List.pairwise_append] at h
      exact h.2.1
    have huB : TimeSorted drift uB := by
      have h := hus
      rw [hu, TimeSorted, List.Sorted, List.pairwise_append] at h
      exact h.2.1
    obtain ⟨dv1, hv1, hdropv, hkeepv⟩ := advanceBegin_split drift (drift.GetTime x) vB hvB
    obtain ⟨du1, hu1, hdropu, hkeepu⟩ := advanceBegin_split drift (drift.GetTime x) uB huB
    have hv2 : vs = (dv ++ dv1) ++ advanceBegin drift (drift.GetTime x) vB := by
      rw [List.append_assoc, ← hv1]
      exact hv
    have hu2 : us = (du ++ du1) ++ advanceBegin drift (drift.GetTime x) uB := by
      rw [List.append_assoc, ← hu1]
      exact hu
    have hvB1 : TimeSorted drift (advanceBegin drift (drift.GetTime x) vB) := by
      have h := hvs
      rw [hv2, TimeSorted, List.Sorted, List.pairwise_append] at h
      exact h.2.1
    have huB1 : TimeSorted drift (advanceBegin drift (drift.GetTime x) uB) := by
      have h := hus
      rw [hu2, TimeSorted, List.Sorted, List.pairwise_append] at h
      exact h.2.1
    have hdv2 : ∀ d ∈ dv ++ dv1, drift.GetTime d - drift.GetTime x < -maxDeltaT := by
      intro d hd
      rcases List.mem_append.1 hd with h | h
      · exact hdv x (List.mem_cons_self _ _) d h
      · exact hdropv d h
    have hdu2 : ∀ d ∈ du ++ du1, drift.GetTime d - drift.GetTime x < -maxDeltaT := by
      intro d hd
      rcases List.mem_append.1 hd with h | h
      · exact hdu x (List.mem_cons_self _ _) d h
      · exact hdropu d h
    have hlater : ∀ y ∈ rest, drift.GetTime x ≤ drift.GetTime y :=
      fun y hy => List.rel_of_sorted_cons hxs y hy
    have hrest := ih (advanceBegin drift (drift.GetTime x) vB)
      (advanceBegin drift (drift.GetTime x) uB) (dv ++ dv1) (du ++ du1)
      (List.Sorted.of_cons hxs) hv2 hu2
      (fun y hy d hd => by
        have h1 := hdv2 d hd
        have h2 := hlater y hy
        linarith)
      (fun y hy d hd => by
        have h1 := hdu2 d hd
        have h2 := hlater y hy
        linarith)
    have hrow : vLoop alg drift x (advanceBegin drift (drift.GetTime x) uB)
        (advanceBegin drift (drift.GetTime x) vB)
          = vs.flatMap fun v =>
              (us.filter fun u => decide (Consistent alg drift x v u)).map
                fun u => (x, v, u) := by
      rw [vLoop_eq_flatMap alg drift x us (du ++ du1) _ hu2 hdu2 huB1 hkeepu _ hvB1 hkeepv]
      conv_rhs => rw [hv2, List.flatMap_append]
      have hnil : ((dv ++ dv1).flatMap fun v =>
          (us.filter fun u => decide (Consistent alg drift x v u)).map fun u => (x, v, u))
            = [] := by
        rw [List.flatMap_eq_nil_iff]
        intro w hw
        apply row_outside
        intro hc
        have h1 := (abs_le.1 hc).1
        have h2 := hdv2 w hw
        linarith
      rw [hnil, List.nil_append]
    show vLoop alg drift x (advanceBegin drift (drift.GetTime x) uB)
        (advanceBegin drift (drift.GetTime x) vB)
        ++ xLoop alg drift rest (advanceBegin drift (drift.GetTime x) vB)
          (advanceBegin drift (drift.GetTime x) uB)
      = bruteForce alg drift (x :: rest) vs us
    rw [hrow, hrest]
    simp only [bruteForce, List.flatMap_cons]

/-- When neither the V wire nor the U wire is parallel to the X wire, a distance that is
not greater than 2 mm is a distance of at most 2 mm. -/
theorem consistent_iff_spec (alg : TCluster3D K) (drift : TDriftPosition K) (x v u : THit K)
    (hxv : crossDet x v ≠ 0) (hxu : crossDet x u ≠ 0) :
    Consistent alg drift x v u ↔ ConsistentSpec alg drift x v u := by
  unfold Consistent ConsistentSpec
  rw [dist2D_eq x v u hxv hxu]
  simp only [Double.gt, Double.le, decide_eq_false_iff_not, decide_eq_true_eq, not_lt, gt_iff_lt]

theorem bruteForce_eq_spec (alg : TCluster3D K) (drift : TDriftPosition K)
    (xHits vHits uHits : List (THit K))
    (hxv : ∀ x ∈ xHits, ∀ v ∈ vHits, crossDet x v ≠ 0)
    (hxu : ∀ x ∈ xHits, ∀ u ∈ uHits, crossDet x u ≠ 0) :
    bruteForce alg drift xHits vHits uHits = bruteForceSpec alg drift xHits vHits uHits := by
  unfold bruteForce bruteForceSpec
  simp only [List.flatMap_def]
  congr 1
  apply List.map_congr_left
  intro x hx
  congr 1
  apply List.map_congr_left
  intro v hv
  congr 1
  apply List.filter_congr
  intro u hu
  exact decide_eq_decide.2 (consistent_iff_spec alg drift x v u (hxv x hx v hv) (hxu x hx u hu))

theorem search_par :
    search algUnit driftId [parX] [parV] [parU] = [(parX, parV, parU)] := by
  norm_num [search, xLoop, vLoop, uLoop, advanceBegin,
    algUnit, create, driftId, parX, parV, parU, wireAt, maxDeltaT,
    overlapXU, overlapXV, overlapUV, OverlapTime, dist2D, PositionXYD, shift1D, Double.vmag2,
    Double.vsub, Double.sub, Double.neg, Double.add, Double.mul, Double.div, Double.gt,
    unit.microsecond, unit.ns, unit.mm]

/-- The point that `PositionXY` returns for the parallel X and V wires, and the squared
distance that the loop body tests. -/
theorem dist2D_par :
    PositionXYD parX parV = ⟨Double.nan, Double.ninf, Double.num 0⟩ ∧
      dist2D parX parV parU = Double.nan := by
  constructor
  · norm_num [PositionXYD, shift1D, Double.add, Double.mul, Double.div, parX, parV, wireAt]
  · norm_num [dist2D, PositionXYD, shift1D, Double.vmag2, Double.vsub, Double.sub, Double.neg,
      Double.add, Double.mul, Double.div, parX, parV, parU, wireAt]

/-- For an X and a V wire that are parallel and not on one line, and a U wire that crosses
them, the distance is infinite and the triplet is left out. -/
theorem search_diag :
    crossDet diagX diagV = 0 ∧ dist2D diagX diagV diagU = Double.pinf ∧
      search algUnit driftId [diagX] [diagV] [diagU] = [] := by
  refine ⟨by norm_num [crossDet, diagX, diagV, wireAt], ?_, ?_⟩
  · norm_num [dist2D, PositionXYD, shift1D, Double.vmag2, Double.vsub, Double.sub, Double.neg,
      Double.add, Double.mul, Double.div, diagX, diagV, diagU, wireAt]
  · norm_num [search, xLoop, vLoop, uLoop, advanceBegin,
      algUnit, create, driftId, diagX, diagV, diagU, wireAt, maxDeltaT,
      overlapXU, overlapXV, overlapUV, OverlapTime, dist2D, PositionXYD, shift1D, Double.vmag2,
      Double.vsub, Double.sub, Double.neg, Double.add, Double.mul, Double.div, Double.gt,
      unit.microsecond, unit.ns, unit.mm]

/-- Counterexample to C1 as stated: for an X and a V wire that both run along the y axis
the distance of the two crossing points is a NaN; the search emits the triplet, and the
brute-force list of the triplets with a distance of at most 2 mm is empty. -/
theorem parallel_triplet_beyond_brute_force :
    TimeSorted driftId [parX] ∧ TimeSorted driftId [parV] ∧ TimeSorted driftId [parU] ∧
      search algUnit driftId [parX] [parV] [parU] = [(parX, parV, parU)] ∧
      dist2D parX parV parU = Double.nan ∧
      bruteForceSpec algUnit driftId [parX] [parV] [parU] = [] := by
  refine ⟨by simp [TimeSorted], by simp [TimeSorted], by simp [TimeSorted], search_par,
    dist2D_par.2, ?_⟩
  simp only [bruteForceSpec, List.flatMap_cons, List.flatMap_nil, List.append_nil]
  rw [List.map_eq_nil_iff, List.filter_eq_nil_iff]
  intro u hu
  rw [List.mem_singleton.1 hu]
  simp only [decide_eq_true_eq, ConsistentSpec, dist2D_par.2, Double.le]
  simp

/-- C1 (amended): for three plane sequences sorted in drift-corrected time, the triplets
emitted by the windowed search of `Process` (lower bounds `vBegin`, `uBegin` and the two
`break`s) are, elements and order, the triplets of the brute-force enumeration in
lexicographic order that satisfy the two window constraints, the three overlap checks and
whose distance is not greater than 2 mm; when no V wire and no U wire is parallel to an
X wire, these are the triplets with a distance of at most 2 mm. -/
theorem search_eq_bruteForce (alg : TCluster3D K) (drift : TDriftPosition K)
    (xHits vHits uHits : List (THit K)) (hx : TimeSorted drift xHits)
    (hv : TimeSorted drift vHits) (hu : TimeSorted drift uHits) :
    search alg drift xHits vHits uHits = bruteForce alg drift xHits vHits uHits ∧
      ((∀ x ∈ xHits, ∀ v ∈ vHits, crossDet x v ≠ 0) →
        (∀ x ∈ xHits, ∀ u ∈ uHits, crossDet x u ≠ 0) →
        search alg drift xHits vHits uHits = bruteForceSpec alg drift xHits vHits uHits) := by
  have h1 : search alg drift xHits vHits uHits = bruteForce alg drift xHits vHits uHits :=
    xLoop_eq_bruteForce alg drift vHits uHits hv hu xHits vHits uHits [] [] hx rfl rfl
      (fun _ _ d hd => absurd hd (List.not_mem_nil d))
      (fun _ _ d hd => absurd hd (List.not_mem_nil d))
  refine ⟨h1, fun hxv hxu => ?_⟩
  rw [h1]
  exact bruteForce_eq_spec alg drift xHits vHits uHits hxv hxu

theorem bruteForce_scenario :
    bruteForce algUnit driftId [scenarioX] [scenarioV] [scenarioU1, scenarioU2]
      = [(scenarioX, scenarioV, scenarioU1), (scenarioX, scenarioV, scenarioU2)] := by
  simp [bruteForce, Consistent, algUnit, create, driftId, scenarioX, scenarioV, scenarioU1,
    scenarioU2, wireAt, maxDeltaT, overlapXU, overlapXV, overlapUV, OverlapTime, dist2D,
    PositionXYD, shift1D, Double.vmag2, Double.vsub, Double.sub, Double.neg, Double.add,
    Double.mul, Double.div, Double.gt, unit.microsecond, unit.ns, unit.mm, List.filter_cons]
  norm_num

/-- Witness for C1 (amended): one X and one V hit with two consistent U hits give two
triplets, the triplets of the brute-force enumeration with a distance of at most 2 mm. -/
theorem search_eq_bruteForce_witness :
    bruteForce algUnit driftId [scenarioX] [scenarioV] [scenarioU1, scenarioU2]
        = [(scenarioX, scenarioV, scenarioU1), (scenarioX, scenarioV, scenarioU2)] ∧
      search algUnit driftId [scenarioX] [scenarioV] [scenarioU1, scenarioU2]
        = bruteForceSpec algUnit driftId [scenarioX] [scenarioV] [scenarioU1, scenarioU2] :=
  ⟨bruteForce_scenario,
    (search_eq_bruteForce algUnit driftId [scenarioX] [scenarioV] [scenarioU1, scenarioU2]
      (by simp [TimeSorted]) (by simp [TimeSorted])
      (by simp [TimeSorted, driftId, scenarioU1, scenarioU2, wireAt])).2
      (by simp [crossDet, scenarioX, scenarioV, wireAt])
      (by simp [crossDet, scenarioX, scenarioU1, scenarioU2, wireAt])⟩

/-! ## What an emitted triplet has passed -/

theorem uLoop_mem (alg : TCluster3D K) (drift : TDriftPosition K) (x v : THit K)
    (hvx : drift.GetTime v - drift.GetTime x ≤ maxDeltaT) :
    ∀ (us : List (THit K)) (p : THit K × THit K × THit K), p ∈ uLoop alg drift x v us →
      p.1 = x ∧ p.2.1 = v ∧ p.2.2 ∈ us ∧ Accepted alg drift x v p.2.2 := by
  intro us
  induction us with
  | nil =>
    intro p hp
    exact absurd hp (List.not_mem_nil p)
  | cons u rest ih =>
    intro p hp
    have hrec : p ∈ uLoop alg drift x v rest →
        p.1 = x ∧ p.2.1 = v ∧ p.2.2 ∈ u :: rest ∧ Accepted alg drift x v p.2.2 := by
      intro h
      obtain ⟨h1, h2, h3, h4⟩ := ih p h
      exact ⟨h1, h2, List.mem_cons_of_mem _ h3, h4⟩
    simp only [uLoop] at hp
    split_ifs at hp with hb h1 h2 h3 h4
    · exact absurd hp (List.not_mem_nil p)
    · exact hrec hp
    · exact hrec hp
    · exact hrec hp
    · exact hrec hp
    · rcases List.mem_cons.1 hp with hp | hp
      · subst hp
        exact ⟨rfl, rfl, List.mem_cons_self _ _, hvx, not_lt.mp hb, not_lt.mp h1,
          not_lt.mp h2, not_lt.mp h3, eq_false_of_ne_true h4⟩
      · exact hrec hp

theorem vLoop_mem (alg : TCluster3D K) (drift : TDriftPosition K) (x : THit K)
    (uB : List (THit K)) :
    ∀ (vs : List (THit K)) (p : THit K × THit K × THit K), p ∈ vLoop alg drift x uB vs →
      p.1 = x ∧ p.2.1 ∈ vs ∧ p.2.2 ∈ uB ∧ Accepted alg drift x p.2.1 p.2.2 := by
  intro vs
  induction vs with
  | nil =>
    intro p hp
    exact absurd hp (List.not_mem_nil p)
  | cons v rest ih =>
    intro p hp
    simp only [vLoop] at hp
    split_ifs at hp with hb
    · exact absurd hp (List.not_mem_nil p)
    · rcases List.mem_append.1 hp with hp | hp
      · obtain ⟨h1, h2, h3, h4⟩ := uLoop_mem alg drift x v (not_lt.mp hb) uB p hp
        rw [h2]
        exact ⟨h1, List.mem_cons_self _ _, h3, h4⟩
      · obtain ⟨h1, h2, h3, h4⟩ := ih p hp
        exact ⟨h1, List.mem_cons_of_mem _ h2, h3, h4⟩

theorem advanceBegin_subset (drift : TDriftPosition K) (xTime : K) :
    ∀ (l : List (THit K)) (h : THit K), h ∈ advanceBegin drift xTime l → h ∈ l := by
  intro l
  induction l with
  | nil =>
    intro h hh
    exact absurd hh (List.not_mem_nil h)
  | cons a rest ih =>
    intro h hh
    simp only [advanceBegin] at hh
    split_ifs at hh
    · exact List.mem_cons_of_mem _ (ih h hh)
    · exact hh

theorem advanceBegin_sorted (drift : TDriftPosition K) (xTime : K) (l : List (THit K))
    (hl : TimeSorted drift l) : TimeSorted drift (advanceBegin drift xTime l) := by
  obtain ⟨d, hd, _, _⟩ := advanceBegin_split drift xTime l hl
  have h := hl
  rw [hd, TimeSorted, List.Sorted, List.pairwise_append] at h
  exact h.2.1

/-- Every triplet emitted by the loops is made of hits of the three sequences and has
passed every test of the loop body. -/
theorem xLoop_mem (alg : TCluster3D K) (drift : TDriftPosition K) :
    ∀ (xs vB uB : List (THit K)) (p : THit K × THit K × THit K),
      p ∈ xLoop alg drift xs vB uB →
      p.1 ∈ xs ∧ p.2.1 ∈ vB ∧ p.2.2 ∈ uB ∧ Accepted alg drift p.1 p.2.1 p.2.2 := by
  intro xs
  induction xs with
  | nil =>
    intro vB uB p hp
    exact absurd hp (List.not_mem_nil p)
  | cons x rest ih =>
    intro vB uB p hp
    simp only [xLoop] at hp
    rcases List.mem_append.1 hp with hp | hp
    · obtain ⟨h1, h2, h3, h4⟩ := vLoop_mem alg drift x _ _ p hp
      rw [h1]
      exact ⟨List.mem_cons_self _ _, advanceBegin_subset drift _ vB _ h2,
        advanceBegin_subset drift _ uB _ h3, h4⟩
    · obtain ⟨h1, h2, h3, h4⟩ := ih _ _ p hp
      exact ⟨List.mem_cons_of_mem _ h1, advanceBegin_subset drift _ vB _ h2,
        advanceBegin_subset drift _ uB _ h3, h4⟩

/-- With sorted V and U sequences, the V and U hits of an emitted triplet are not earlier
than the search window of its X hit. -/
theorem xLoop_mem_lower (alg : TCluster3D K) (drift : TDriftPosition K) :
    ∀ (xs vB uB : List (THit K)) (p : THit K × THit K × THit K),
      TimeSorted drift vB → TimeSorted drift uB → p ∈ xLoop alg drift xs vB uB →
      -maxDeltaT ≤ drift.GetTime p.2.1 - drift.GetTime p.1 ∧
        -maxDeltaT ≤ drift.GetTime p.2.2 - drift.GetTime p.1 := by
  intro xs
  induction xs with
  | nil =>
    intro vB uB p _ _ hp
    exact absurd hp (List.not_mem_nil p)
  | cons x rest ih =>
    intro vB uB p hvB huB hp
    simp only [xLoop] at hp
    rcases List.mem_append.1 hp with hp | hp
    · obtain ⟨h1, h2, h3, _⟩ := vLoop_mem alg drift x _ _ p hp
      obtain ⟨_, _, _, hkv⟩ := advanceBegin_split drift (drift.GetTime x) vB hvB
      obtain ⟨_, _, _, hku⟩ := advanceBegin_split drift (drift.GetTime x) uB huB
      rw [h1]
      exact ⟨hkv _ h2, hku _ h3⟩
    · exact ih _ _ p (advanceBegin_sorted drift _ vB hvB) (advanceBegin_sorted drift _ uB huB) hp

/-! ## The 3D hits of `Process` -/

/-- The constituents of the 3D hits of `Process` are the triplets of the search, in the
same order. -/
theorem writableHits_triplets (alg : TCluster3D K) (drift : TDriftPosition K) (S : StdSort K)
    (sqrt : K → K) (wireHits : THitSelection K) (t0 : K) :
    (writableHits alg drift S sqrt wireHits t0).map (fun h => (h.xh, h.vh, h.uh))
      = search alg drift (S.sort (planeHits WirePlane.kXPlane wireHits))
          (S.sort (planeHits WirePlane.kVPlane wireHits))
          (S.sort (planeHits WirePlane.kUPlane wireHits)) := by
  simp only [writableHits, List.map_map]
  conv_rhs => rw [← List.map_id (search alg drift _ _ _)]
  apply List.map_congr_left
  intro p _
  rfl

/-- Every 3D hit of `Process` is made of a triplet that passed the tests of the loops. -/
theorem writableHits_accepted (alg : TCluster3D K) (drift : TDriftPosition K) (S : StdSort K)
    (sqrt : K → K) (wireHits : THitSelection K) (t0 : K) (h : TWritableReconHit K)
    (hh : h ∈ writableHits alg drift S sqrt wireHits t0) :
    Accepted alg drift h.xh h.vh h.uh := by
  have hmem : (h.xh, h.vh, h.uh) ∈
      (writableHits alg drift S sqrt wireHits t0).map (fun h => (h.xh, h.vh, h.uh)) :=
    List.mem_map.2 ⟨h, hh, rfl⟩
  rw [writableHits_triplets] at hmem
  exact (xLoop_mem alg drift _ _ _ _ hmem).2.2.2

/-- C2 (amended): every triplet `(x, v, u)` for which `Process` creates a 3D hit satisfies
the three overlap constraints on the drift-corrected times, and the distance of its two
crossing points on the X wire is not greater than 2 mm; when neither the V wire nor the U
wire is parallel to the X wire, the two crossing points are within 2 mm of each other. -/
theorem writableHits_sound (alg : TCluster3D K) (drift : TDriftPosition K) (S : StdSort K)
    (sqrt : K → K) (wireHits : THitSelection K) (t0 : K) (h : TWritableReconHit K)
    (hh : h ∈ writableHits alg drift S sqrt wireHits t0) :
    |drift.GetTime h.xh - drift.GetTime h.uh|
        ≤ OverlapTime alg (alg.fXSeparation * h.xh.TimeRMS) (alg.fUSeparation * h.uh.TimeRMS)
            alg.fMinSeparation ∧
      |drift.GetTime h.xh - drift.GetTime h.vh|
        ≤ OverlapTime alg (alg.fXSeparation * h.xh.TimeRMS) (alg.fVSeparation * h.vh.TimeRMS)
            alg.fMinSeparation ∧
      |drift.GetTime h.vh - drift.GetTime h.uh|
        ≤ OverlapTime alg (alg.fUSeparation * h.uh.TimeRMS) (alg.fVSeparation * h.vh.TimeRMS)
            alg.fMinSeparation ∧
      Double.gt (dist2D h.xh h.vh h.uh) (.num ((2 * unit.mm) * (2 * unit.mm))) = false ∧
      (crossDet h.xh h.vh ≠ 0 → crossDet h.xh h.uh ≠ 0 →
        (TVector3.sub (PositionXY h.xh h.uh) (PositionXY h.xh h.vh)).Mag2
          ≤ (2 * unit.mm) * (2 * unit.mm)) := by
  obtain ⟨_, _, h1, h2, h3, h4⟩ := writableHits_accepted alg drift S sqrt wireHits t0 h hh
  rw [abs_sub_comm] at h1 h2
  refine ⟨h1, h2, h3, h4, fun hxv hxu => ?_⟩
  rw [dist2D_eq h.xh h.vh h.uh hxv hxu] at h4
  simp only [Double.gt, decide_eq_false_iff_not, not_lt, gt_iff_lt] at h4
  exact h4

theorem writableHits_scenario :
    writableHits algUnit driftId sortByTime sqrtQ
        [scenarioX, scenarioV, scenarioU1, scenarioU2] 0
      = [makeHit driftId sqrtQ 0 scenarioX scenarioV scenarioU1,
          makeHit driftId sqrtQ 0 scenarioX scenarioV scenarioU2] := by
  norm_num [writableHits, planeHits, sortByTime, search, xLoop, vLoop, uLoop, advanceBegin,
    algUnit, create, driftId, scenarioX, scenarioV, scenarioU1, scenarioU2, wireAt, maxDeltaT,
    overlapXU, overlapXV, overlapUV, OverlapTime, dist2D, PositionXYD, shift1D, Double.vmag2, Double.vsub, Double.sub, Double.neg,
    Double.add, Double.mul, Double.div, Double.gt, dist2, PositionXY, shift1, TVector3.sub,
    TVector3.Mag2, unit.microsecond, unit.ns, unit.mm, List.filter_cons, List.insertionSort,
    List.orderedInsert]

/-- Witness for C2 (amended): the two 3D hits of the scenario with one X, one V and two U
hits. -/
theorem writableHits_sound_witness :
    makeHit driftId sqrtQ 0 scenarioX scenarioV scenarioU2
        ∈ writableHits algUnit driftId sortByTime sqrtQ
            [scenarioX, scenarioV, scenarioU1, scenarioU2] 0 ∧
      (TVector3.sub (PositionXY scenarioX scenarioU2) (PositionXY scenarioX scenarioV)).Mag2
        ≤ (2 * unit.mm) * (2 * unit.mm) :=
  ⟨by rw [writableHits_scenario]; simp,
    (writableHits_sound algUnit driftId sortByTime sqrtQ
      [scenarioX, scenarioV, scenarioU1, scenarioU2] 0
      (makeHit driftId sqrtQ 0 scenarioX scenarioV scenarioU2)
      (by rw [writableHits_scenario]; simp)).2.2.2.2
      (by simp [makeHit, correctTimeZero, fuse, crossDet, scenarioX, scenarioV, wireAt])
      (by simp [makeHit, correctTimeZero, fuse, crossDet, scenarioX, scenarioU2, wireAt])⟩

/-! ## The third crossing point -/

theorem writableHits_fan :
    (writableHits algUnit driftId sortByTime sqrtQ [fanX, fanV, fanU] 0).map
        (fun h => (h.xh, h.vh, h.uh)) = [(fanX, fanV, fanU)] := by
  rw [writableHits_triplets]
  norm_num [planeHits, sortByTime, search, xLoop, vLoop, uLoop, advanceBegin,
    algUnit, create, driftId, fanX, fanV, fanU, wireAt, maxDeltaT,
    overlapXU, overlapXV, overlapUV, OverlapTime, dist2D, PositionXYD, shift1D, Double.vmag2, Double.vsub, Double.sub, Double.neg,
    Double.add, Double.mul, Double.div, Double.gt, dist2, PositionXY, shift1, TVector3.sub,
    TVector3.Mag2, unit.microsecond, unit.ns, unit.mm, List.filter_cons, List.insertionSort,
    List.orderedInsert]

/-- Counterexample to C8 as stated: for an X wire along the y axis and V and U wires of
unit directions `(12/13, 5/13)` and `(12/13, -5/13)` through `(0, 0)` and `(0, 2)`,
`Process` creates the 3D hit, the crossing points on the X wire are 2 mm apart, and the
crossing point of the V and U wires is 2.6 mm from the crossing point of the X and V
wires. -/
theorem third_crossing_point_unchecked :
    (writableHits algUnit driftId sortByTime sqrtQ [fanX, fanV, fanU] 0).map
        (fun h => (h.xh, h.vh, h.uh)) = [(fanX, fanV, fanU)] ∧
      PositionXY fanX fanV = ⟨0, 0, 0⟩ ∧ PositionXY fanX fanU = ⟨0, 2, 0⟩ ∧
      PositionXY fanV fanU = ⟨12 / 5, 1, 0⟩ ∧
      (TVector3.sub (PositionXY fanV fanU) (PositionXY fanX fanV)).Mag2
        > (2 * unit.mm) * (2 * unit.mm) := by
  refine ⟨writableHits_fan, ?_, ?_, ?_, ?_⟩
  · norm_num [PositionXY, shift1, fanX, fanV, wireAt]
  · norm_num [PositionXY, shift1, fanX, fanU, wireAt]
  · norm_num [PositionXY, shift1, fanV, fanU, wireAt]
  · norm_num [PositionXY, shift1, fanX, fanV, fanU, wireAt, TVector3.sub, TVector3.Mag2,
      unit.mm]

/-- C8 (amended): for every 3D hit created by `Process` whose V wire and U wire are not
parallel to its X wire, the crossing points `PositionXY(x, v)` and `PositionXY(x, u)` are
within 2 mm of each other; the third point `PositionXY(v, u)` is computed for the position
of the hit and is not tested. -/
theorem crossing_points_on_x_wire_close (alg : TCluster3D K) (drift : TDriftPosition K)
    (S : StdSort K) (sqrt : K → K) (wireHits : THitSelection K) (t0 : K)
    (h : TWritableReconHit K) (hh : h ∈ writableHits alg drift S sqrt wireHits t0)
    (hxv : crossDet h.xh h.vh ≠ 0) (hxu : crossDet h.xh h.uh ≠ 0) :
    dist2D h.xh h.vh h.uh
        = Double.num (TVector3.sub (PositionXY h.xh h.uh) (PositionXY h.xh h.vh)).Mag2 ∧
      (TVector3.sub (PositionXY h.xh h.uh) (PositionXY h.xh h.vh)).Mag2
        ≤ (2 * unit.mm) * (2 * unit.mm) := by
  have h4 := (writableHits_accepted alg drift S sqrt wireHits t0 h hh).2.2.2.2.2
  rw [dist2D_eq h.xh h.vh h.uh hxv hxu] at h4
  simp only [Double.gt, decide_eq_false_iff_not, not_lt, gt_iff_lt] at h4
  exact ⟨dist2D_eq h.xh h.vh h.uh hxv hxu, h4⟩

theorem writableHits_fan_mem :
    makeHit driftId sqrtQ 0 fanX fanV fanU
      ∈ writableHits algUnit driftId sortByTime sqrtQ [fanX, fanV, fanU] 0 := by
  norm_num [writableHits, planeHits, sortByTime, search, xLoop, vLoop, uLoop, advanceBegin,
    algUnit, create, driftId, fanX, fanV, fanU, wireAt, maxDeltaT,
    overlapXU, overlapXV, overlapUV, OverlapTime, dist2D, PositionXYD, shift1D, Double.vmag2, Double.vsub, Double.sub, Double.neg,
    Double.add, Double.mul, Double.div, Double.gt, dist2, PositionXY, shift1, TVector3.sub,
    TVector3.Mag2, unit.microsecond, unit.ns, unit.mm, List.filter_cons, List.insertionSort,
    List.orderedInsert]

/-- Witness for C8 (amended): the 3D hit of the fan of wires. -/
theorem crossing_points_on_x_wire_close_witness :
    makeHit driftId sqrtQ 0 fanX fanV fanU
        ∈ writableHits algUnit driftId sortByTime sqrtQ [fanX, fanV, fanU] 0 ∧
      (TVector3.sub (PositionXY fanX fanU) (PositionXY fanX fanV)).Mag2
        ≤ (2 * unit.mm) * (2 * unit.mm) :=
  ⟨writableHits_fan_mem,
    (crossing_points_on_x_wire_close algUnit driftId sortByTime sqrtQ [fanX, fanV, fanU] 0
      (makeHit driftId sqrtQ 0 fanX fanV fanU) writableHits_fan_mem
      (by norm_num [makeHit, correctTimeZero, fuse, crossDet, fanX, fanV, wireAt])
      (by norm_num [makeHit, correctTimeZero, fuse, crossDet, fanX, fanU, wireAt])).2⟩

/-! ## The search window -/

theorem search_wide :
    search algUnit driftId [wideX] [wideV] [wideU] = [(wideX, wideV, wideU)] := by
  norm_num [search, xLoop, vLoop, uLoop, advanceBegin,
    algUnit, create, driftId, wideX, wideV, wideU, wireAt, maxDeltaT,
    overlapXU, overlapXV, overlapUV, OverlapTime, dist2D, PositionXYD, shift1D, Double.vmag2, Double.vsub, Double.sub, Double.neg,
    Double.add, Double.mul, Double.div, Double.gt, dist2, PositionXY, shift1, TVector3.sub,
    TVector3.Mag2, unit.microsecond, unit.ns, unit.mm]

/-- Counterexample to C9 as stated: a V hit 16 us before and a U hit 16 us after an X hit,
all three with a time RMS of 40 us, are accepted, and the V and U times differ by 32 us. -/
theorem vu_delta_exceeds_window :
    TimeSorted driftId [wideX] ∧ TimeSorted driftId [wideV] ∧ TimeSorted driftId [wideU] ∧
      search algUnit driftId [wideX] [wideV] [wideU] = [(wideX, wideV, wideU)] ∧
      |driftId.GetTime wideV - driftId.GetTime wideU| > maxDeltaT := by
  refine ⟨by simp [TimeSorted], by simp [TimeSorted], by simp [TimeSorted], search_wide, ?_⟩
  norm_num [driftId, wideV, wideU, wireAt, maxDeltaT, unit.microsecond, unit.ns]

/-- C9 (amended): with the V and U sequences sorted in drift-corrected time, every triplet
`(a, b, c)` accepted by the matcher has `|t(a) - t(b)|` and `|t(a) - t(c)|` within the
search window of 16 us, and `|t(b) - t(c)|` within twice the window. -/
theorem search_window_bound (alg : TCluster3D K) (drift : TDriftPosition K)
    (xHits vHits uHits : List (THit K)) (hv : TimeSorted drift vHits)
    (hu : TimeSorted drift uHits) (p : THit K × THit K × THit K)
    (hp : p ∈ search alg drift xHits vHits uHits) :
    |drift.GetTime p.1 - drift.GetTime p.2.1| ≤ 16 * unit.microsecond ∧
      |drift.GetTime p.1 - drift.GetTime p.2.2| ≤ 16 * unit.microsecond ∧
      |drift.GetTime p.2.1 - drift.GetTime p.2.2| ≤ 2 * (16 * unit.microsecond) := by
  obtain ⟨hlv, hlu⟩ := xLoop_mem_lower alg drift xHits vHits uHits p hv hu hp
  obtain ⟨_, _, _, huv, huu, _⟩ := xLoop_mem alg drift xHits vHits uHits p hp
  have hW : (maxDeltaT : K) = 16 * unit.microsecond := rfl
  rw [hW] at hlv hlu huv huu
  refine ⟨abs_le.2 ⟨by linarith, by linarith⟩, abs_le.2 ⟨by linarith, by linarith⟩,
    abs_le.2 ⟨by linarith, by linarith⟩⟩

/-- Witness for C9 (amended): the accepted triplet whose V and U hits lie at the two ends
of the window. -/
theorem search_window_bound_witness :
    (wideX, wideV, wideU) ∈ search algUnit driftId [wideX] [wideV] [wideU] ∧
      |driftId.GetTime wideV - driftId.GetTime wideU| ≤ 2 * (16 * unit.microsecond) :=
  ⟨by rw [search_wide]; simp,
    (search_window_bound algUnit driftId [wideX] [wideV] [wideU] (by simp [TimeSorted])
      (by simp [TimeSorted]) (wideX, wideV, wideU)
      (by rw [search_wide]; simp)).2.2⟩

/-! ## Parallel wires -/

theorem writableHits_par :
    (writableHits algUnit driftId sortByTime sqrtQ [parX, parV, parU] 0).map
        (fun h => (h.xh, h.vh, h.uh)) = [(parX, parV, parU)] := by
  rw [writableHits_triplets]
  norm_num [planeHits, sortByTime, search, xLoop, vLoop, uLoop, advanceBegin,
    algUnit, create, driftId, parX, parV, parU, wireAt, maxDeltaT,
    overlapXU, overlapXV, overlapUV, OverlapTime, dist2D, PositionXYD, shift1D, Double.vmag2, Double.vsub, Double.sub, Double.neg,
    Double.add, Double.mul, Double.div, Double.gt, dist2, PositionXY, shift1, TVector3.sub,
    TVector3.Mag2, unit.microsecond, unit.ns, unit.mm, List.filter_cons, List.insertionSort,
    List.orderedInsert]

/-- Counterexample to C2 as stated: for the X and V wires that both run along the y axis,
`PositionXY(x, v)` is `(NaN, -inf, 0)` and the distance of the two crossing points is a
NaN; `Process` creates the 3D hit, whose distance is not at most 2 mm. -/
theorem parallel_hit_without_distance :
    (writableHits algUnit driftId sortByTime sqrtQ [parX, parV, parU] 0).map
        (fun h => (h.xh, h.vh, h.uh)) = [(parX, parV, parU)] ∧
      PositionXYD parX parV = ⟨Double.nan, Double.ninf, Double.num 0⟩ ∧
      dist2D parX parV parU = Double.nan ∧
      Double.le (dist2D parX parV parU) (.num ((2 * unit.mm) * (2 * unit.mm))) = false := by
  refine ⟨writableHits_par, dist2D_par.1, dist2D_par.2, ?_⟩
  rw [dist2D_par.2]
  rfl

/-- Counterexample to C6 as stated: the X and V wires both run along the y axis, so the
divisor `dx2*dy1 - dx1*dy2` of `PositionXY` is zero, and `Process` creates a 3D hit for
the triplet. -/
theorem parallel_wires_not_rejected :
    crossDet parX parV = 0 ∧
      (writableHits algUnit driftId sortByTime sqrtQ [parX, parV, parU] 0).map
        (fun h => (h.xh, h.vh, h.uh)) = [(parX, parV, parU)] :=
  ⟨by norm_num [crossDet, parX, parV, wireAt], writableHits_par⟩

/-- C6 (amended): neither `PositionXY` nor the matcher tests the divisor
`dx2*dy1 - dx1*dy2`.  For every triplet, with parallel wires or not, the matcher produces a
3D hit exactly when the two hits lie in the search window of the X hit, the three overlap
tests pass and the distance computed from the points that `PositionXY` returns is not
greater than 2 mm. -/
theorem search_single_triplet (alg : TCluster3D K) (drift : TDriftPosition K)
    (x v u : THit K) :
    ((-maxDeltaT ≤ drift.GetTime v - drift.GetTime x ∧
        -maxDeltaT ≤ drift.GetTime u - drift.GetTime x ∧ Accepted alg drift x v u) →
      search alg drift [x] [v] [u] = [(x, v, u)]) ∧
    (¬ (-maxDeltaT ≤ drift.GetTime v - drift.GetTime x ∧
        -maxDeltaT ≤ drift.GetTime u - drift.GetTime x ∧ Accepted alg drift x v u) →
      search alg drift [x] [v] [u] = []) := by
  constructor
  · rintro ⟨hlv, hlu, hv, hu, h1, h2, h3, h4⟩
    simp only [search, xLoop, advanceBegin, if_neg (not_lt.mpr hlv), if_neg (not_lt.mpr hlu),
      vLoop, if_neg (not_lt.mpr hv), uLoop, if_neg (not_lt.mpr hu), if_neg (not_lt.mpr h1),
      if_neg (not_lt.mpr h2), if_neg (not_lt.mpr h3), if_neg (ne_true_of_eq_false h4),
      List.append_nil]
  · intro hnot
    by_cases hlv : drift.GetTime v - drift.GetTime x < -maxDeltaT
    · simp only [search, xLoop, advanceBegin, if_pos hlv, vLoop, List.append_nil]
    · by_cases hv : drift.GetTime v - drift.GetTime x > maxDeltaT
      · simp only [search, xLoop, advanceBegin, if_neg hlv, vLoop, if_pos hv, List.append_nil]
      · by_cases hlu : drift.GetTime u - drift.GetTime x < -maxDeltaT
        · simp only [search, xLoop, advanceBegin, if_neg hlv, if_pos hlu, vLoop, if_neg hv,
            uLoop, List.append_nil]
        · have hacc : ¬ Accepted alg drift x v u := fun h =>
            hnot ⟨not_lt.mp hlv, not_lt.mp hlu, h⟩
          have hnone : ∀ p, p ∉ uLoop alg drift x v [u] := by
            intro p hp
            obtain ⟨_, _, hmem, ha⟩ := uLoop_mem alg drift x v (not_lt.mp hv) [u] p hp
            rw [List.mem_singleton] at hmem
            rw [hmem] at ha
            exact hacc ha
          simp only [search, xLoop, advanceBegin, if_neg hlv, if_neg hlu, vLoop, if_neg hv,
            List.append_nil]
          exact List.eq_nil_iff_forall_not_mem.2 hnone

/-- Witness for C6 (amended): the triplet with parallel X and V wires passes every test. -/
theorem search_single_triplet_witness :
    search algUnit driftId [parX] [parV] [parU] = [(parX, parV, parU)] :=
  (search_single_triplet algUnit driftId parX parV parU).1 (by
    norm_num [Accepted, algUnit, create, driftId, parX, parV, parU, wireAt, maxDeltaT,
      overlapXU, overlapXV, overlapUV, OverlapTime, dist2D, PositionXYD, shift1D, Double.vmag2, Double.vsub, Double.sub, Double.neg,
    Double.add, Double.mul, Double.div, Double.gt, dist2, PositionXY, shift1, TVector3.sub,
      TVector3.Mag2, unit.microsecond, unit.ns, unit.mm])

/-! ## Charge sharing -/

theorem groupWeight_pos (g : TWritableReconHit K) (hg : g.ChargeUncertainty ≠ 0) :
    0 < groupWeight g := by
  unfold groupWeight
  exact one_div_pos.2 (mul_self_pos.2 hg)

/-- The shares that one group gives to the wire hit `h`, one per link to `h`. -/
theorem links_share_sum (groups : List (TWritableReconHit K)) (g : TWritableReconHit K)
    (h : THit K) :
    ∀ l : List (THit K),
      (((l.map fun h' => ({ hit := h', charge := share groups g h' } : TLink K)).filter
        fun c => decide (c.hit = h)).map TLink.charge).sum
        = (l.count h : K) * share groups g h := by
  intro l
  induction l with
  | nil => simp
  | cons a rest ih =>
    by_cases ha : a = h
    · subst ha
      rw [List.map_cons, List.filter_cons_of_pos (by simp), List.map_cons, List.sum_cons, ih,
        List.count_cons_self]
      push_cast
      ring
    · rw [List.map_cons, List.filter_cons_of_neg (by simpa using ha), ih,
        List.count_cons_of_ne (fun e => ha e.symm)]

theorem sum_map_scaled (c w : TWritableReconHit K → K) (q t : K) :
    ∀ l : List (TWritableReconHit K),
      (l.map fun g => c g * (q * w g / t)).sum = q / t * (l.map fun g => c g * w g).sum := by
  intro l
  induction l with
  | nil => simp
  | cons a rest ih =>
    rw [List.map_cons, List.sum_cons, ih, List.map_cons, List.sum_cons]
    ring

theorem totalWeight_pos (groups : List (TWritableReconHit K)) (h : THit K)
    (hlinked : ∃ g ∈ groups, h ∈ constituents g)
    (hunc : ∀ g ∈ groups, g.ChargeUncertainty ≠ 0) : 0 < totalWeight groups h := by
  obtain ⟨g, hg, hmem⟩ := hlinked
  have hterm : 0 < ((constituents g).count h : K) * groupWeight g := by
    apply mul_pos
    · exact_mod_cast List.count_pos_iff.2 hmem
    · exact groupWeight_pos g (hunc g hg)
  have hnonneg : ∀ x ∈ groups.map fun g => ((constituents g).count h : K) * groupWeight g,
      0 ≤ x := by
    intro x hx
    obtain ⟨g', hg', rfl⟩ := List.mem_map.1 hx
    exact mul_nonneg (Nat.cast_nonneg _) (le_of_lt (groupWeight_pos g' (hunc g' hg')))
  have hle := List.single_le_sum hnonneg _ (List.mem_map.2 ⟨g, hg, rfl⟩)
  exact lt_of_lt_of_le hterm hle

/-- C5: after the charge-sharing solve, for a wire hit linked to at least one measurement
group, the shares given to it by all the groups add up to its original charge (the charge
uncertainties of the 3D hits, whose inverse squares are the weights, are not zero). -/
theorem shares_sum_to_charge (groups : List (TWritableReconHit K)) (h : THit K)
    (hlinked : ∃ g ∈ groups, h ∈ constituents g)
    (hunc : ∀ g ∈ groups, g.ChargeUncertainty ≠ 0) :
    sharedCharge (Solve groups) h = h.Charge := by
  have hT : totalWeight groups h ≠ 0 := ne_of_gt (totalWeight_pos groups h hlinked hunc)
  have hsum : sharedCharge (Solve groups) h
      = (groups.map fun g =>
          ((constituents g).count h : K) * (h.Charge * groupWeight g / totalWeight groups h)).sum := by
    unfold sharedCharge Solve
    rw [List.map_map]
    congr 1
    apply List.map_congr_left
    intro g _
    exact links_share_sum groups g h (constituents g)
  rw [hsum, sum_map_scaled]
  show h.Charge / totalWeight groups h * totalWeight groups h = h.Charge
  field_simp

/-- Witness for C5: two 3D hits share the X and the V hit; the two shares of the V hit add
up to its charge. -/
theorem shares_sum_to_charge_witness :
    sharedCharge (Solve sharingGroups) scenarioV = scenarioV.Charge :=
  shares_sum_to_charge sharingGroups scenarioV
    ⟨candidate scenarioX scenarioV scenarioU1 1, by simp [sharingGroups],
      by simp [constituents, candidate]⟩
    (by
      intro g hg
      simp only [sharingGroups, List.mem_cons, List.mem_singleton, List.not_mem_nil,
        or_false] at hg
      rcases hg with rfl | rfl <;> norm_num [candidate])

/-! ## `Process` -/

/-- C10: `Process` returns an empty handle exactly when the wire-hit collection is
missing, or the trigger-hit collection is missing or empty; for every other input it
returns a result whose container `final` and selection `clustered` hold the clustered
3D hits. -/
theorem Process_empty_handle_iff (alg : TCluster3D K) (drift : TDriftPosition K)
    (S : StdSort K) (sqrt : K → K) (wires pmts : Option (THitSelection K)) :
    (Process alg drift S sqrt wires pmts = none
        ↔ (wires = none ∨ pmts = none ∨ pmts = some [])) ∧
      (∀ wireHits pmtHits, wires = some wireHits → pmts = some pmtHits → pmtHits ≠ [] →
        ∃ r, Process alg drift S sqrt wires pmts = some r ∧
          r.clustered = clusteredHits (sharedHits sqrt
            (writableHits alg drift S sqrt wireHits (TimeZero pmtHits wireHits))) ∧
          r.final = [r.clustered]) := by
  cases wires with
  | none => simp [Process]
  | some wireHits =>
    cases pmts with
    | none => simp [Process]
    | some pmtHits =>
      cases pmtHits with
      | nil => simp [Process]
      | cons p rest =>
        constructor
        · simp [Process]
        · intro w q hw hq _
          cases hw
          cases hq
          exact ⟨_, by simp only [Process, List.length_cons]; rw [if_neg (by omega)], rfl, rfl⟩

/-- Witness for C10: wire hits and five trigger hits give a result. -/
theorem Process_empty_handle_iff_witness :
    ∃ r, Process algUnit driftId sortByTime sqrtQ
        (some [scenarioX, scenarioV, scenarioU1, scenarioU2]) (some triggerScenario) = some r ∧
      r.clustered = clusteredHits (sharedHits sqrtQ
        (writableHits algUnit driftId sortByTime sqrtQ
          [scenarioX, scenarioV, scenarioU1, scenarioU2]
          (TimeZero triggerScenario [scenarioX, scenarioV, scenarioU1, scenarioU2]))) ∧
      r.final = [r.clustered] :=
  (Process_empty_handle_iff algUnit driftId sortByTime sqrtQ
    (some [scenarioX, scenarioV, scenarioU1, scenarioU2]) (some triggerScenario)).2
    [scenarioX, scenarioV, scenarioU1, scenarioU2] triggerScenario rfl rfl
    (by simp [triggerScenario])

/-! ## Magnitudes and squares -/

/-- The convention for `v.Mag() > c`: for a non-negative root `r` of `s` and a
non-negative bound `c`, the comparison `r > c` is the comparison `s > c * c`. -/
theorem mag_gt_iff_mag2_gt (r s c : K) (hr : 0 ≤ r) (hrs : r * r = s) (hc : 0 ≤ c) :
    r > c ↔ s > c * c := by
  rw [← hrs]
  constructor
  · intro h
    exact mul_self_lt_mul_self hc h
  · intro h
    by_contra hle
    have hle2 : r ≤ c := not_lt.mp hle
    have := mul_self_le_mul_self hr hle2
    exact absurd h (not_lt.mpr this)

/-! ## `Process` and its result -/

theorem Process_eq_withLimit (alg : TCluster3D K) (drift : TDriftPosition K) (S : StdSort K)
    (sqrt : K → K) (wires pmts : Option (THitSelection K)) :
    Process alg drift S sqrt wires pmts
      = ProcessWithLimit hitLimit alg drift S sqrt wires pmts := by
  cases wires with
  | none => rfl
  | some wireHits =>
    cases pmts with
    | none => rfl
    | some pmtHits => rfl

theorem ProcessWithLimit_some (limit : Nat) (alg : TCluster3D K) (drift : TDriftPosition K)
    (S : StdSort K) (sqrt : K → K) (wireHits pmtHits : THitSelection K) (hne : pmtHits ≠ []) :
    ProcessWithLimit limit alg drift S sqrt (some wireHits) (some pmtHits)
      = some (buildResult limit alg drift S sqrt wireHits pmtHits) := by
  cases pmtHits with
  | nil => exact absurd rfl hne
  | cons p rest =>
    simp only [ProcessWithLimit, List.length_cons]
    rw [if_neg (by omega)]

theorem Process_some (alg : TCluster3D K) (drift : TDriftPosition K)
    (S : StdSort K) (sqrt : K → K) (wireHits pmtHits : THitSelection K) (hne : pmtHits ≠ []) :
    Process alg drift S sqrt (some wireHits) (some pmtHits)
      = some (buildResult hitLimit alg drift S sqrt wireHits pmtHits) := by
  rw [Process_eq_withLimit]
  exact ProcessWithLimit_some hitLimit alg drift S sqrt wireHits pmtHits hne

theorem buildResult_clustered (limit : Nat) (alg : TCluster3D K) (drift : TDriftPosition K)
    (S : StdSort K) (sqrt : K → K) (wireHits pmtHits : THitSelection K) :
    (buildResult limit alg drift S sqrt wireHits pmtHits).clustered
      = clusteredHits (candidates alg drift S sqrt wireHits pmtHits) := rfl

theorem buildResult_final (limit : Nat) (alg : TCluster3D K) (drift : TDriftPosition K)
    (S : StdSort K) (sqrt : K → K) (wireHits pmtHits : THitSelection K) :
    (buildResult limit alg drift S sqrt wireHits pmtHits).final
      = [clusteredHits (candidates alg drift S sqrt wireHits pmtHits)] := rfl

theorem buildResult_usedHits (limit : Nat) (alg : TCluster3D K) (drift : TDriftPosition K)
    (S : StdSort K) (sqrt : K → K) (wireHits pmtHits : THitSelection K) :
    usedHits (buildResult limit alg drift S sqrt wireHits pmtHits)
      = (bookkeepingWithLimit limit
          (search alg drift (S.sort (planeHits WirePlane.kXPlane wireHits))
            (S.sort (planeHits WirePlane.kVPlane wireHits))
            (S.sort (planeHits WirePlane.kUPlane wireHits))) wireHits).1 := by
  have key : ∀ l : THitSelection K, (if l.length > 0 then some l else none).getD [] = l := by
    intro l
    cases l <;> simp
  simp only [usedHits, buildResult]
  exact key _

theorem buildResult_unusedHits (limit : Nat) (alg : TCluster3D K) (drift : TDriftPosition K)
    (S : StdSort K) (sqrt : K → K) (wireHits pmtHits : THitSelection K) :
    unusedHits (buildResult limit alg drift S sqrt wireHits pmtHits)
      = (bookkeepingWithLimit limit
          (search alg drift (S.sort (planeHits WirePlane.kXPlane wireHits))
            (S.sort (planeHits WirePlane.kVPlane wireHits))
            (S.sort (planeHits WirePlane.kUPlane wireHits))) wireHits).2 := by
  have key : ∀ l : THitSelection K, (if l.length > 0 then some l else none).getD [] = l := by
    intro l
    cases l <;> simp
  simp only [unusedHits, buildResult]
  exact key _

/-! ## `TimeZero` without trigger hits -/

/-- Counterexample to C11 as stated: for an empty collection of trigger hits `TimeZero`
returns the time 0. -/
theorem TimeZero_empty_returns_zero : TimeZero ([] : THitSelection ℚ) [] = 0 := rfl

/-- C11 (amended): for an empty collection of trigger hits `TimeZero` returns the time
value 0 and reports nothing; it is `Process` that treats the empty collection as fatal and
returns the empty handle. -/
theorem TimeZero_empty_and_Process (alg : TCluster3D K) (drift : TDriftPosition K)
    (S : StdSort K) (sqrt : K → K) (wires : THitSelection K)
    (wireInput : Option (THitSelection K)) :
    TimeZero ([] : THitSelection K) wires = 0 ∧
      Process alg drift S sqrt wireInput (some []) = none := by
  constructor
  · rfl
  · cases wireInput with
    | none => rfl
    | some w => rfl

/-! ## The bookkeeping limit and the 3D result -/

/-- C20: for every input and any two values of the bookkeeping limit, `Process` returns a
result for the same inputs, with the same clustered 3D hits and the same container
`final`; the limit of the source is one of these values. -/
theorem limit_does_not_change_hits (limit1 limit2 : Nat) (alg : TCluster3D K)
    (drift : TDriftPosition K) (S : StdSort K) (sqrt : K → K)
    (wires pmts : Option (THitSelection K)) :
    (ProcessWithLimit limit1 alg drift S sqrt wires pmts).map TAlgorithmResult.clustered
        = (ProcessWithLimit limit2 alg drift S sqrt wires pmts).map
            TAlgorithmResult.clustered ∧
      (ProcessWithLimit limit1 alg drift S sqrt wires pmts).map TAlgorithmResult.final
        = (ProcessWithLimit limit2 alg drift S sqrt wires pmts).map TAlgorithmResult.final ∧
      Process alg drift S sqrt wires pmts
        = ProcessWithLimit hitLimit alg drift S sqrt wires pmts := by
  refine ⟨?_, ?_, Process_eq_withLimit alg drift S sqrt wires pmts⟩
  · cases wires with
    | none => rfl
    | some wireHits =>
      cases pmts with
      | none => rfl
      | some pmtHits =>
        cases pmtHits with
        | nil => rfl
        | cons p rest =>
          rw [ProcessWithLimit_some limit1 _ _ _ _ _ _ (List.cons_ne_nil p rest),
            ProcessWithLimit_some limit2 _ _ _ _ _ _ (List.cons_ne_nil p rest)]
          rfl
  · cases wires with
    | none => rfl
    | some wireHits =>
      cases pmts with
      | none => rfl
      | some pmtHits =>
        cases pmtHits with
        | nil => rfl
        | cons p rest =>
          rw [ProcessWithLimit_some limit1 _ _ _ _ _ _ (List.cons_ne_nil p rest),
            ProcessWithLimit_some limit2 _ _ _ _ _ _ (List.cons_ne_nil p rest)]
          rfl

/-! ## The charge after sharing -/

/-- The sum of the inverse variances of three positive uncertainties is positive. -/
theorem inverse_variance_sum_pos (a b c : K) (ha : 0 < a) (hb : 0 < b) (hc : 0 < c) :
    0 < 1 / (a * a) + 1 / (b * b) + 1 / (c * c) := by
  have h1 : 0 < 1 / (a * a) := one_div_pos.2 (mul_pos ha ha)
  have h2 : 0 < 1 / (b * b) := one_div_pos.2 (mul_pos hb hb)
  have h3 : 0 < 1 / (c * c) := one_div_pos.2 (mul_pos hc hc)
  linarith

/-- The update of the charge for a group with one link per constituent. -/
theorem updateCharge_three_links (sqrt : K → K) (obj : TWritableReconHit K) (x v u : THit K)
    (s1 s2 s3 : K) :
    (updateCharge sqrt
        { object := obj
          links := [{ hit := x, charge := s1 }, { hit := v, charge := s2 },
            { hit := u, charge := s3 }] }).Charge
        = (s1 / (x.ChargeUncertainty * x.ChargeUncertainty)
            + s2 / (v.ChargeUncertainty * v.ChargeUncertainty)
            + s3 / (u.ChargeUncertainty * u.ChargeUncertainty))
          / (1 / (x.ChargeUncertainty * x.ChargeUncertainty)
            + 1 / (v.ChargeUncertainty * v.ChargeUncertainty)
            + 1 / (u.ChargeUncertainty * u.ChargeUncertainty)) ∧
      (updateCharge sqrt
        { object := obj
          links := [{ hit := x, charge := s1 }, { hit := v, charge := s2 },
            { hit := u, charge := s3 }] }).ChargeUncertainty
        = sqrt (1 / (1 / (x.ChargeUncertainty * x.ChargeUncertainty)
            + 1 / (v.ChargeUncertainty * v.ChargeUncertainty)
            + 1 / (u.ChargeUncertainty * u.ChargeUncertainty))) := by
  simp only [updateCharge, List.foldl_cons, List.foldl_nil, zero_add]
  exact ⟨trivial, trivial⟩

/-- C13: for a 3D hit whose constituents have positive charge uncertainties and whose
three links carry the full charges of the constituents, the charge written by the
charge-sharing update is the inverse-variance-weighted mean of the three charges, which
is the fused charge from before the sharing. -/
theorem unshared_charge_preserved (drift : TDriftPosition K) (sqrt : K → K) (t0 : K)
    (x v u : THit K) (hx : 0 < x.ChargeUncertainty) (hv : 0 < v.ChargeUncertainty)
    (hu : 0 < u.ChargeUncertainty) :
    0 < 1 / x.ChargeUncertainty ^ 2 + 1 / v.ChargeUncertainty ^ 2
        + 1 / u.ChargeUncertainty ^ 2 ∧
      (updateCharge sqrt
        { object := makeHit drift sqrt t0 x v u
          links := [{ hit := x, charge := x.Charge }, { hit := v, charge := v.Charge },
            { hit := u, charge := u.Charge }] }).Charge
        = (x.Charge / x.ChargeUncertainty ^ 2 + v.Charge / v.ChargeUncertainty ^ 2
            + u.Charge / u.ChargeUncertainty ^ 2)
          / (1 / x.ChargeUncertainty ^ 2 + 1 / v.ChargeUncertainty ^ 2
            + 1 / u.ChargeUncertainty ^ 2) ∧
      (updateCharge sqrt
        { object := makeHit drift sqrt t0 x v u
          links := [{ hit := x, charge := x.Charge }, { hit := v, charge := v.Charge },
            { hit := u, charge := u.Charge }] }).Charge
        = (makeHit drift sqrt t0 x v u).Charge := by
  refine ⟨?_, ?_, ?_⟩
  · simp only [pow_two]
    exact inverse_variance_sum_pos _ _ _ hx hv hu
  · rw [(updateCharge_three_links sqrt _ x v u _ _ _).1]
    simp only [pow_two]
  · rw [(updateCharge_three_links sqrt _ x v u _ _ _).1]
    rfl

/-- Witness for C13: the X, V and first U hit of the scenario, each of charge 100 with
uncertainty 1. -/
theorem unshared_charge_preserved_witness :
    (updateCharge sqrtQ
        { object := makeHit driftId sqrtQ 0 scenarioX scenarioV scenarioU1
          links := [{ hit := scenarioX, charge := scenarioX.Charge },
            { hit := scenarioV, charge := scenarioV.Charge },
            { hit := scenarioU1, charge := scenarioU1.Charge }] }).Charge
      = (makeHit driftId sqrtQ 0 scenarioX scenarioV scenarioU1).Charge :=
  (unshared_charge_preserved driftId sqrtQ 0 scenarioX scenarioV scenarioU1
    (by norm_num [scenarioX, wireAt]) (by norm_num [scenarioV, wireAt])
    (by norm_num [scenarioU1, wireAt])).2.2

/-- C14: for a 3D hit whose constituents have positive charge uncertainties, the
charge-sharing update sets the charge to `sum(share_i/sigma_i^2) / sum(1/sigma_i^2)` over
its three links, with the full charge uncertainty of each hit, and the charge uncertainty
to `sqrt(1 / sum(1/sigma_i^2))`, which does not depend on the shares and is the fused
charge uncertainty from before the sharing. -/
theorem updateCharge_spec (drift : TDriftPosition K) (sqrt : K → K) (t0 : K)
    (x v u : THit K) (s1 s2 s3 : K) (hx : 0 < x.ChargeUncertainty)
    (hv : 0 < v.ChargeUncertainty) (hu : 0 < u.ChargeUncertainty) :
    0 < 1 / x.ChargeUncertainty ^ 2 + 1 / v.ChargeUncertainty ^ 2
        + 1 / u.ChargeUncertainty ^ 2 ∧
      (updateCharge sqrt
        { object := makeHit drift sqrt t0 x v u
          links := [{ hit := x, charge := s1 }, { hit := v, charge := s2 },
            { hit := u, charge := s3 }] }).Charge
        = (s1 / x.ChargeUncertainty ^ 2 + s2 / v.ChargeUncertainty ^ 2
            + s3 / u.ChargeUncertainty ^ 2)
          / (1 / x.ChargeUncertainty ^ 2 + 1 / v.ChargeUncertainty ^ 2
            + 1 / u.ChargeUncertainty ^ 2) ∧
      (updateCharge sqrt
        { object := makeHit drift sqrt t0 x v u
          links := [{ hit := x, charge := s1 }, { hit := v, charge := s2 },
            { hit := u, charge := s3 }] }).ChargeUncertainty
        = sqrt (1 / (1 / x.ChargeUncertainty ^ 2 + 1 / v.ChargeUncertainty ^ 2
            + 1 / u.ChargeUncertainty ^ 2)) ∧
      (updateCharge sqrt
        { object := makeHit drift sqrt t0 x v u
          links := [{ hit := x, charge := s1 }, { hit := v, charge := s2 },
            { hit := u, charge := s3 }] }).ChargeUncertainty
        = (makeHit drift sqrt t0 x v u).ChargeUncertainty := by
  refine ⟨?_, ?_, ?_, ?_⟩
  · simp only [pow_two]
    exact inverse_variance_sum_pos _ _ _ hx hv hu
  · rw [(updateCharge_three_links sqrt _ x v u _ _ _).1]
    simp only [pow_two]
  · rw [(updateCharge_three_links sqrt _ x v u _ _ _).2]
    simp only [pow_two]
  · rw [(updateCharge_three_links sqrt _ x v u _ _ _).2]
    rfl

/-- Witness for C14: shares 40, 50 and 60 of the three hits of the scenario. -/
theorem updateCharge_spec_witness :
    (updateCharge sqrtQ
        { object := makeHit driftId sqrtQ 0 scenarioX scenarioV scenarioU1
          links := [{ hit := scenarioX, charge := 40 }, { hit := scenarioV, charge := 50 },
            { hit := scenarioU1, charge := 60 }] }).Charge = 50 ∧
      (updateCharge sqrtQ
        { object := makeHit driftId sqrtQ 0 scenarioX scenarioV scenarioU1
          links := [{ hit := scenarioX, charge := 40 }, { hit := scenarioV, charge := 50 },
            { hit := scenarioU1, charge := 60 }] }).ChargeUncertainty
        = (makeHit driftId sqrtQ 0 scenarioX scenarioV scenarioU1).ChargeUncertainty :=
  ⟨by
      rw [(updateCharge_spec driftId sqrtQ 0 scenarioX scenarioV scenarioU1 40 50 60
        (by norm_num [scenarioX, wireAt]) (by norm_num [scenarioV, wireAt])
        (by norm_num [scenarioU1, wireAt])).2.1]
      norm_num [scenarioX, scenarioV, scenarioU1, wireAt],
    (updateCharge_spec driftId sqrtQ 0 scenarioX scenarioV scenarioU1 40 50 60
      (by norm_num [scenarioX, wireAt]) (by norm_num [scenarioV, wireAt])
      (by norm_num [scenarioU1, wireAt])).2.2.2⟩

/-! ## The fused time -/

/-- A mean with positive weights lies between the smallest and the largest value. -/
theorem weighted_mean_bounds (a b c ta tb tc : K) (ha : 0 < a) (hb : 0 < b) (hc : 0 < c) :
    min ta (min tb tc) ≤ (ta * a + tb * b + tc * c) / (a + b + c) ∧
      (ta * a + tb * b + tc * c) / (a + b + c) ≤ max ta (max tb tc) := by
  have hsum : 0 < a + b + c := by linarith
  constructor
  · rw [le_div_iff₀ hsum]
    have h1 : min ta (min tb tc) ≤ ta := min_le_left _ _
    have h2 : min ta (min tb tc) ≤ tb := le_trans (min_le_right _ _) (min_le_left _ _)
    have h3 : min ta (min tb tc) ≤ tc := le_trans (min_le_right _ _) (min_le_right _ _)
    nlinarith [mul_le_mul_of_nonneg_right h1 (le_of_lt ha),
      mul_le_mul_of_nonneg_right h2 (le_of_lt hb), mul_le_mul_of_nonneg_right h3 (le_of_lt hc)]
  · rw [div_le_iff₀ hsum]
    have h1 : ta ≤ max ta (max tb tc) := le_max_left _ _
    have h2 : tb ≤ max ta (max tb tc) := le_trans (le_max_left _ _) (le_max_right _ _)
    have h3 : tc ≤ max ta (max tb tc) := le_trans (le_max_right _ _) (le_max_right _ _)
    nlinarith [mul_le_mul_of_nonneg_right h1 (le_of_lt ha),
      mul_le_mul_of_nonneg_right h2 (le_of_lt hb), mul_le_mul_of_nonneg_right h3 (le_of_lt hc)]

/-- C15: for a triplet with positive time uncertainties, the fused time before the
time-zero overwrite is `sum(t_i/sigma_i^2) / sum(1/sigma_i^2)` over the three
drift-corrected times, it lies between the smallest and the largest of them, and the fused
time uncertainty `u` has `u ≥ 0` and `u^2 = 3 / sum(1/sigma_i^2)`, for `sqrt` the
non-negative square root. -/
theorem fused_time_spec (drift : TDriftPosition K) (sqrt : K → K) (x v u : THit K)
    (hx : 0 < x.TimeUncertainty) (hv : 0 < v.TimeUncertainty) (hu : 0 < u.TimeUncertainty)
    (hsqrt : ∀ a : K, 0 ≤ a → 0 ≤ sqrt a ∧ sqrt a * sqrt a = a) :
    (fuse drift sqrt x v u).Time
        = (drift.GetTime x / x.TimeUncertainty ^ 2 + drift.GetTime v / v.TimeUncertainty ^ 2
            + drift.GetTime u / u.TimeUncertainty ^ 2)
          / (1 / x.TimeUncertainty ^ 2 + 1 / v.TimeUncertainty ^ 2
            + 1 / u.TimeUncertainty ^ 2) ∧
      min (drift.GetTime x) (min (drift.GetTime v) (drift.GetTime u))
        ≤ (fuse drift sqrt x v u).Time ∧
      (fuse drift sqrt x v u).Time
        ≤ max (drift.GetTime x) (max (drift.GetTime v) (drift.GetTime u)) ∧
      0 ≤ (fuse drift sqrt x v u).TimeUncertainty ∧
      (fuse drift sqrt x v u).TimeUncertainty ^ 2
        = 3 / (1 / x.TimeUncertainty ^ 2 + 1 / v.TimeUncertainty ^ 2
            + 1 / u.TimeUncertainty ^ 2) := by
  have hW := inverse_variance_sum_pos _ _ _ hx hv hu
  have h1 : 0 < 1 / (x.TimeUncertainty * x.TimeUncertainty) := one_div_pos.2 (mul_pos hx hx)
  have h2 : 0 < 1 / (v.TimeUncertainty * v.TimeUncertainty) := one_div_pos.2 (mul_pos hv hv)
  have h3 : 0 < 1 / (u.TimeUncertainty * u.TimeUncertainty) := one_div_pos.2 (mul_pos hu hu)
  have hmean := weighted_mean_bounds _ _ _ (drift.GetTime x) (drift.GetTime v)
    (drift.GetTime u) h1 h2 h3
  have htime : (fuse drift sqrt x v u).Time
      = (drift.GetTime x * (1 / (x.TimeUncertainty * x.TimeUncertainty))
          + drift.GetTime v * (1 / (v.TimeUncertainty * v.TimeUncertainty))
          + drift.GetTime u * (1 / (u.TimeUncertainty * u.TimeUncertainty)))
        / (1 / (x.TimeUncertainty * x.TimeUncertainty)
          + 1 / (v.TimeUncertainty * v.TimeUncertainty)
          + 1 / (u.TimeUncertainty * u.TimeUncertainty)) := by
    simp only [fuse, mul_one_div]
  have hroot := hsqrt (3 / (1 / (x.TimeUncertainty * x.TimeUncertainty)
      + 1 / (v.TimeUncertainty * v.TimeUncertainty)
      + 1 / (u.TimeUncertainty * u.TimeUncertainty)))
    (le_of_lt (div_pos (by norm_num) hW))
  refine ⟨?_, ?_, ?_, ?_, ?_⟩
  · simp only [fuse, pow_two]
  · rw [htime]
    exact hmean.1
  · rw [htime]
    exact hmean.2
  · exact hroot.1
  · simp only [pow_two]
    exact hroot.2

/-- Witness for C15: over the reals with the real square root, hits at times 0, 3 and 6
with time uncertainty 1 have their fused time between 0 and 6. -/
theorem fused_time_spec_witness :
    min (driftRaw.GetTime (wireAt 0 WirePlane.kXPlane (0 : ℝ) 0 0 1 0 0))
        (min (driftRaw.GetTime (wireAt 1 WirePlane.kVPlane (0 : ℝ) 0 1 0 3 0))
          (driftRaw.GetTime (wireAt 2 WirePlane.kUPlane (0 : ℝ) 0 1 1 6 0)))
      ≤ (fuse driftRaw Real.sqrt (wireAt 0 WirePlane.kXPlane (0 : ℝ) 0 0 1 0 0)
          (wireAt 1 WirePlane.kVPlane (0 : ℝ) 0 1 0 3 0)
          (wireAt 2 WirePlane.kUPlane (0 : ℝ) 0 1 1 6 0)).Time :=
  (fused_time_spec driftRaw Real.sqrt (wireAt 0 WirePlane.kXPlane (0 : ℝ) 0 0 1 0 0)
    (wireAt 1 WirePlane.kVPlane (0 : ℝ) 0 1 0 3 0)
    (wireAt 2 WirePlane.kUPlane (0 : ℝ) 0 1 1 6 0)
    (by norm_num [wireAt]) (by norm_num [wireAt]) (by norm_num [wireAt])
    (fun a ha => ⟨Real.sqrt_nonneg a, Real.mul_self_sqrt ha⟩)).2.1

/-! ## The time-zero overwrite -/

/-- The update of the charge leaves every other attribute of the 3D hit. -/
theorem updateCharge_frame (sqrt : K → K) (g : TMeasurementGroup K) :
    (updateCharge sqrt g).xh = g.object.xh ∧ (updateCharge sqrt g).vh = g.object.vh ∧
      (updateCharge sqrt g).uh = g.object.uh ∧ (updateCharge sqrt g).Time = g.object.Time ∧
      (updateCharge sqrt g).TimeUncertainty = g.object.TimeUncertainty ∧
      (updateCharge sqrt g).TimeRMS = g.object.TimeRMS ∧
      (updateCharge sqrt g).Position = g.object.Position ∧
      (updateCharge sqrt g).RMS = g.object.RMS ∧
      (updateCharge sqrt g).Uncertainty = g.object.Uncertainty :=
  ⟨rfl, rfl, rfl, rfl, rfl, rfl, rfl, rfl, rfl⟩

/-- Every 3D hit after the sharing comes from a 3D hit before the sharing by the update of
its charge. -/
theorem sharedHits_mem (sqrt : K → K) (hits : List (TWritableReconHit K))
    (h : TWritableReconHit K) (hh : h ∈ sharedHits sqrt hits) :
    ∃ g : TMeasurementGroup K, g.object ∈ hits ∧ h = updateCharge sqrt g := by
  unfold sharedHits Solve at hh
  rw [List.map_map] at hh
  obtain ⟨c, hc, rfl⟩ := List.mem_map.1 hh
  exact ⟨_, hc, rfl⟩

theorem writableHits_mem (alg : TCluster3D K) (drift : TDriftPosition K) (S : StdSort K)
    (sqrt : K → K) (wireHits : THitSelection K) (t0 : K) (h : TWritableReconHit K)
    (hh : h ∈ writableHits alg drift S sqrt wireHits t0) :
    h = makeHit drift sqrt t0 h.xh h.vh h.uh := by
  unfold writableHits at hh
  obtain ⟨p, _, rfl⟩ := List.mem_map.1 hh
  rfl

theorem clusteredHits_subset (hits : List (TWritableReconHit K)) (h : TWritableReconHit K)
    (hh : h ∈ clusteredHits hits) : h ∈ hits :=
  (List.mem_filter.1 hh).1

/-- C16: every 3D hit produced by one invocation of `Process`, before the sharing, after
it and in the clustered output, has the time zero of the invocation as its time and the
position of the drift model at that time zero as its position; its time uncertainty and
time RMS are those computed by the fusion. -/
theorem time_zero_overwrite (alg : TCluster3D K) (drift : TDriftPosition K) (S : StdSort K)
    (sqrt : K → K) (wireHits pmtHits : THitSelection K) (h : TWritableReconHit K)
    (hh : h ∈ writableHits alg drift S sqrt wireHits (TimeZero pmtHits wireHits) ∨
      h ∈ candidates alg drift S sqrt wireHits pmtHits ∨
      h ∈ clusteredHits (candidates alg drift S sqrt wireHits pmtHits)) :
    h.Time = TimeZero pmtHits wireHits ∧
      h.Position = (drift.GetPosition (fuse drift sqrt h.xh h.vh h.uh)
        (TimeZero pmtHits wireHits)).Vect ∧
      h.TimeUncertainty = (fuse drift sqrt h.xh h.vh h.uh).TimeUncertainty ∧
      h.TimeRMS = (fuse drift sqrt h.xh h.vh h.uh).TimeRMS := by
  have hw : ∀ c : TWritableReconHit K,
      c ∈ writableHits alg drift S sqrt wireHits (TimeZero pmtHits wireHits) →
      c.Time = TimeZero pmtHits wireHits ∧
        c.Position = (drift.GetPosition (fuse drift sqrt c.xh c.vh c.uh)
          (TimeZero pmtHits wireHits)).Vect ∧
        c.TimeUncertainty = (fuse drift sqrt c.xh c.vh c.uh).TimeUncertainty ∧
        c.TimeRMS = (fuse drift sqrt c.xh c.vh c.uh).TimeRMS := by
    intro c hc
    have e := writableHits_mem alg drift S sqrt wireHits _ c hc
    refine ⟨?_, ?_, ?_, ?_⟩
    · rw [e]; rfl
    · conv_lhs => rw [e]
      rfl
    · conv_lhs => rw [e]
      rfl
    · conv_lhs => rw [e]
      rfl
  have hc : ∀ c : TWritableReconHit K, c ∈ candidates alg drift S sqrt wireHits pmtHits →
      c.Time = TimeZero pmtHits wireHits ∧
        c.Position = (drift.GetPosition (fuse drift sqrt c.xh c.vh c.uh)
          (TimeZero pmtHits wireHits)).Vect ∧
        c.TimeUncertainty = (fuse drift sqrt c.xh c.vh c.uh).TimeUncertainty ∧
        c.TimeRMS = (fuse drift sqrt c.xh c.vh c.uh).TimeRMS := by
    intro c hmem
    obtain ⟨g, hg, rfl⟩ := sharedHits_mem sqrt _ c hmem
    obtain ⟨e1, e2, e3, e4, e5, e6, e7, _, _⟩ := updateCharge_frame sqrt g
    rw [e1, e2, e3, e4, e5, e6, e7]
    exact hw g.object hg
  rcases hh with hh | hh | hh
  · exact hw h hh
  · exact hc h hh
  · exact hc h (clusteredHits_subset _ h hh)

theorem writableHits_scenario_t0 :
    writableHits algUnit driftId sortByTime sqrtQ
        [scenarioX, scenarioV, scenarioU1, scenarioU2]
        (TimeZero triggerScenario [scenarioX, scenarioV, scenarioU1, scenarioU2])
      = [makeHit driftId sqrtQ 0 scenarioX scenarioV scenarioU1,
          makeHit driftId sqrtQ 0 scenarioX scenarioV scenarioU2] := by
  have e : TimeZero triggerScenario [scenarioX, scenarioV, scenarioU1, scenarioU2] = 0 :=
    TimeZero_triggerScenario
  rw [e]
  exact writableHits_scenario

/-- Witness for C16: the first 3D hit of the scenario carries the time zero 0 of the
trigger hits. -/
theorem time_zero_overwrite_witness :
    (makeHit driftId sqrtQ 0 scenarioX scenarioV scenarioU1).Time
      = TimeZero triggerScenario [scenarioX, scenarioV, scenarioU1, scenarioU2] :=
  (time_zero_overwrite algUnit driftId sortByTime sqrtQ
    [scenarioX, scenarioV, scenarioU1, scenarioU2] triggerScenario
    (makeHit driftId sqrtQ 0 scenarioX scenarioV scenarioU1)
    (Or.inl (by rw [writableHits_scenario_t0]; simp))).1

/-! ## The used and unused wire hits -/

theorem mem_AddHit (sel : THitSelection K) (h a : THit K) :
    a ∈ AddHit sel h ↔ a ∈ sel ∨ a = h := by
  unfold AddHit
  by_cases hmem : h ∈ sel
  · rw [if_pos hmem]
    constructor
    · exact Or.inl
    · rintro (h1 | h1)
      · exact h1
      · rw [h1]; exact hmem
  · rw [if_neg hmem]
    simp

theorem nodup_AddHit (sel : THitSelection K) (h : THit K) (hsel : sel.Nodup) :
    (AddHit sel h).Nodup := by
  unfold AddHit
  by_cases hmem : h ∈ sel
  · rw [if_pos hmem]; exact hsel
  · rw [if_neg hmem]
    rw [List.nodup_append]
    refine ⟨hsel, List.nodup_singleton h, ?_⟩
    intro a ha hb
    rw [List.mem_singleton] at hb
    exact hmem (hb ▸ ha)

theorem mem_foldl_AddHit (a : THit K) :
    ∀ (l : List (THit K)) (sel : THitSelection K),
      a ∈ l.foldl AddHit sel ↔ a ∈ sel ∨ a ∈ l := by
  intro l
  induction l with
  | nil => intro sel; simp
  | cons b rest ih =>
    intro sel
    rw [List.foldl_cons, ih, mem_AddHit, List.mem_cons]
    tauto

theorem nodup_foldl_AddHit :
    ∀ (l : List (THit K)) (sel : THitSelection K), sel.Nodup → (l.foldl AddHit sel).Nodup := by
  intro l
  induction l with
  | nil => intro sel h; exact h
  | cons b rest ih =>
    intro sel h
    exact ih _ (nodup_AddHit sel b h)

theorem mem_foldl_RemoveHit_of (a : THit K) :
    ∀ (l : List (THit K)) (sel : THitSelection K), a ∈ sel → a ∉ l →
      a ∈ l.foldl RemoveHit sel := by
  intro l
  induction l with
  | nil => intro sel h _; exact h
  | cons b rest ih =>
    intro sel h hnot
    rw [List.foldl_cons]
    apply ih
    · unfold RemoveHit
      have hab : a ≠ b := fun e => hnot (by rw [e]; exact List.mem_cons_self _ _)
      exact (List.mem_erase_of_ne hab).2 h
    · exact fun hr => hnot (List.mem_cons_of_mem _ hr)

theorem mem_of_mem_foldl_RemoveHit (a : THit K) :
    ∀ (l : List (THit K)) (sel : THitSelection K), a ∈ l.foldl RemoveHit sel → a ∈ sel := by
  intro l
  induction l with
  | nil => intro sel h; exact h
  | cons b rest ih =>
    intro sel h
    rw [List.foldl_cons] at h
    exact List.mem_of_mem_erase (ih _ h)

theorem nodup_foldl_RemoveHit :
    ∀ (l : List (THit K)) (sel : THitSelection K), sel.Nodup →
      (l.foldl RemoveHit sel).Nodup := by
  intro l
  induction l with
  | nil => intro sel h; exact h
  | cons b rest ih =>
    intro sel h
    exact ih _ (h.erase b)

theorem not_mem_foldl_RemoveHit (a : THit K) :
    ∀ (l : List (THit K)) (sel : THitSelection K), sel.Nodup → a ∈ l →
      a ∉ l.foldl RemoveHit sel := by
  intro l
  induction l with
  | nil => intro sel _ h; exact absurd h (List.not_mem_nil a)
  | cons b rest ih =>
    intro sel hsel h
    rw [List.foldl_cons]
    by_cases hab : a = b
    · intro hmem
      have h1 := mem_of_mem_foldl_RemoveHit a rest _ hmem
      unfold RemoveHit at h1
      rw [hab] at h1
      exact (hsel.mem_erase_iff.1 h1).1 rfl
    · rcases List.mem_cons.1 h with h1 | h1
      · exact absurd h1 hab
      · exact ih _ (hsel.erase b) h1

/-- The bookkeeping of the loop body, hit by hit. -/
theorem foldl_markUsed :
    ∀ (triplets : List (THit K × THit K × THit K)) (b : THitSelection K × THitSelection K),
      triplets.foldl markUsed b
        = ((tripletHits triplets).foldl AddHit b.1, (tripletHits triplets).foldl RemoveHit b.2) := by
  intro triplets
  induction triplets with
  | nil => intro b; rfl
  | cons p rest ih =>
    intro b
    rw [List.foldl_cons, ih]
    simp only [tripletHits, List.flatMap_cons, markUsed, List.cons_append, List.nil_append,
      List.foldl_cons]

omit [LinearOrderedField K] in
theorem mem_tripletHits (triplets : List (THit K × THit K × THit K)) (h : THit K) :
    h ∈ tripletHits triplets ↔ ∃ p ∈ triplets, h = p.1 ∨ h = p.2.1 ∨ h = p.2.2 := by
  unfold tripletHits
  rw [List.mem_flatMap]
  constructor
  · rintro ⟨p, hp, hmem⟩
    refine ⟨p, hp, ?_⟩
    simpa using hmem
  · rintro ⟨p, hp, hmem⟩
    refine ⟨p, hp, ?_⟩
    simpa using hmem

/-- The hits of the triplets of `Process` are the constituents of its 3D hits. -/
theorem mem_tripletHits_search (alg : TCluster3D K) (drift : TDriftPosition K)
    (S : StdSort K) (sqrt : K → K) (wireHits : THitSelection K) (t0 : K) (h : THit K) :
    h ∈ tripletHits (search alg drift (S.sort (planeHits WirePlane.kXPlane wireHits))
        (S.sort (planeHits WirePlane.kVPlane wireHits))
        (S.sort (planeHits WirePlane.kUPlane wireHits)))
      ↔ ∃ c ∈ writableHits alg drift S sqrt wireHits t0, h ∈ constituents c := by
  rw [mem_tripletHits, ← writableHits_triplets alg drift S sqrt wireHits t0]
  constructor
  · rintro ⟨p, hp, hmem⟩
    obtain ⟨c, hc, rfl⟩ := List.mem_map.1 hp
    refine ⟨c, hc, ?_⟩
    simpa [constituents] using hmem
  · rintro ⟨c, hc, hmem⟩
    refine ⟨(c.xh, c.vh, c.uh), List.mem_map.2 ⟨c, hc, rfl⟩, ?_⟩
    simpa [constituents] using hmem

/-- The hits of the triplets of `Process` are wire hits of the input. -/
theorem tripletHits_search_subset (alg : TCluster3D K) (drift : TDriftPosition K)
    (S : StdSort K) (wireHits : THitSelection K) (h : THit K)
    (hh : h ∈ tripletHits (search alg drift (S.sort (planeHits WirePlane.kXPlane wireHits))
        (S.sort (planeHits WirePlane.kVPlane wireHits))
        (S.sort (planeHits WirePlane.kUPlane wireHits)))) :
    h ∈ wireHits := by
  obtain ⟨p, hp, hmem⟩ := (mem_tripletHits _ h).1 hh
  obtain ⟨h1, h2, h3, _⟩ := xLoop_mem alg drift _ _ _ p hp
  have hsub : ∀ (plane : WirePlane) (a : THit K), a ∈ S.sort (planeHits plane wireHits) →
      a ∈ wireHits := by
    intro plane a ha
    have := (S.perm _).mem_iff.1 ha
    exact (List.mem_filter.1 this).1
  rcases hmem with e | e | e
  · rw [e]; exact hsub _ _ h1
  · rw [e]; exact hsub _ _ h2
  · rw [e]; exact hsub _ _ h3

/-- The two selections of the result when the bookkeeping is active. -/
theorem buildResult_books (alg : TCluster3D K) (drift : TDriftPosition K) (S : StdSort K)
    (sqrt : K → K) (wireHits pmtHits : THitSelection K) (hlen : wireHits.length < hitLimit) :
    usedHits (buildResult hitLimit alg drift S sqrt wireHits pmtHits)
        = (tripletHits (search alg drift (S.sort (planeHits WirePlane.kXPlane wireHits))
            (S.sort (planeHits WirePlane.kVPlane wireHits))
            (S.sort (planeHits WirePlane.kUPlane wireHits)))).foldl AddHit [] ∧
      unusedHits (buildResult hitLimit alg drift S sqrt wireHits pmtHits)
        = (tripletHits (search alg drift (S.sort (planeHits WirePlane.kXPlane wireHits))
            (S.sort (planeHits WirePlane.kVPlane wireHits))
            (S.sort (planeHits WirePlane.kUPlane wireHits)))).foldl RemoveHit wireHits := by
  rw [buildResult_usedHits, buildResult_unusedHits]
  unfold bookkeepingWithLimit
  rw [if_pos hlen, foldl_markUsed]
  exact ⟨rfl, rfl⟩

theorem sqrtQ_one_third : sqrtQ (1 / 3) = 1 := by
  have hn : ((1 : ℚ) / 3).num = 1 := by norm_num
  have hd : ((1 : ℚ) / 3).den = 3 := by norm_num
  have h3 : Nat.sqrt 3 = 1 := by
    symm
    rw [Nat.eq_sqrt]
    constructor <;> norm_num
  unfold sqrtQ
  rw [hn, hd, h3]
  simp

theorem search_faint :
    search algUnit driftId (sortByTime.sort (planeHits WirePlane.kXPlane [faintX, faintV, faintU]))
        (sortByTime.sort (planeHits WirePlane.kVPlane [faintX, faintV, faintU]))
        (sortByTime.sort (planeHits WirePlane.kUPlane [faintX, faintV, faintU]))
      = [(faintX, faintV, faintU)] := by
  norm_num [planeHits, sortByTime, search, xLoop, vLoop, uLoop, advanceBegin,
    algUnit, create, driftId, faintX, faintV, faintU, scenarioX, scenarioV, scenarioU1, wireAt,
    maxDeltaT, overlapXU, overlapXV, overlapUV, OverlapTime, dist2D, PositionXYD, shift1D, Double.vmag2, Double.vsub, Double.sub, Double.neg,
    Double.add, Double.mul, Double.div, Double.gt, dist2, PositionXY, shift1,
    TVector3.sub, TVector3.Mag2, unit.microsecond, unit.ns, unit.mm, List.filter_cons,
    List.insertionSort, List.orderedInsert]

theorem faint_distinct : faintX ≠ faintV ∧ faintX ≠ faintU ∧ faintV ≠ faintU := by
  refine ⟨?_, ?_, ?_⟩ <;>
    simp [faintX, faintV, faintU, scenarioX, scenarioV, scenarioU1, wireAt]

theorem usedHits_faint (pmtHits : THitSelection ℚ) :
    usedHits (buildResult hitLimit algUnit driftId sortByTime sqrtQ [faintX, faintV, faintU]
      pmtHits) = [faintX, faintV, faintU] := by
  obtain ⟨h1, h2, h3⟩ := faint_distinct
  rw [(buildResult_books algUnit driftId sortByTime sqrtQ [faintX, faintV, faintU] pmtHits
    (by simp [hitLimit])).1, search_faint]
  simp [tripletHits, AddHit, h1, h2, h3, h1.symm, h2.symm, h3.symm]

theorem clustered_faint (pmtHits : THitSelection ℚ) :
    (buildResult hitLimit algUnit driftId sortByTime sqrtQ [faintX, faintV, faintU]
      pmtHits).clustered = [] := by
  obtain ⟨h1, h2, h3⟩ := faint_distinct
  have hs : writableHits algUnit driftId sortByTime sqrtQ [faintX, faintV, faintU]
      (TimeZero pmtHits [faintX, faintV, faintU])
        = [makeHit driftId sqrtQ (TimeZero pmtHits [faintX, faintV, faintU])
            faintX faintV faintU] := by
    simp only [writableHits]
    rw [search_faint]
    rfl
  rw [buildResult_clustered]
  unfold candidates
  rw [hs]
  have hunc : (makeHit driftId sqrtQ (TimeZero pmtHits [faintX, faintV, faintU])
      faintX faintV faintU).ChargeUncertainty = 1 := by
    have e : (1 : ℚ) / (1 / (faintX.ChargeUncertainty * faintX.ChargeUncertainty)
        + 1 / (faintV.ChargeUncertainty * faintV.ChargeUncertainty)
        + 1 / (faintU.ChargeUncertainty * faintU.ChargeUncertainty)) = 1 / 3 := by
      norm_num [faintX, faintV, faintU, scenarioX, scenarioV, scenarioU1, wireAt]
    show sqrtQ (1 / (1 / (faintX.ChargeUncertainty * faintX.ChargeUncertainty)
        + 1 / (faintV.ChargeUncertainty * faintV.ChargeUncertainty)
        + 1 / (faintU.ChargeUncertainty * faintU.ChargeUncertainty))) = 1
    rw [e]
    exact sqrtQ_one_third
  simp only [clusteredHits, sharedHits, Solve, List.map_cons, List.map_nil, updateCharge,
    constituents, List.foldl_cons, List.foldl_nil, share, totalWeight, groupWeight, hunc,
    List.sum_cons, List.sum_nil]
  have e1 : (makeHit driftId sqrtQ (TimeZero pmtHits [faintX, faintV, faintU])
      faintX faintV faintU).xh = faintX := rfl
  have e2 : (makeHit driftId sqrtQ (TimeZero pmtHits [faintX, faintV, faintU])
      faintX faintV faintU).vh = faintV := rfl
  have e3 : (makeHit driftId sqrtQ (TimeZero pmtHits [faintX, faintV, faintU])
      faintX faintV faintU).uh = faintU := rfl
  rw [e1, e2, e3]
  simp [h1, h2, h3, h1.symm, h2.symm, h3.symm, List.count_cons]
  norm_num [faintX, faintV, faintU, scenarioX, scenarioV, scenarioU1, wireAt]

/-- Counterexample to C17 as stated: with bookkeeping active, the three hits of a triplet of
charge 1 each are in `used`, while the one 3D hit made of them has charge 1 after the
sharing and is not retained in the clustered output. -/
theorem used_hits_of_dropped_candidate :
    ∃ r, Process algUnit driftId sortByTime sqrtQ (some [faintX, faintV, faintU])
        (some triggerScenario) = some r ∧
      usedHits r = [faintX, faintV, faintU] ∧ r.clustered = [] :=
  ⟨_, Process_some algUnit driftId sortByTime sqrtQ [faintX, faintV, faintU] triggerScenario
      (by simp [triggerScenario]),
    usedHits_faint triggerScenario, clustered_faint triggerScenario⟩

/-- C17 (amended): when bookkeeping is active (fewer than 3000 wire hits), a wire hit is in
`used` if and only if it is a constituent of at least one 3D hit created by the loops of
`Process`, whether or not that 3D hit survives the charge threshold; a wire hit of the
input that is a constituent of no 3D hit is in `unused`. -/
theorem used_iff_constituent (alg : TCluster3D K) (drift : TDriftPosition K) (S : StdSort K)
    (sqrt : K → K) (wireHits pmtHits : THitSelection K) (hne : pmtHits ≠ [])
    (hlen : wireHits.length < 3000) :
    ∃ r, Process alg drift S sqrt (some wireHits) (some pmtHits) = some r ∧
      (∀ h, h ∈ usedHits r ↔
        ∃ c ∈ writableHits alg drift S sqrt wireHits (TimeZero pmtHits wireHits),
          h ∈ constituents c) ∧
      (∀ h ∈ wireHits,
        (¬ ∃ c ∈ writableHits alg drift S sqrt wireHits (TimeZero pmtHits wireHits),
          h ∈ constituents c) → h ∈ unusedHits r) := by
  refine ⟨_, Process_some alg drift S sqrt wireHits pmtHits hne, ?_, ?_⟩
  · intro h
    rw [(buildResult_books alg drift S sqrt wireHits pmtHits hlen).1, mem_foldl_AddHit,
      mem_tripletHits_search alg drift S sqrt wireHits (TimeZero pmtHits wireHits)]
    simp
  · intro h hh hnot
    rw [(buildResult_books alg drift S sqrt wireHits pmtHits hlen).2]
    apply mem_foldl_RemoveHit_of h _ _ hh
    rw [mem_tripletHits_search alg drift S sqrt wireHits (TimeZero pmtHits wireHits)]
    exact hnot

/-- Witness for C17 (amended): the event of the three faint hits. -/
theorem used_iff_constituent_witness :
    ∃ r, Process algUnit driftId sortByTime sqrtQ (some [faintX, faintV, faintU])
        (some triggerScenario) = some r ∧
      (∀ h, h ∈ usedHits r ↔
        ∃ c ∈ writableHits algUnit driftId sortByTime sqrtQ [faintX, faintV, faintU]
          (TimeZero triggerScenario [faintX, faintV, faintU]), h ∈ constituents c) :=
  let ⟨r, h1, h2, _⟩ := used_iff_constituent algUnit driftId sortByTime sqrtQ
    [faintX, faintV, faintU] triggerScenario (by simp [triggerScenario]) (by simp)
  ⟨r, h1, h2⟩

/-- C18: when the input has fewer than 3000 wire hits, all distinct, at the end of
`Process` every input wire hit, whatever its plane, is in exactly one of `used` and
`unused`, the two selections hold no hit that is not in the input, and neither holds a hit
twice. -/
theorem used_unused_partition (alg : TCluster3D K) (drift : TDriftPosition K) (S : StdSort K)
    (sqrt : K → K) (wireHits pmtHits : THitSelection K) (hne : pmtHits ≠ [])
    (hnodup : wireHits.Nodup) (hlen : wireHits.length < 3000) :
    ∃ r, Process alg drift S sqrt (some wireHits) (some pmtHits) = some r ∧
      (∀ h, h ∈ wireHits ↔ (h ∈ usedHits r ∨ h ∈ unusedHits r)) ∧
      (∀ h, ¬ (h ∈ usedHits r ∧ h ∈ unusedHits r)) ∧
      (usedHits r).Nodup ∧ (unusedHits r).Nodup := by
  refine ⟨_, Process_some alg drift S sqrt wireHits pmtHits hne, ?_, ?_, ?_, ?_⟩
  · intro h
    rw [(buildResult_books alg drift S sqrt wireHits pmtHits hlen).1,
      (buildResult_books alg drift S sqrt wireHits pmtHits hlen).2, mem_foldl_AddHit]
    constructor
    · intro hh
      by_cases hmem : h ∈ tripletHits (search alg drift
          (S.sort (planeHits WirePlane.kXPlane wireHits))
          (S.sort (planeHits WirePlane.kVPlane wireHits))
          (S.sort (planeHits WirePlane.kUPlane wireHits)))
      · exact Or.inl (Or.inr hmem)
      · exact Or.inr (mem_foldl_RemoveHit_of h _ _ hh hmem)
    · rintro ((h1 | h1) | h1)
      · exact absurd h1 (List.not_mem_nil h)
      · exact tripletHits_search_subset alg drift S wireHits h h1
      · exact mem_of_mem_foldl_RemoveHit h _ _ h1
  · intro h
    rw [(buildResult_books alg drift S sqrt wireHits pmtHits hlen).1,
      (buildResult_books alg drift S sqrt wireHits pmtHits hlen).2, mem_foldl_AddHit]
    rintro ⟨h1 | h1, h2⟩
    · exact absurd h1 (List.not_mem_nil h)
    · exact not_mem_foldl_RemoveHit h _ _ hnodup h1 h2
  · rw [(buildResult_books alg drift S sqrt wireHits pmtHits hlen).1]
    exact nodup_foldl_AddHit _ _ List.nodup_nil
  · rw [(buildResult_books alg drift S sqrt wireHits pmtHits hlen).2]
    exact nodup_foldl_RemoveHit _ _ hnodup

/-- Witness for C18: the three faint hits; none of them is in both selections. -/
theorem used_unused_partition_witness :
    ∃ r, Process algUnit driftId sortByTime sqrtQ (some [faintX, faintV, faintU])
        (some triggerScenario) = some r ∧
      (∀ h, h ∈ [faintX, faintV, faintU] ↔ (h ∈ usedHits r ∨ h ∈ unusedHits r)) ∧
      (∀ h, ¬ (h ∈ usedHits r ∧ h ∈ unusedHits r)) :=
  let ⟨r, h1, h2, h3, _⟩ := used_unused_partition algUnit driftId sortByTime sqrtQ
    [faintX, faintV, faintU] triggerScenario (by simp [triggerScenario])
    (by
      obtain ⟨d1, d2, d3⟩ := faint_distinct
      simp [d1, d2, d3])
    (by simp)
  ⟨r, h1, h2, h3⟩

/-! ## The limit of the bookkeeping -/

theorem limitHits_length : limitHits.length = 3000 := by
  simp [limitHits]

/-- The two selections of the result when the bookkeeping is skipped. -/
theorem buildResult_skipped (alg : TCluster3D K) (drift : TDriftPosition K) (S : StdSort K)
    (sqrt : K → K) (wireHits pmtHits : THitSelection K) (hlen : 3000 ≤ wireHits.length) :
    (buildResult hitLimit alg drift S sqrt wireHits pmtHits).used = none ∧
      (buildResult hitLimit alg drift S sqrt wireHits pmtHits).unused = none := by
  have hnot : ¬ wireHits.length < hitLimit := by
    unfold hitLimit
    omega
  simp only [buildResult, bookkeepingWithLimit, if_neg hnot]
  exact ⟨rfl, rfl⟩

/-- Counterexample to C19 as stated: for an input of exactly 3000 hits, which does not
exceed the ceiling, `Process` adds neither `used` nor `unused` to its result. -/
theorem bookkeeping_skipped_at_limit :
    limitHits.length = 3000 ∧ ¬ limitHits.length > 3000 ∧
      ∃ r, Process algUnit driftId sortByTime sqrtQ (some limitHits) (some triggerScenario)
          = some r ∧
        r.used = none ∧ r.unused = none ∧ usedHits r = [] ∧ unusedHits r = [] := by
  refine ⟨limitHits_length, by rw [limitHits_length]; omega, _,
    Process_some algUnit driftId sortByTime sqrtQ limitHits triggerScenario
      (by simp [triggerScenario]), ?_⟩
  obtain ⟨h1, h2⟩ := buildResult_skipped algUnit driftId sortByTime sqrtQ limitHits
    triggerScenario (by rw [limitHits_length])
  refine ⟨h1, h2, ?_, ?_⟩
  · unfold usedHits
    rw [h1]
    rfl
  · unfold unusedHits
    rw [h2]
    rfl

/-- C19 (amended): the bookkeeping is skipped, with both selections left empty, for every
input of 3000 wire hits or more, the input of exactly 3000 hits included; for every input
of fewer than 3000 hits the selections are populated, every input hit being in `used` or in
`unused`. -/
theorem bookkeeping_limit (alg : TCluster3D K) (drift : TDriftPosition K) (S : StdSort K)
    (sqrt : K → K) (wireHits pmtHits : THitSelection K) (hne : pmtHits ≠ []) :
    ∃ r, Process alg drift S sqrt (some wireHits) (some pmtHits) = some r ∧
      (3000 ≤ wireHits.length → r.used = none ∧ r.unused = none) ∧
      (wireHits.length < 3000 → ∀ h ∈ wireHits, h ∈ usedHits r ∨ h ∈ unusedHits r) := by
  refine ⟨_, Process_some alg drift S sqrt wireHits pmtHits hne, ?_, ?_⟩
  · exact buildResult_skipped alg drift S sqrt wireHits pmtHits
  · intro hlen h hh
    rw [(buildResult_books alg drift S sqrt wireHits pmtHits hlen).1,
      (buildResult_books alg drift S sqrt wireHits pmtHits hlen).2, mem_foldl_AddHit]
    by_cases hmem : h ∈ tripletHits (search alg drift
        (S.sort (planeHits WirePlane.kXPlane wireHits))
        (S.sort (planeHits WirePlane.kVPlane wireHits))
        (S.sort (planeHits WirePlane.kUPlane wireHits)))
    · exact Or.inl (Or.inr hmem)
    · exact Or.inr (mem_foldl_RemoveHit_of h _ _ hh hmem)

/-- Witness for C19 (amended): the input of exactly 3000 hits has neither selection. -/
theorem bookkeeping_limit_witness :
    ∃ r, Process algUnit driftId sortByTime sqrtQ (some limitHits) (some triggerScenario)
        = some r ∧ r.used = none ∧ r.unused = none :=
  let ⟨r, h1, h2, _⟩ := bookkeeping_limit algUnit driftId sortByTime sqrtQ limitHits
    triggerScenario (by simp [triggerScenario])
  ⟨r, h1, (h2 (by rw [limitHits_length])).1, (h2 (by rw [limitHits_length])).2⟩

/-! ## The plane sequences -/

omit [LinearOrderedField K] in
theorem planeHits_plane (plane : WirePlane) (wireHits : THitSelection K) (h : THit K)
    (hh : h ∈ planeHits plane wireHits) : h ∈ wireHits ∧ h.Plane = plane := by
  unfold planeHits at hh
  obtain ⟨h1, h2⟩ := List.mem_filter.1 hh
  exact ⟨h1, by simpa using h2⟩

/-- C21: for every input collection of wire hits, each plane sequence built by `Process`
is sorted in non-decreasing hit time and is a permutation of the input hits classified to
its plane, and no hit is in the sequences of two planes. -/
theorem plane_sequences_sorted_perm (S : StdSort K) (wireHits : THitSelection K) :
    (∀ plane, (S.sort (planeHits plane wireHits)).Sorted (fun a b => a.Time ≤ b.Time) ∧
      (S.sort (planeHits plane wireHits)).Perm
        (wireHits.filter fun h => decide (h.Plane = plane))) ∧
    (∀ h p q, h ∈ S.sort (planeHits p wireHits) → h ∈ S.sort (planeHits q wireHits) →
      p = q) := by
  constructor
  · intro plane
    exact ⟨(S.sorted _).imp (fun h => not_lt.mp h), S.perm _⟩
  · intro h p q hp hq
    have h1 := (planeHits_plane p wireHits h ((S.perm _).mem_iff.1 hp)).2
    have h2 := (planeHits_plane q wireHits h ((S.perm _).mem_iff.1 hq)).2
    rw [← h1, ← h2]

/-- Witness for C21: in the scenario the U sequence holds the two U hits in order of
time, and the X hit is in no other sequence than the X sequence. -/
theorem plane_sequences_sorted_perm_witness :
    (sortByTime.sort (planeHits WirePlane.kUPlane
        [scenarioX, scenarioV, scenarioU1, scenarioU2])).Sorted (fun a b => a.Time ≤ b.Time) ∧
      (scenarioX ∈ sortByTime.sort (planeHits WirePlane.kXPlane
          [scenarioX, scenarioV, scenarioU1, scenarioU2]) →
        scenarioX ∈ sortByTime.sort (planeHits WirePlane.kXPlane
          [scenarioX, scenarioV, scenarioU1, scenarioU2]) →
        WirePlane.kXPlane = WirePlane.kXPlane) :=
  ⟨((plane_sequences_sorted_perm sortByTime
      [scenarioX, scenarioV, scenarioU1, scenarioU2]).1 WirePlane.kUPlane).1,
    (plane_sequences_sorted_perm sortByTime
      [scenarioX, scenarioV, scenarioU1, scenarioU2]).2 scenarioX WirePlane.kXPlane
      WirePlane.kXPlane⟩

omit [LinearOrderedField K] in
/-- Two members of a list ordered by a relation stand in the order of the relation when
the converse relation fails. -/
theorem sublist_pair_of_sorted (r : THit K → THit K → Prop) :
    ∀ (l : List (THit K)) (a b : THit K), l.Pairwise r → a ∈ l → b ∈ l → ¬ r b a →
      a ≠ b → [a, b].Sublist l := by
  intro l
  induction l with
  | nil =>
    intro a b _ ha
    exact absurd ha (List.not_mem_nil a)
  | cons c rest ih =>
    intro a b hl ha hb hnot hab
    rw [List.pairwise_cons] at hl
    rcases List.mem_cons.1 ha with ha | ha
    · rcases List.mem_cons.1 hb with hb | hb
      · exact absurd (ha.trans hb.symm) hab
      · rw [ha]
        exact List.Sublist.cons₂ c (List.singleton_sublist.2 hb)
    · rcases List.mem_cons.1 hb with hb | hb
      · rw [hb] at hnot
        exact absurd (hl.1 a ha) hnot
      · exact List.Sublist.cons c (ih a b hl.2 ha hb hnot hab)

theorem sortReversed_ties :
    sortReversed.sort (planeHits WirePlane.kXPlane [tieA, tieB]) = [tieB, tieA] := by
  norm_num [sortReversed, planeHits, tieA, tieB, wireAt, List.filter_cons, List.insertionSort,
    List.orderedInsert]

/-- Counterexample to C22 as stated: two X hits `tieA`, `tieB` of equal time, given in
this order, come out as `tieB`, `tieA` of a sort that meets the contract of `std::sort`. -/
theorem equal_times_order_not_kept :
    tieA.Plane = tieB.Plane ∧ tieA.Time = tieB.Time ∧
      [tieA, tieB].Sublist [tieA, tieB] ∧
      sortReversed.sort (planeHits WirePlane.kXPlane [tieA, tieB]) = [tieB, tieA] ∧
      ¬ [tieA, tieB].Sublist (sortReversed.sort (planeHits WirePlane.kXPlane [tieA, tieB])) := by
  refine ⟨rfl, rfl, List.Sublist.refl _, sortReversed_ties, ?_⟩
  rw [sortReversed_ties]
  intro h
  have hne : tieA ≠ tieB := by simp [tieA, tieB, wireAt]
  have hlen := h.length_le
  have := List.Sublist.eq_of_length h rfl
  simp [hne] at this

/-- C22 (amended): `Process` sorts each plane with `std::sort`, which fixes the order of
two hits of the same plane only when their times differ: the hit of the smaller time
comes first in the sequence of the plane, whatever sort meets the contract. -/
theorem different_times_order (S : StdSort K) (wireHits : THitSelection K) (a b : THit K)
    (ha : a ∈ wireHits) (hb : b ∈ wireHits) (hplane : a.Plane = b.Plane)
    (htime : a.Time < b.Time) :
    [a, b].Sublist (S.sort (planeHits a.Plane wireHits)) := by
  have hmem : ∀ c : THit K, c ∈ wireHits → c.Plane = a.Plane →
      c ∈ S.sort (planeHits a.Plane wireHits) := by
    intro c hc hp
    apply (S.perm _).mem_iff.2
    unfold planeHits
    exact List.mem_filter.2 ⟨hc, by simpa using hp⟩
  apply sublist_pair_of_sorted _ _ a b (S.sorted _) (hmem a ha rfl) (hmem b hb hplane.symm)
  · exact fun h => h htime
  · intro hab
    rw [hab] at htime
    exact lt_irrefl _ htime

/-- Witness for C22 (amended): the V hit at -16 us comes before a V hit at time 0. -/
theorem different_times_order_witness :
    [wideV, scenarioV].Sublist
      (sortReversed.sort (planeHits wideV.Plane [scenarioV, wideV])) :=
  different_times_order sortReversed [scenarioV, wideV] wideV scenarioV (by simp) (by simp)
    rfl (by norm_num [wideV, scenarioV, wireAt])

/-! ## Hits of no wire plane -/

omit [LinearOrderedField K] in
theorem planeHits_recognised (plane : WirePlane) (hplane : plane ≠ WirePlane.kOther)
    (wireHits : THitSelection K) :
    planeHits plane (wireHits.filter recognised) = planeHits plane wireHits := by
  unfold planeHits
  rw [List.filter_filter]
  apply List.filter_congr
  intro h _
  cases hp : h.Plane <;> cases plane <;> simp_all [recognised]

theorem writableHits_recognised (alg : TCluster3D K) (drift : TDriftPosition K)
    (S : StdSort K) (sqrt : K → K) (wireHits : THitSelection K) (t0 : K) :
    writableHits alg drift S sqrt (wireHits.filter recognised) t0
      = writableHits alg drift S sqrt wireHits t0 := by
  unfold writableHits
  rw [planeHits_recognised WirePlane.kXPlane (by decide),
    planeHits_recognised WirePlane.kVPlane (by decide),
    planeHits_recognised WirePlane.kUPlane (by decide)]

theorem candidates_recognised (alg : TCluster3D K) (drift : TDriftPosition K)
    (S : StdSort K) (sqrt : K → K) (wireHits pmtHits : THitSelection K) :
    candidates alg drift S sqrt (wireHits.filter recognised) pmtHits
      = candidates alg drift S sqrt wireHits pmtHits := by
  unfold candidates
  have e : TimeZero pmtHits (wireHits.filter recognised) = TimeZero pmtHits wireHits := rfl
  rw [e, writableHits_recognised]

/-- The constituents of a 3D hit of `Process` are an X, a V and a U hit. -/
theorem candidates_planes (alg : TCluster3D K) (drift : TDriftPosition K)
    (S : StdSort K) (sqrt : K → K) (wireHits pmtHits : THitSelection K)
    (c : TWritableReconHit K) (hc : c ∈ candidates alg drift S sqrt wireHits pmtHits) :
    c.xh.Plane = WirePlane.kXPlane ∧ c.vh.Plane = WirePlane.kVPlane ∧
      c.uh.Plane = WirePlane.kUPlane := by
  obtain ⟨g, hg, rfl⟩ := sharedHits_mem sqrt _ c hc
  obtain ⟨e1, e2, e3, _⟩ := updateCharge_frame sqrt g
  rw [e1, e2, e3]
  have hmem : (g.object.xh, g.object.vh, g.object.uh) ∈
      (writableHits alg drift S sqrt wireHits (TimeZero pmtHits wireHits)).map
        (fun h => (h.xh, h.vh, h.uh)) := List.mem_map.2 ⟨g.object, hg, rfl⟩
  rw [writableHits_triplets] at hmem
  obtain ⟨h1, h2, h3, _⟩ := xLoop_mem alg drift _ _ _ _ hmem
  exact ⟨(planeHits_plane _ wireHits _ ((S.perm _).mem_iff.1 h1)).2,
    (planeHits_plane _ wireHits _ ((S.perm _).mem_iff.1 h2)).2,
    (planeHits_plane _ wireHits _ ((S.perm _).mem_iff.1 h3)).2⟩

/-- C23: for an input with hits whose plane is not X, V or U, `Process` still returns a
result, no such hit is a constituent of a 3D hit, and the 3D hits and the clustered output
are those of the input without these hits. -/
theorem unrecognised_plane_skipped (alg : TCluster3D K) (drift : TDriftPosition K)
    (S : StdSort K) (sqrt : K → K) (wireHits pmtHits : THitSelection K) (hne : pmtHits ≠ []) :
    ∃ r r1, Process alg drift S sqrt (some wireHits) (some pmtHits) = some r ∧
      Process alg drift S sqrt (some (wireHits.filter recognised)) (some pmtHits) = some r1 ∧
      r.clustered = r1.clustered ∧
      candidates alg drift S sqrt wireHits pmtHits
        = candidates alg drift S sqrt (wireHits.filter recognised) pmtHits ∧
      (∀ c ∈ candidates alg drift S sqrt wireHits pmtHits, ∀ h ∈ constituents c,
        recognised h = true) := by
  refine ⟨_, _, Process_some alg drift S sqrt wireHits pmtHits hne,
    Process_some alg drift S sqrt _ pmtHits hne, ?_, ?_, ?_⟩
  · rw [buildResult_clustered, buildResult_clustered, candidates_recognised]
  · rw [candidates_recognised]
  · intro c hc h hh
    obtain ⟨p1, p2, p3⟩ := candidates_planes alg drift S sqrt wireHits pmtHits c hc
    simp only [constituents, List.mem_cons, List.mem_singleton, List.not_mem_nil,
      or_false] at hh
    rcases hh with rfl | rfl | rfl
    · simp [recognised, p1]
    · simp [recognised, p2]
    · simp [recognised, p3]

/-- Witness for C23: the scenario with a hit of no wire plane added. -/
theorem unrecognised_plane_skipped_witness :
    ∃ r r1, Process algUnit driftId sortByTime sqrtQ
        (some [strayHit, scenarioX, scenarioV, scenarioU1]) (some triggerScenario) = some r ∧
      Process algUnit driftId sortByTime sqrtQ
        (some ([strayHit, scenarioX, scenarioV, scenarioU1].filter recognised))
        (some triggerScenario) = some r1 ∧
      r.clustered = r1.clustered :=
  let ⟨r, r1, h1, h2, h3, _⟩ := unrecognised_plane_skipped algUnit driftId sortByTime sqrtQ
    [strayHit, scenarioX, scenarioV, scenarioU1] triggerScenario (by simp [triggerScenario])
  ⟨r, r1, h1, h2, h3⟩

/-! ## The transverse RMS -/

theorem sqrtQ_sixteen : sqrtQ 16 = 4 := by
  have hn : (16 : ℚ).num.toNat = 16 := rfl
  have hd : (16 : ℚ).den = 1 := rfl
  have h16 : Nat.sqrt 16 = 4 := by
    symm
    rw [Nat.eq_sqrt]
    constructor <;> norm_num
  unfold sqrtQ
  rw [hn, hd, h16, Nat.sqrt_one]
  norm_num

theorem search_spread :
    search algUnit driftId [spreadX] [fanV] [fanU] = [(spreadX, fanV, fanU)] := by
  norm_num [search, xLoop, vLoop, uLoop, advanceBegin,
    algUnit, create, driftId, spreadX, fanX, fanV, fanU, wireAt, maxDeltaT,
    overlapXU, overlapXV, overlapUV, OverlapTime, dist2D, PositionXYD, shift1D, Double.vmag2, Double.vsub, Double.sub, Double.neg,
    Double.add, Double.mul, Double.div, Double.gt, dist2, PositionXY, shift1, TVector3.sub,
    TVector3.Mag2, unit.microsecond, unit.ns, unit.mm]

theorem fuse_spread_RMS : (fuse driftId sqrtQ spreadX fanV fanU).RMS.X = 4 := by
  have e : (spreadX.RMS.X * spreadX.RMS.X + fanV.RMS.X * fanV.RMS.X
      + fanU.RMS.X * fanU.RMS.X) / 3
      + ((spreadX.RMS.X * spreadX.RMS.X + fanV.RMS.X * fanV.RMS.X
        + fanU.RMS.X * fanU.RMS.X) / 3 + dist2 spreadX fanV fanU) = 16 := by
    norm_num [spreadX, fanX, fanV, fanU, wireAt, dist2, PositionXY, shift1, TVector3.sub,
      TVector3.Mag2]
  show sqrtQ ((spreadX.RMS.X * spreadX.RMS.X + fanV.RMS.X * fanV.RMS.X
      + fanU.RMS.X * fanU.RMS.X) / 3
      + ((spreadX.RMS.X * spreadX.RMS.X + fanV.RMS.X * fanV.RMS.X
        + fanU.RMS.X * fanU.RMS.X) / 3 + dist2 spreadX fanV fanU)) = 4
  rw [e]
  exact sqrtQ_sixteen

/-- Counterexample to C24 as stated: for the accepted triplet of the fan of wires, with
position RMS 4, 1 and 1, the fused transverse RMS is 4 and its square 16 is twice the mean
square RMS plus the square of the distance of the two crossing points on the X wire
(2 mm), while the largest distance between crossing points is 2.6 mm. -/
theorem transverse_RMS_not_max_spread :
    search algUnit driftId [spreadX] [fanV] [fanU] = [(spreadX, fanV, fanU)] ∧
      (fuse driftId sqrtQ spreadX fanV fanU).RMS.X = 4 ∧
      crossingSpread2 spreadX fanV fanU = 169 / 25 ∧
      (fuse driftId sqrtQ spreadX fanV fanU).RMS.X ^ 2
        ≠ 2 * ((spreadX.RMS.X ^ 2 + fanV.RMS.X ^ 2 + fanU.RMS.X ^ 2) / 3)
          + crossingSpread2 spreadX fanV fanU := by
  have hs : crossingSpread2 spreadX fanV fanU = 169 / 25 := by
    norm_num [crossingSpread2, spreadX, fanX, fanV, fanU, wireAt, PositionXY, shift1,
      TVector3.sub, TVector3.Mag2]
  refine ⟨search_spread, fuse_spread_RMS, hs, ?_⟩
  rw [fuse_spread_RMS, hs]
  norm_num [spreadX, fanX, fanV, fanU, wireAt]

/-- C24 (amended): for every accepted triplet whose V wire and U wire are not parallel to
its X wire, the distance `s` between the crossing points `PositionXY(x, v)` and
`PositionXY(x, u)` is a number, and the fused transverse RMS `r`, the X and the Y component
of the RMS of the 3D hit, satisfies `r ≥ 0` and `r^2 = 2 * mean(rmsX_i^2) + s^2`; for
`sqrt` the non-negative square root. -/
theorem transverse_RMS_spec (drift : TDriftPosition K) (sqrt : K → K) (x v u : THit K)
    (hsqrt : ∀ a : K, 0 ≤ a → 0 ≤ sqrt a ∧ sqrt a * sqrt a = a)
    (hxv : crossDet x v ≠ 0) (hxu : crossDet x u ≠ 0) :
    dist2D x v u = Double.num (TVector3.sub (PositionXY x u) (PositionXY x v)).Mag2 ∧
      0 ≤ (fuse drift sqrt x v u).RMS.X ∧
      (fuse drift sqrt x v u).RMS.X ^ 2
        = 2 * ((x.RMS.X ^ 2 + v.RMS.X ^ 2 + u.RMS.X ^ 2) / 3)
          + (TVector3.sub (PositionXY x u) (PositionXY x v)).Mag2 ∧
      (fuse drift sqrt x v u).RMS.Y = (fuse drift sqrt x v u).RMS.X := by
  have hmag : 0 ≤ (TVector3.sub (PositionXY x u) (PositionXY x v)).Mag2 := by
    unfold TVector3.Mag2
    nlinarith [mul_self_nonneg (TVector3.sub (PositionXY x u) (PositionXY x v)).X,
      mul_self_nonneg (TVector3.sub (PositionXY x u) (PositionXY x v)).Y,
      mul_self_nonneg (TVector3.sub (PositionXY x u) (PositionXY x v)).Z]
  have hmean : 0 ≤ (x.RMS.X * x.RMS.X + v.RMS.X * v.RMS.X + u.RMS.X * u.RMS.X) / 3 := by
    apply div_nonneg _ (by norm_num)
    nlinarith [mul_self_nonneg x.RMS.X, mul_self_nonneg v.RMS.X, mul_self_nonneg u.RMS.X]
  have hroot := hsqrt ((x.RMS.X * x.RMS.X + v.RMS.X * v.RMS.X + u.RMS.X * u.RMS.X) / 3
      + ((x.RMS.X * x.RMS.X + v.RMS.X * v.RMS.X + u.RMS.X * u.RMS.X) / 3 + dist2 x v u))
    (by unfold dist2; linarith)
  refine ⟨dist2D_eq x v u hxv hxu, hroot.1, ?_, rfl⟩
  have e : (fuse drift sqrt x v u).RMS.X ^ 2
      = (x.RMS.X * x.RMS.X + v.RMS.X * v.RMS.X + u.RMS.X * u.RMS.X) / 3
        + ((x.RMS.X * x.RMS.X + v.RMS.X * v.RMS.X + u.RMS.X * u.RMS.X) / 3
          + dist2 x v u) := by
    rw [pow_two]
    exact hroot.2
  rw [e]
  unfold dist2
  ring

/-- Witness for C24 (amended): over the reals with the real square root. -/
theorem transverse_RMS_spec_witness :
    0 ≤ (fuse driftRaw Real.sqrt (wireAt 0 WirePlane.kXPlane (0 : ℝ) 0 0 1 0 0)
      (wireAt 1 WirePlane.kVPlane (0 : ℝ) 0 1 0 0 0)
      (wireAt 2 WirePlane.kUPlane (0 : ℝ) 1 1 1 0 0)).RMS.X :=
  (transverse_RMS_spec driftRaw Real.sqrt (wireAt 0 WirePlane.kXPlane (0 : ℝ) 0 0 1 0 0)
    (wireAt 1 WirePlane.kVPlane (0 : ℝ) 0 1 0 0 0)
    (wireAt 2 WirePlane.kUPlane (0 : ℝ) 1 1 1 0 0)
    (fun a ha => ⟨Real.sqrt_nonneg a, Real.mul_self_sqrt ha⟩)
    (by norm_num [crossDet, wireAt]) (by norm_num [crossDet, wireAt])).2.1

/-! ## The overlap tolerance -/

/-- C25: in the default mode `OverlapTime(r1, r2, step)` is the largest of its three
arguments, it is symmetric in `r1` and `r2` and not below `step`; two hits whose
drift-corrected times differ by at most the minimum separation, which the constructor
sets to 500 ns, pass the overlap check whatever their RMS. -/
theorem OverlapTime_spec (alg : TCluster3D K) (r1 r2 step : K) :
    OverlapTime alg r1 r2 step = max r1 (max r2 step) ∧
      r1 ≤ OverlapTime alg r1 r2 step ∧ r2 ≤ OverlapTime alg r1 r2 step ∧
      step ≤ OverlapTime alg r1 r2 step ∧
      (OverlapTime alg r1 r2 step = r1 ∨ OverlapTime alg r1 r2 step = r2 ∨
        OverlapTime alg r1 r2 step = step) ∧
      OverlapTime alg r1 r2 step = OverlapTime alg r2 r1 step ∧
      (∀ (drift : TDriftPosition K) (a b : THit K) (sepA sepB : K),
        |drift.GetTime a - drift.GetTime b| ≤ alg.fMinSeparation →
        ¬ |drift.GetTime a - drift.GetTime b|
            > OverlapTime alg (sepA * a.TimeRMS) (sepB * b.TimeRMS) alg.fMinSeparation) ∧
      (∀ maxDrift xSep vSep uSep energy : K,
        (create maxDrift xSep vSep uSep energy).fMinSeparation = 500 * unit.ns) := by
  refine ⟨rfl, le_max_left _ _, le_trans (le_max_left _ _) (le_max_right _ _),
    le_trans (le_max_right _ _) (le_max_right _ _), ?_, ?_, ?_, fun _ _ _ _ _ => rfl⟩
  · unfold OverlapTime
    rcases max_choice r1 (max r2 step) with h | h
    · exact Or.inl h
    · rw [h]
      rcases max_choice r2 step with h2 | h2
      · exact Or.inr (Or.inl h2)
      · exact Or.inr (Or.inr h2)
  · unfold OverlapTime
    rw [max_left_comm]
  · intro drift a b sepA sepB hle
    apply not_lt.mpr
    exact le_trans hle (le_trans (le_max_right _ _) (le_max_right _ _))

/-- Witness for C25: the X and the V hit of the scenario, both at time 0, pass the check
with the 500 ns floor. -/
theorem OverlapTime_spec_witness :
    ¬ |driftId.GetTime scenarioX - driftId.GetTime scenarioV|
        > OverlapTime algUnit (1 * scenarioX.TimeRMS) (1 * scenarioV.TimeRMS)
            algUnit.fMinSeparation :=
  (OverlapTime_spec algUnit 0 0 0).2.2.2.2.2.2.1 driftId scenarioX scenarioV 1 1
    (by norm_num [driftId, scenarioX, scenarioV, wireAt, algUnit, create, unit.ns])

/-! ## The fused time RMS -/

/-- C26: the fused time RMS of a triplet is the minimum of the time RMS of its three hits,
not greater than any of them and equal to one of them; the time-zero correction leaves
it. -/
theorem fused_time_RMS (drift : TDriftPosition K) (sqrt : K → K) (t0 : K) (x v u : THit K) :
    (fuse drift sqrt x v u).TimeRMS = min x.TimeRMS (min v.TimeRMS u.TimeRMS) ∧
      (fuse drift sqrt x v u).TimeRMS ≤ x.TimeRMS ∧
      (fuse drift sqrt x v u).TimeRMS ≤ v.TimeRMS ∧
      (fuse drift sqrt x v u).TimeRMS ≤ u.TimeRMS ∧
      ((fuse drift sqrt x v u).TimeRMS = x.TimeRMS ∨
        (fuse drift sqrt x v u).TimeRMS = v.TimeRMS ∨
        (fuse drift sqrt x v u).TimeRMS = u.TimeRMS) ∧
      (makeHit drift sqrt t0 x v u).TimeRMS = (fuse drift sqrt x v u).TimeRMS := by
  refine ⟨rfl, min_le_left _ _, le_trans (min_le_right _ _) (min_le_left _ _),
    le_trans (min_le_right _ _) (min_le_right _ _), ?_, rfl⟩
  show min x.TimeRMS (min v.TimeRMS u.TimeRMS) = x.TimeRMS ∨
    min x.TimeRMS (min v.TimeRMS u.TimeRMS) = v.TimeRMS ∨
    min x.TimeRMS (min v.TimeRMS u.TimeRMS) = u.TimeRMS
  rcases min_choice x.TimeRMS (min v.TimeRMS u.TimeRMS) with h | h
  · exact Or.inl h
  · rw [h]
    rcases min_choice v.TimeRMS u.TimeRMS with h2 | h2
    · exact Or.inr (Or.inl h2)
    · exact Or.inr (Or.inr h2)

/-! ## Sharing and the fused charge -/

/-- C29: for a 3D hit whose constituents have positive charge uncertainties, if the share
on each link is at most the charge of its hit, the charge written by the charge-sharing
update is at most the fused charge from before the sharing; and whatever the shares, it
lies between the smallest and the largest of them. -/
theorem sharing_does_not_increase (drift : TDriftPosition K) (sqrt : K → K) (t0 : K)
    (x v u : THit K) (s1 s2 s3 : K) (hx : 0 < x.ChargeUncertainty)
    (hv : 0 < v.ChargeUncertainty) (hu : 0 < u.ChargeUncertainty) :
    ((s1 ≤ x.Charge ∧ s2 ≤ v.Charge ∧ s3 ≤ u.Charge) →
      (updateCharge sqrt
        { object := makeHit drift sqrt t0 x v u
          links := [{ hit := x, charge := s1 }, { hit := v, charge := s2 },
            { hit := u, charge := s3 }] }).Charge
        ≤ (makeHit drift sqrt t0 x v u).Charge) ∧
      min s1 (min s2 s3)
        ≤ (updateCharge sqrt
          { object := makeHit drift sqrt t0 x v u
            links := [{ hit := x, charge := s1 }, { hit := v, charge := s2 },
              { hit := u, charge := s3 }] }).Charge ∧
      (updateCharge sqrt
          { object := makeHit drift sqrt t0 x v u
            links := [{ hit := x, charge := s1 }, { hit := v, charge := s2 },
              { hit := u, charge := s3 }] }).Charge
        ≤ max s1 (max s2 s3) := by
  have h1 : 0 < 1 / (x.ChargeUncertainty * x.ChargeUncertainty) := one_div_pos.2 (mul_pos hx hx)
  have h2 : 0 < 1 / (v.ChargeUncertainty * v.ChargeUncertainty) := one_div_pos.2 (mul_pos hv hv)
  have h3 : 0 < 1 / (u.ChargeUncertainty * u.ChargeUncertainty) := one_div_pos.2 (mul_pos hu hu)
  have hW := inverse_variance_sum_pos _ _ _ hx hv hu
  have hupd := (updateCharge_three_links sqrt (makeHit drift sqrt t0 x v u) x v u s1 s2 s3).1
  have hmean := weighted_mean_bounds _ _ _ s1 s2 s3 h1 h2 h3
  simp only [mul_one_div] at hmean
  rw [hupd]
  refine ⟨?_, hmean.1, hmean.2⟩
  rintro ⟨c1, c2, c3⟩
  show _ ≤ (x.Charge / (x.ChargeUncertainty * x.ChargeUncertainty)
      + v.Charge / (v.ChargeUncertainty * v.ChargeUncertainty)
      + u.Charge / (u.ChargeUncertainty * u.ChargeUncertainty))
    / (1 / (x.ChargeUncertainty * x.ChargeUncertainty)
      + 1 / (v.ChargeUncertainty * v.ChargeUncertainty)
      + 1 / (u.ChargeUncertainty * u.ChargeUncertainty))
  apply div_le_div_of_nonneg_right _ (le_of_lt hW)
  have i1 := div_le_div_of_nonneg_right c1 (le_of_lt (mul_pos hx hx))
  have i2 := div_le_div_of_nonneg_right c2 (le_of_lt (mul_pos hv hv))
  have i3 := div_le_div_of_nonneg_right c3 (le_of_lt (mul_pos hu hu))
  linarith

/-- Witness for C29: shares 40, 50 and 60 of the three hits of charge 100 of the
scenario. -/
theorem sharing_does_not_increase_witness :
    (updateCharge sqrtQ
        { object := makeHit driftId sqrtQ 0 scenarioX scenarioV scenarioU1
          links := [{ hit := scenarioX, charge := 40 }, { hit := scenarioV, charge := 50 },
            { hit := scenarioU1, charge := 60 }] }).Charge
      ≤ (makeHit driftId sqrtQ 0 scenarioX scenarioV scenarioU1).Charge :=
  (sharing_does_not_increase driftId sqrtQ 0 scenarioX scenarioV scenarioU1 40 50 60
    (by norm_num [scenarioX, wireAt]) (by norm_num [scenarioV, wireAt])
    (by norm_num [scenarioU1, wireAt])).1
    (by norm_num [scenarioX, scenarioV, scenarioU1, wireAt])

/-! ## The order of the two hits in `PositionXY` -/

/-- C30: for two hits with `dx2*dy1 - dx1*dy2 ≠ 0`, `PositionXY(h1, h2)` and
`PositionXY(h2, h1)` are the same point. -/
theorem PositionXY_symmetric (hit1 hit2 : THit K)
    (hdet : hit2.YAxis.X * hit1.YAxis.Y - hit1.YAxis.X * hit2.YAxis.Y ≠ 0) :
    PositionXY hit1 hit2 = PositionXY hit2 hit1 := by
  have hdet2 : hit1.YAxis.X * hit2.YAxis.Y - hit2.YAxis.X * hit1.YAxis.Y ≠ 0 := by
    intro h
    apply hdet
    linarith
  simp only [PositionXY, shift1, TVector3.mk.injEq, and_true]
  constructor
  · field_simp
    ring
  · field_simp
    ring

/-- Witness for C30: the two crossing wires of the witness of C7, in both orders. -/
theorem PositionXY_symmetric_witness :
    PositionXY (wireAt 0 WirePlane.kXPlane (0 : ℚ) 0 0 1 0 0)
        (wireAt 1 WirePlane.kVPlane 3 5 1 0 0 0)
      = PositionXY (wireAt 1 WirePlane.kVPlane 3 5 1 0 0 0)
        (wireAt 0 WirePlane.kXPlane (0 : ℚ) 0 0 1 0 0) :=
  PositionXY_symmetric (wireAt 0 WirePlane.kXPlane (0 : ℚ) 0 0 1 0 0)
    (wireAt 1 WirePlane.kVPlane 3 5 1 0 0 0) (by simp [wireAt])

/-! ## `TimeZero` and the order of the trigger hits -/

/-- C31: `TimeZero` depends on the multiset of the trigger times only: for two collections
of trigger hits whose times are permutations of each other, and any two collections of wire
hits, it returns the same value; for a non-empty collection of trigger hits the value is
one of the trigger times. -/
theorem TimeZero_multiset (pmts1 pmts2 wires1 wires2 : THitSelection K)
    (hperm : (pmts1.map THit.Time).Perm (pmts2.map THit.Time)) :
    TimeZero pmts1 wires1 = TimeZero pmts2 wires2 ∧
      (pmts1 ≠ [] → TimeZero pmts1 wires1 ∈ pmts1.map THit.Time) ∧
      (∀ pmts3 : THitSelection K, pmts1.Perm pmts3 →
        TimeZero pmts1 wires1 = TimeZero pmts3 wires2) := by
  have key : ∀ p1 p2 : THitSelection K, (p1.map THit.Time).Perm (p2.map THit.Time) →
      TimeZero p1 wires1 = TimeZero p2 wires2 := by
    intro p1 p2 hp
    have hsort : (p1.map THit.Time).insertionSort (fun a b => a ≤ b)
        = (p2.map THit.Time).insertionSort (fun a b => a ≤ b) := by
      apply List.eq_of_perm_of_sorted _ (List.sorted_insertionSort _ _)
        (List.sorted_insertionSort _ _)
      exact ((List.perm_insertionSort _ _).trans hp).trans (List.perm_insertionSort _ _).symm
    have hempty : p1.isEmpty = p2.isEmpty := by
      have hlen := hp.length_eq
      rw [List.length_map, List.length_map] at hlen
      cases p1 with
      | nil =>
        cases p2 with
        | nil => rfl
        | cons _ _ => simp at hlen
      | cons _ _ =>
        cases p2 with
        | nil => simp at hlen
        | cons _ _ => rfl
    unfold TimeZero
    rw [hempty, hsort]
  refine ⟨key pmts1 pmts2 hperm, ?_, ?_⟩
  · intro hne
    exact (TimeZero_spec pmts1 wires1 hne).1
  · intro pmts3 h3
    exact key pmts1 pmts3 (h3.map _)

/-- Witness for C31: the trigger hits of the scenario in reverse order, with and without
wire hits. -/
theorem TimeZero_multiset_witness :
    TimeZero triggerScenario [] = TimeZero triggerScenario.reverse [scenarioX] :=
  (TimeZero_multiset triggerScenario triggerScenario.reverse [] [scenarioX]
    ((List.reverse_perm triggerScenario).symm.map _)).1

/-! ## The two modes of the overlap tolerance -/

/-- C34: for non-negative `r1`, `r2` and `step` the tolerance of the quadrature mode,
`sqrt(r1^2 + r2^2 + step^2)`, is not below the tolerance `max(r1, r2, step)` of the max
mode, so a time difference that passes the overlap check in the max mode passes it in the
quadrature mode; for `sqrt` the non-negative square root. -/
theorem quadrature_not_stricter (alg : TCluster3D K) (sqrt : K → K) (r1 r2 step : K)
    (hsqrt : ∀ a : K, 0 ≤ a → 0 ≤ sqrt a ∧ sqrt a * sqrt a = a)
    (h1 : 0 ≤ r1) (h2 : 0 ≤ r2) (h3 : 0 ≤ step) :
    OverlapTime alg r1 r2 step ≤ OverlapTimeQuadrature sqrt r1 r2 step ∧
      (∀ deltaT : K, ¬ deltaT > OverlapTime alg r1 r2 step →
        ¬ deltaT > OverlapTimeQuadrature sqrt r1 r2 step) := by
  have hsum : 0 ≤ r1 * r1 + r2 * r2 + step * step := by
    nlinarith [mul_self_nonneg r1, mul_self_nonneg r2, mul_self_nonneg step]
  obtain ⟨hs0, hs1⟩ := hsqrt _ hsum
  have hle : ∀ r : K, 0 ≤ r → r * r ≤ r1 * r1 + r2 * r2 + step * step →
      r ≤ sqrt (r1 * r1 + r2 * r2 + step * step) := by
    intro r hr hrr
    rw [← hs1] at hrr
    exact (mul_self_le_mul_self_iff hr hs0).2 hrr
  have hmax : OverlapTime alg r1 r2 step ≤ OverlapTimeQuadrature sqrt r1 r2 step := by
    unfold OverlapTime OverlapTimeQuadrature
    refine max_le (hle r1 h1 ?_) (max_le (hle r2 h2 ?_) (hle step h3 ?_))
    · nlinarith [mul_self_nonneg r2, mul_self_nonneg step]
    · nlinarith [mul_self_nonneg r1, mul_self_nonneg step]
    · nlinarith [mul_self_nonneg r1, mul_self_nonneg r2]
  refine ⟨hmax, ?_⟩
  intro deltaT hd
  exact not_lt.2 (le_trans (not_lt.1 hd) hmax)

/-- Witness for C34: over the reals with the real square root, for the tolerances 3, 4 and
the step 0. -/
theorem quadrature_not_stricter_witness :
    OverlapTime (create (0 : ℝ) 1 1 1 1) 3 4 0 ≤ OverlapTimeQuadrature Real.sqrt 3 4 0 :=
  (quadrature_not_stricter (create (0 : ℝ) 1 1 1 1) Real.sqrt 3 4 0
    (fun a ha => ⟨Real.sqrt_nonneg a, Real.mul_self_sqrt ha⟩)
    (by norm_num) (by norm_num) (le_refl 0)).1

/-! ## Equal uncertainties -/

/-- C35: for a triplet whose three hits have the same positive time uncertainty `sigma`,
the fused time is the arithmetic mean of the three drift-corrected times and the fused time
uncertainty is `sigma`, also after the time-zero correction; for equal positive charge
uncertainties `s` the fused charge uncertainty is `s / sqrt 3`; for `sqrt` the
non-negative square root. -/
theorem equal_uncertainties (drift : TDriftPosition K) (sqrt : K → K) (t0 : K)
    (x v u : THit K) (hsqrt : ∀ a : K, 0 ≤ a → 0 ≤ sqrt a ∧ sqrt a * sqrt a = a) :
    (∀ sigma : K, 0 < sigma → x.TimeUncertainty = sigma → v.TimeUncertainty = sigma →
      u.TimeUncertainty = sigma →
      (fuse drift sqrt x v u).Time
          = (drift.GetTime x + drift.GetTime v + drift.GetTime u) / 3 ∧
        (fuse drift sqrt x v u).TimeUncertainty = sigma ∧
        (makeHit drift sqrt t0 x v u).TimeUncertainty = sigma) ∧
    (∀ s : K, 0 < s → x.ChargeUncertainty = s → v.ChargeUncertainty = s →
      u.ChargeUncertainty = s →
      (fuse drift sqrt x v u).ChargeUncertainty = s / sqrt 3 ∧
        (makeHit drift sqrt t0 x v u).ChargeUncertainty = s / sqrt 3) := by
  have huniq : ∀ a b : K, 0 ≤ a → 0 ≤ b → b * b = a → sqrt a = b := by
    intro a b ha hb hba
    obtain ⟨r0, r1⟩ := hsqrt a ha
    exact (mul_self_inj r0 hb).1 (r1.trans hba.symm)
  constructor
  · intro sigma hs ex ev eu
    have hne : sigma ≠ 0 := ne_of_gt hs
    have htime : (fuse drift sqrt x v u).Time
        = (drift.GetTime x / (sigma * sigma) + drift.GetTime v / (sigma * sigma)
            + drift.GetTime u / (sigma * sigma))
          / (1 / (sigma * sigma) + 1 / (sigma * sigma) + 1 / (sigma * sigma)) := by
      simp only [fuse, ex, ev, eu]
    have hunc : (fuse drift sqrt x v u).TimeUncertainty
        = sqrt (3 / (1 / (sigma * sigma) + 1 / (sigma * sigma) + 1 / (sigma * sigma))) := by
      simp only [fuse, ex, ev, eu]
    have hval : 3 / (1 / (sigma * sigma) + 1 / (sigma * sigma) + 1 / (sigma * sigma))
        = sigma * sigma := by
      field_simp
      ring
    have hu2 : (fuse drift sqrt x v u).TimeUncertainty = sigma := by
      rw [hunc, hval]
      exact huniq _ _ (le_of_lt (mul_pos hs hs)) (le_of_lt hs) rfl
    refine ⟨?_, hu2, hu2⟩
    have hss : sigma * sigma ≠ 0 := mul_ne_zero hne hne
    have h3 : (1 : K) / (sigma * sigma) + 1 / (sigma * sigma) + 1 / (sigma * sigma)
        = 3 / (sigma * sigma) := by
      rw [div_add_div_same, div_add_div_same]
      norm_num
    rw [htime, h3, div_add_div_same, div_add_div_same]
    rw [div_div_div_cancel_right₀ hss]
  · intro s hs ex ev eu
    have hne : s ≠ 0 := ne_of_gt hs
    obtain ⟨q0, q1⟩ := hsqrt 3 (by norm_num)
    have hq : sqrt 3 ≠ 0 := by
      intro h
      rw [h] at q1
      norm_num at q1
    have hqpos : 0 < sqrt 3 := lt_of_le_of_ne q0 (Ne.symm hq)
    have hunc : (fuse drift sqrt x v u).ChargeUncertainty
        = sqrt (1 / (1 / (s * s) + 1 / (s * s) + 1 / (s * s))) := by
      simp only [fuse, ex, ev, eu]
    have hval : 1 / (1 / (s * s) + 1 / (s * s) + 1 / (s * s)) = s * s / 3 := by
      field_simp
      ring
    have hc : (fuse drift sqrt x v u).ChargeUncertainty = s / sqrt 3 := by
      rw [hunc, hval]
      apply huniq _ _ (le_of_lt (div_pos (mul_pos hs hs) (by norm_num)))
        (le_of_lt (div_pos hs hqpos))
      rw [div_mul_div_comm, q1]
    exact ⟨hc, hc⟩

/-- Witness for C35: over the reals with the real square root, three hits of time
uncertainty 1 have the fused time uncertainty 1. -/
theorem equal_uncertainties_witness :
    (fuse driftRaw Real.sqrt (wireAt 0 WirePlane.kXPlane (0 : ℝ) 0 0 1 0 0)
        (wireAt 1 WirePlane.kVPlane (0 : ℝ) 0 1 0 3 0)
        (wireAt 2 WirePlane.kUPlane (0 : ℝ) 0 1 1 6 0)).TimeUncertainty = 1 :=
  ((equal_uncertainties driftRaw Real.sqrt 0 (wireAt 0 WirePlane.kXPlane (0 : ℝ) 0 0 1 0 0)
    (wireAt 1 WirePlane.kVPlane (0 : ℝ) 0 1 0 3 0)
    (wireAt 2 WirePlane.kUPlane (0 : ℝ) 0 1 1 6 0)
    (fun a ha => ⟨Real.sqrt_nonneg a, Real.mul_self_sqrt ha⟩)).1 1 (by norm_num)
    rfl rfl rfl).2.1

/-! ## The charge threshold -/

/-- For three links to hits whose charge uncertainties are not zero, the charge that the
loop computes is the number that `updateCharge` writes. -/
theorem sharedChargeD_three_links (sqrt : K → K) (obj : TWritableReconHit K) (x v u : THit K)
    (s1 s2 s3 : K) (hx : x.ChargeUncertainty ≠ 0) (hv : v.ChargeUncertainty ≠ 0)
    (hu : u.ChargeUncertainty ≠ 0) :
    sharedChargeD
        { object := obj
          links := [{ hit := x, charge := s1 }, { hit := v, charge := s2 },
            { hit := u, charge := s3 }] }
      = Double.num (updateCharge sqrt
        { object := obj
          links := [{ hit := x, charge := s1 }, { hit := v, charge := s2 },
            { hit := u, charge := s3 }] }).Charge := by
  have h1 : x.ChargeUncertainty * x.ChargeUncertainty ≠ 0 := mul_self_ne_zero.2 hx
  have h2 : v.ChargeUncertainty * v.ChargeUncertainty ≠ 0 := mul_self_ne_zero.2 hv
  have h3 : u.ChargeUncertainty * u.ChargeUncertainty ≠ 0 := mul_self_ne_zero.2 hu
  have p1 : 0 < 1 / (x.ChargeUncertainty * x.ChargeUncertainty) :=
    one_div_pos.2 (mul_self_pos.2 hx)
  have p2 : 0 < 1 / (v.ChargeUncertainty * v.ChargeUncertainty) :=
    one_div_pos.2 (mul_self_pos.2 hv)
  have p3 : 0 < 1 / (u.ChargeUncertainty * u.ChargeUncertainty) :=
    one_div_pos.2 (mul_self_pos.2 hu)
  have hW : 0 + 1 / (x.ChargeUncertainty * x.ChargeUncertainty)
      + 1 / (v.ChargeUncertainty * v.ChargeUncertainty)
      + 1 / (u.ChargeUncertainty * u.ChargeUncertainty) ≠ 0 := by
    apply ne_of_gt
    linarith
  simp only [sharedChargeD, updateCharge, List.foldl, Double.div, Double.add, if_neg h1,
    if_neg h2, if_neg h3, if_neg hW]

theorem writableHits_zero :
    (writableHits algUnit driftId sortByTime sqrtQ [zeroX, scenarioV, scenarioU1] 0).map
        (fun h => (h.xh, h.vh, h.uh)) = [(zeroX, scenarioV, scenarioU1)] := by
  rw [writableHits_triplets]
  norm_num [planeHits, sortByTime, search, xLoop, vLoop, uLoop, advanceBegin,
    algUnit, create, driftId, zeroX, scenarioX, scenarioV, scenarioU1, wireAt, maxDeltaT,
    overlapXU, overlapXV, overlapUV, OverlapTime, dist2D, PositionXYD, shift1D, Double.vmag2,
    Double.vsub, Double.sub, Double.neg, Double.add, Double.mul, Double.div, Double.gt,
    unit.microsecond, unit.ns, unit.mm, List.filter_cons, List.insertionSort,
    List.orderedInsert]

theorem sharedChargeD_zeroX (s1 s2 s3 : ℚ) :
    sharedChargeD
        { object := zeroGroup.object
          links := [{ hit := zeroX, charge := s1 }, { hit := scenarioV, charge := s2 },
            { hit := scenarioU1, charge := s3 }] } = Double.nan := by
  rcases lt_trichotomy s1 0 with h | h | h
  · have h2 : ¬ 0 < s1 := not_lt.mpr (le_of_lt h)
    simp [sharedChargeD, zeroX, scenarioX, scenarioV, scenarioU1, wireAt,
      Double.div, Double.add, h, h2]
  · simp [sharedChargeD, zeroX, scenarioX, scenarioV, scenarioU1, wireAt,
      Double.div, Double.add, h]
  · simp [sharedChargeD, zeroX, scenarioX, scenarioV, scenarioU1, wireAt,
      Double.div, Double.add, h]

/-- Counterexample to C12 as stated: `Process` creates the 3D hit of an X hit with a charge
uncertainty of zero; for its group the loop over the links computes the charge NaN, which
is not below 10, so the hit is copied to `clustered`, and which is not at least 10.  The
charge is a NaN whatever shares the three links carry. -/
theorem nan_charge_is_kept :
    (writableHits algUnit driftId sortByTime sqrtQ [zeroX, scenarioV, scenarioU1] 0).map
        (fun h => (h.xh, h.vh, h.uh)) = [(zeroX, scenarioV, scenarioU1)] ∧
      zeroGroup.object ∈ writableHits algUnit driftId sortByTime sqrtQ
        [zeroX, scenarioV, scenarioU1] 0 ∧
      sharedChargeD zeroGroup = Double.nan ∧
      keptD (sharedChargeD zeroGroup) = true ∧
      Double.ge (sharedChargeD zeroGroup) (.num 10) = false ∧
      ∀ s1 s2 s3 : ℚ, sharedChargeD
        { object := zeroGroup.object
          links := [{ hit := zeroX, charge := s1 }, { hit := scenarioV, charge := s2 },
            { hit := scenarioU1, charge := s3 }] } = Double.nan := by
  have hnan : sharedChargeD zeroGroup = Double.nan := by
    norm_num [sharedChargeD, zeroGroup, zeroX, scenarioX, scenarioV, scenarioU1, wireAt,
      Double.div, Double.add]
  have hmem : zeroGroup.object ∈ writableHits algUnit driftId sortByTime sqrtQ
      [zeroX, scenarioV, scenarioU1] 0 := by
    have h := writableHits_zero
    cases hw : writableHits algUnit driftId sortByTime sqrtQ [zeroX, scenarioV, scenarioU1] 0 with
    | nil =>
      rw [hw] at h
      simp at h
    | cons c rest =>
      rw [hw] at h
      have hc : c ∈ writableHits algUnit driftId sortByTime sqrtQ
          [zeroX, scenarioV, scenarioU1] 0 := by
        rw [hw]
        exact List.mem_cons_self _ _
      have hmake := writableHits_mem algUnit driftId sortByTime sqrtQ _ 0 c hc
      simp only [List.map_cons, List.cons.injEq, Prod.mk.injEq] at h
      obtain ⟨⟨e1, e2, e3⟩, _⟩ := h
      rw [e1, e2, e3] at hmake
      rw [hmake]
      exact List.mem_cons_self _ _
  refine ⟨writableHits_zero, hmem, hnan, ?_, ?_, sharedChargeD_zeroX⟩
  · rw [hnan]
    rfl
  · rw [hnan]
    rfl

/-- C12 (amended): when no wire hit has a charge uncertainty of zero, the charge that the
loop over the links computes for each 3D hit is a number, and the clustered output of
`Process` is the sub-list, in the order of discovery, of the 3D hits whose charge after
sharing is at least 10; a hit of charge below 10 is absent and a hit of charge exactly 10
is retained. -/
theorem clustered_is_charge_filter (alg : TCluster3D K) (drift : TDriftPosition K)
    (S : StdSort K) (sqrt : K → K) (wireHits pmtHits : THitSelection K) (hne : pmtHits ≠ [])
    (hunc : ∀ h ∈ wireHits, h.ChargeUncertainty ≠ 0) :
    ∃ r, Process alg drift S sqrt (some wireHits) (some pmtHits) = some r ∧
      (∀ g ∈ Solve (writableHits alg drift S sqrt wireHits (TimeZero pmtHits wireHits)),
        sharedChargeD g = Double.num (updateCharge sqrt g).Charge ∧
          keptD (sharedChargeD g) = decide (10 ≤ (updateCharge sqrt g).Charge)) ∧
      r.clustered = (candidates alg drift S sqrt wireHits pmtHits).filter
        (fun h => decide (10 ≤ h.Charge)) ∧
      (∀ h ∈ candidates alg drift S sqrt wireHits pmtHits, h.Charge < 10 → h ∉ r.clustered) ∧
      (∀ h ∈ candidates alg drift S sqrt wireHits pmtHits, h.Charge = 10 → h ∈ r.clustered) := by
  refine ⟨_, Process_some alg drift S sqrt wireHits pmtHits hne, ?_, ?_, ?_, ?_⟩
  · intro g hg
    unfold Solve at hg
    obtain ⟨c, hc, rfl⟩ := List.mem_map.1 hg
    have hin : ∀ h ∈ constituents c, h.ChargeUncertainty ≠ 0 := by
      intro h hh
      apply hunc
      apply tripletHits_search_subset alg drift S wireHits h
      exact (mem_tripletHits_search alg drift S sqrt wireHits _ h).2 ⟨c, hc, hh⟩
    have e := sharedChargeD_three_links sqrt c c.xh c.vh c.uh
      (share (writableHits alg drift S sqrt wireHits (TimeZero pmtHits wireHits)) c c.xh)
      (share (writableHits alg drift S sqrt wireHits (TimeZero pmtHits wireHits)) c c.vh)
      (share (writableHits alg drift S sqrt wireHits (TimeZero pmtHits wireHits)) c c.uh)
      (hin _ (by simp [constituents])) (hin _ (by simp [constituents]))
      (hin _ (by simp [constituents]))
    simp only [constituents, List.map_cons, List.map_nil]
    refine ⟨e, ?_⟩
    rw [e]
    simp only [keptD, Double.lt, Double.gt, gt_iff_lt]
    by_cases hlt : (updateCharge sqrt
        { object := c
          links := [{ hit := c.xh, charge := share (writableHits alg drift S sqrt wireHits
              (TimeZero pmtHits wireHits)) c c.xh },
            { hit := c.vh, charge := share (writableHits alg drift S sqrt wireHits
              (TimeZero pmtHits wireHits)) c c.vh },
            { hit := c.uh, charge := share (writableHits alg drift S sqrt wireHits
              (TimeZero pmtHits wireHits)) c c.uh }] }).Charge < 10
    · simp [hlt, not_le.mpr hlt]
    · simp [hlt, not_lt.mp hlt]
  · rw [buildResult_clustered]
    unfold clusteredHits
    apply List.filter_congr
    intro h _
    by_cases hc : h.Charge < 10
    · simp [hc, not_le.mpr hc]
    · simp [hc, not_lt.mp hc]
  · intro h _ hlt hmem
    rw [buildResult_clustered] at hmem
    unfold clusteredHits at hmem
    have := (List.mem_filter.1 hmem).2
    simp [hlt] at this
  · intro h hh heq
    rw [buildResult_clustered]
    unfold clusteredHits
    apply List.mem_filter.2
    refine ⟨hh, ?_⟩
    simp [heq]

/-- Witness for C12 (amended): the event with one X, one V and two U hits and five trigger
hits. -/
theorem clustered_is_charge_filter_witness :
    ∃ r, Process algUnit driftId sortByTime sqrtQ
        (some [scenarioX, scenarioV, scenarioU1, scenarioU2]) (some triggerScenario) = some r ∧
      r.clustered = (candidates algUnit driftId sortByTime sqrtQ
        [scenarioX, scenarioV, scenarioU1, scenarioU2] triggerScenario).filter
          (fun h => decide (10 ≤ h.Charge)) :=
  let ⟨r, h1, _, h2, _⟩ := clustered_is_charge_filter algUnit driftId sortByTime sqrtQ
    [scenarioX, scenarioV, scenarioU1, scenarioU2] triggerScenario (by simp [triggerScenario])
    (by simp [scenarioX, scenarioV, scenarioU1, scenarioU2, wireAt])
  ⟨r, h1, h2⟩

end TCluster3D

namespace TLinearRoad

variable {K : Type} [LinearOrderedField K]

/-! ## The selection of `NextCluster` -/

omit [LinearOrderedField K] in
theorem foldl_min_lt_iff {α : Type} [LinearOrder α] (g : TVector3 K → α) (s : α) :
    ∀ (l : List (TVector3 K)) (init : α),
      l.foldl (fun acc h => min (g h) acc) init < s ↔ init < s ∨ ∃ h ∈ l, g h < s := by
  intro l
  induction l with
  | nil =>
    intro init
    simp
  | cons a rest ih =>
    intro init
    rw [List.foldl_cons, ih, min_lt_iff]
    constructor
    · rintro ((h | h) | ⟨b, hb, h⟩)
      · exact Or.inr ⟨a, List.mem_cons_self _ _, h⟩
      · exact Or.inl h
      · exact Or.inr ⟨b, List.mem_cons_of_mem _ hb, h⟩
    · rintro (h | ⟨b, hb, h⟩)
      · exact Or.inl (Or.inr h)
      · rcases List.mem_cons.1 hb with rfl | hb
        · exact Or.inl (Or.inl h)
        · exact Or.inr ⟨b, hb, h⟩

theorem clusterDist_lt_iff (road : TLinearRoad K) (sqrt : K → K) (p : TVector3 K)
    (c : TReconCluster K) (hstep : road.fRoadStep ≤ 1 * unit.kilometer) :
    clusterDist sqrt p c < road.fRoadStep
      ↔ ∃ h ∈ c.Hits, TVector3.Mag sqrt (h.sub p) < road.fRoadStep := by
  unfold clusterDist
  rw [foldl_min_lt_iff (fun h => TVector3.Mag sqrt (h.sub p))]
  constructor
  · rintro (h | h)
    · exact absurd h (not_lt.2 hstep)
    · exact h
  · exact Or.inr

theorem checkCluster_def (road : TLinearRoad K) (sqrt : K → K) (p d : TVector3 K)
    (best : K × Option (TReconCluster K)) (c : TReconCluster K) :
    checkCluster road sqrt p d best c
      = if forward p d c < -(1 / 2) * road.fRoadWidth then best
        else if transverse sqrt p d c
            > 1 / 2 * (road.fRoadWidth + forward p d c * road.fOpeningAngle) then best
        else if forward p d c < best.1 then
          if clusterDist sqrt p c < road.fRoadStep then (forward p d c, some c) else best
        else best := rfl

/-- One pass of the loop of `NextCluster` takes the cluster exactly when it is eligible
and its forward distance is below the best distance so far. -/
theorem checkCluster_eq (road : TLinearRoad K) (sqrt : K → K) (p d : TVector3 K)
    (best : K × Option (TReconCluster K)) (c : TReconCluster K)
    (hstep : road.fRoadStep ≤ 1 * unit.kilometer) (hbest : best.1 ≤ 100 * unit.meter) :
    (Eligible road sqrt p d c ∧ forward p d c < best.1 →
      checkCluster road sqrt p d best c = (forward p d c, some c)) ∧
    (¬ (Eligible road sqrt p d c ∧ forward p d c < best.1) →
      checkCluster road sqrt p d best c = best) := by
  have hdist := clusterDist_lt_iff road sqrt p c hstep
  rw [checkCluster_def]
  constructor
  · rintro ⟨⟨h1, _, h3, h4⟩, hlt⟩
    rw [if_neg (not_lt.2 h1), if_neg (not_lt.2 h3), if_pos hlt, if_pos (hdist.2 h4)]
  · intro hnot
    by_cases c1 : forward p d c < -(1 / 2) * road.fRoadWidth
    · rw [if_pos c1]
    · rw [if_neg c1]
      by_cases c2 : transverse sqrt p d c
          > 1 / 2 * (road.fRoadWidth + forward p d c * road.fOpeningAngle)
      · exact if_pos c2
      · rw [if_neg c2]
        by_cases c3 : forward p d c < best.1
        · rw [if_pos c3]
          by_cases c4 : clusterDist sqrt p c < road.fRoadStep
          · exfalso
            apply hnot
            exact ⟨⟨not_lt.1 c1, lt_of_lt_of_le c3 hbest, not_lt.1 c2, hdist.1 c4⟩, c3⟩
          · rw [if_neg c4]
        · rw [if_neg c3]

/-- The state of the loop of `NextCluster` after a list of clusters. -/
theorem foldl_checkCluster (road : TLinearRoad K) (sqrt : K → K) (p d : TVector3 K)
    (hstep : road.fRoadStep ≤ 1 * unit.kilometer) (l : List (TReconCluster K)) :
    (l.foldl (checkCluster road sqrt p d) (100 * unit.meter, none)).1 ≤ 100 * unit.meter ∧
    (∀ c ∈ l, Eligible road sqrt p d c →
      (l.foldl (checkCluster road sqrt p d) (100 * unit.meter, none)).1 ≤ forward p d c) ∧
    ((l.foldl (checkCluster road sqrt p d) (100 * unit.meter, none)).2 = none →
      (l.foldl (checkCluster road sqrt p d) (100 * unit.meter, none)).1 = 100 * unit.meter) ∧
    (∀ b, (l.foldl (checkCluster road sqrt p d) (100 * unit.meter, none)).2 = some b →
      Eligible road sqrt p d b ∧
      forward p d b = (l.foldl (checkCluster road sqrt p d) (100 * unit.meter, none)).1 ∧
      ∃ l1 l2, l = l1 ++ b :: l2 ∧ ∀ c ∈ l1, Eligible road sqrt p d c →
        forward p d b < forward p d c) := by
  induction l using List.reverseRecOn with
  | nil =>
    refine ⟨le_refl _, ?_, fun _ => rfl, ?_⟩
    · intro c hc
      exact absurd hc (List.not_mem_nil c)
    · intro b hb
      simp at hb
  | append_singleton l c ih =>
    obtain ⟨i1, i2, i3, i4⟩ := ih
    rw [List.foldl_append, List.foldl_cons, List.foldl_nil]
    obtain ⟨hacc, hrej⟩ := checkCluster_eq road sqrt p d
      (l.foldl (checkCluster road sqrt p d) (100 * unit.meter, none)) c hstep i1
    by_cases hc : Eligible road sqrt p d c
        ∧ forward p d c < (l.foldl (checkCluster road sqrt p d) (100 * unit.meter, none)).1
    · rw [hacc hc]
      refine ⟨le_trans (le_of_lt hc.2) i1, ?_, ?_, ?_⟩
      · intro c1 hc1 he
        rcases List.mem_append.1 hc1 with hc1 | hc1
        · exact le_trans (le_of_lt hc.2) (i2 c1 hc1 he)
        · rw [List.mem_singleton.1 hc1]
      · intro h
        simp at h
      · intro b hb
        have hbc : c = b := by simpa using hb
        subst hbc
        refine ⟨hc.1, rfl, l, [], rfl, ?_⟩
        intro c1 hc1 he
        exact lt_of_lt_of_le hc.2 (i2 c1 hc1 he)
    · rw [hrej hc]
      refine ⟨i1, ?_, i3, ?_⟩
      · intro c1 hc1 he
        rcases List.mem_append.1 hc1 with hc1 | hc1
        · exact i2 c1 hc1 he
        · rw [List.mem_singleton.1 hc1]
          rw [List.mem_singleton.1 hc1] at he
          exact not_lt.1 (fun hlt => hc ⟨he, hlt⟩)
      · intro b hb
        obtain ⟨e1, e2, l1, l2, e3, e4⟩ := i4 b hb
        refine ⟨e1, e2, l1, l2 ++ [c], ?_, e4⟩
        rw [e3]
        simp

/-- The road of the constructor has a road step below one kilometre. -/
theorem create_fRoadStep (maxClusters : Int) :
    (create maxClusters : TLinearRoad K).fRoadStep ≤ 1 * unit.kilometer := by
  norm_num [create, unit.cm, unit.mm, unit.kilometer, unit.meter]

/-- C28: for a seed position `p` and a direction `d`, `NextCluster` returns an empty handle
iff no cluster is eligible; otherwise it returns the first cluster in container order with
the minimum forward distance among the eligible clusters, which is a member of
`clusters`.  The road step is at most the kilometre from which the closest hit is
searched, as it is for the road of the constructor. -/
theorem NextCluster_selection (road : TLinearRoad K) (sqrt : K → K) (p d : TVector3 K)
    (clusters : List (TReconCluster K)) (hstep : road.fRoadStep ≤ 1 * unit.kilometer) :
    (selectCluster road sqrt p d clusters = none
      ↔ ∀ c ∈ clusters, ¬ Eligible road sqrt p d c) ∧
    (∀ b, selectCluster road sqrt p d clusters = some b →
      b ∈ clusters ∧ Eligible road sqrt p d b ∧
      (∀ c ∈ clusters, Eligible road sqrt p d c → forward p d b ≤ forward p d c) ∧
      ∃ l1 l2, clusters = l1 ++ b :: l2 ∧
        ∀ c ∈ l1, Eligible road sqrt p d c → forward p d b < forward p d c) ∧
    (∀ (principal : List (TReconCluster K) → TPrincipal K) (seed : List (TReconCluster K))
      (front back : TReconCluster K) (extendBack : Bool),
      seed.head? = some front → seed.getLast? = some back →
      p = (seedEnd sqrt (principal seed) seed front back extendBack).1 →
      d = (seedEnd sqrt (principal seed) seed front back extendBack).2 →
      NextCluster road sqrt principal seed clusters extendBack
        = selectCluster road sqrt p d clusters) := by
  obtain ⟨i1, i2, i3, i4⟩ := foldl_checkCluster road sqrt p d hstep clusters
  refine ⟨?_, ?_, ?_⟩
  · unfold selectCluster
    constructor
    · intro hnone c hc he
      have h1 := i2 c hc he
      rw [i3 hnone] at h1
      exact absurd he.2.1 (not_lt.2 h1)
    · intro hall
      cases hb : (clusters.foldl (checkCluster road sqrt p d) (100 * unit.meter, none)).2 with
      | none => rfl
      | some b =>
        obtain ⟨e1, _, l1, l2, e3, _⟩ := i4 b hb
        exfalso
        apply hall b _ e1
        rw [e3]
        simp
  · intro b hb
    unfold selectCluster at hb
    obtain ⟨e1, e2, l1, l2, e3, e4⟩ := i4 b hb
    refine ⟨?_, e1, ?_, l1, l2, e3, e4⟩
    · rw [e3]
      simp
    · intro c hc he
      rw [e2]
      exact i2 c hc he
  · intro principal seed front back extendBack hf hb hp hd
    unfold NextCluster
    rw [hf, hb, hp, hd]
theorem sqrtQ_zero : TCluster3D.sqrtQ 0 = 0 := by
  simp [TCluster3D.sqrtQ]

theorem sqrtQ_one : TCluster3D.sqrtQ 1 = 1 := by
  simp [TCluster3D.sqrtQ]

theorem selectCluster_pair :
    selectCluster (create 10) TCluster3D.sqrtQ ⟨0, 0, 0⟩ ⟨1, 0, 0⟩
        [clusterAt 1 1 0 0, clusterAt 2 0 0 0]
      = some (clusterAt 2 (0 : ℚ) 0 0) := by
  norm_num [selectCluster, checkCluster, clusterDist, create, clusterAt, TVector3.sub,
    TVector3.dot, TVector3.scale, TVector3.Mag, TVector3.Mag2, sqrtQ_zero, sqrtQ_one,
    unit.mm, unit.cm, unit.meter, unit.kilometer, unit.radian]

/-- Witness for C28: of a cluster one millimetre ahead of the seed position and a cluster
at the seed position, `NextCluster` returns the second, which is an eligible member of the
container. -/
theorem NextCluster_selection_witness :
    selectCluster (create 10) TCluster3D.sqrtQ ⟨0, 0, 0⟩ ⟨1, 0, 0⟩
        [clusterAt 1 1 0 0, clusterAt 2 0 0 0] = some (clusterAt 2 (0 : ℚ) 0 0) ∧
      clusterAt 2 (0 : ℚ) 0 0 ∈ [clusterAt 1 1 0 0, clusterAt 2 (0 : ℚ) 0 0] ∧
      Eligible (create 10) TCluster3D.sqrtQ ⟨0, 0, 0⟩ ⟨1, 0, 0⟩ (clusterAt 2 (0 : ℚ) 0 0) :=
  ⟨selectCluster_pair,
    ((NextCluster_selection (create 10) TCluster3D.sqrtQ ⟨0, 0, 0⟩ ⟨1, 0, 0⟩
      [clusterAt 1 1 0 0, clusterAt 2 0 0 0] (create_fRoadStep 10)).2.1
      (clusterAt 2 (0 : ℚ) 0 0) selectCluster_pair).1,
    ((NextCluster_selection (create 10) TCluster3D.sqrtQ ⟨0, 0, 0⟩ ⟨1, 0, 0⟩
      [clusterAt 1 1 0 0, clusterAt 2 0 0 0] (create_fRoadStep 10)).2.1
      (clusterAt 2 (0 : ℚ) 0 0) selectCluster_pair).2.1⟩

/-! ## The road conserves the clusters -/

omit [LinearOrderedField K] in
theorem copyClusters_map_some (l : List (TReconCluster K)) :
    copyClusters (l.map some) = some l := by
  induction l with
  | nil => rfl
  | cons a rest ih =>
    simp only [List.map_cons, copyClusters, ih]

theorem gatherUpstream_front (road : TLinearRoad K) (sqrt : K → K) :
    ∀ (track currentSeed : List (TReconCluster K)),
      ∃ rest, currentSeed ++ track = gatherUpstream road sqrt track currentSeed ++ rest := by
  intro track
  induction track with
  | nil =>
    intro currentSeed
    exact ⟨[], rfl⟩
  | cons c rest ih =>
    intro currentSeed
    have e : currentSeed ++ c :: rest = (currentSeed ++ [c]) ++ rest := by simp
    simp only [gatherUpstream]
    split_ifs
    · rw [e]
      exact ih _
    · rw [e]
      exact ih _
    · exact ⟨rest, e⟩

theorem gatherDownstream_suffix (road : TLinearRoad K) (sqrt : K → K) :
    ∀ (reversed currentSeed : List (TReconCluster K)),
      ∃ rest, reversed.reverse ++ currentSeed
        = rest ++ gatherDownstream road sqrt reversed currentSeed := by
  intro reversed
  induction reversed with
  | nil =>
    intro currentSeed
    exact ⟨[], rfl⟩
  | cons c rest ih =>
    intro currentSeed
    have e : (c :: rest).reverse ++ currentSeed = rest.reverse ++ (c :: currentSeed) := by simp
    simp only [gatherDownstream]
    split_ifs
    · rw [e]
      exact ih _
    · rw [e]
      exact ih _
    · exact ⟨rest.reverse, e⟩

theorem eraseSeed_front (currentSeed rest : List (TReconCluster K)) :
    eraseSeed currentSeed (currentSeed ++ rest) = rest := by
  induction currentSeed with
  | nil => rfl
  | cons a s ih =>
    simp only [eraseSeed, List.foldl_cons, List.cons_append, List.erase_cons_head]
    exact ih

theorem eraseSeed_eq_diff (currentSeed track : List (TReconCluster K)) :
    eraseSeed currentSeed track = track.diff currentSeed := by
  rw [List.diff_eq_foldl]
  rfl

theorem eraseSeed_perm (currentSeed rest : List (TReconCluster K)) :
    (eraseSeed currentSeed (rest ++ currentSeed) ++ currentSeed).Perm (rest ++ currentSeed) := by
  rw [eraseSeed_eq_diff]
  refine List.perm_append_comm.trans ?_
  apply List.subperm_append_diff_self_of_count_le
  intro x _
  exact (List.sublist_append_right rest currentSeed).count_le x

theorem eraseSeed_suffix (currentSeed : List (TReconCluster K)) :
    ∀ rest : List (TReconCluster K), (rest ++ currentSeed).Nodup →
      eraseSeed currentSeed (rest ++ currentSeed) = rest := by
  induction currentSeed with
  | nil =>
    intro rest _
    simp [eraseSeed]
  | cons a s ih =>
    intro rest hnodup
    have hnot : a ∉ rest := by
      intro ha
      have := (List.nodup_append.1 hnodup).2.2
      exact this ha (List.mem_cons_self _ _)
    have hs : (rest ++ s).Nodup := by
      apply hnodup.sublist
      exact List.Sublist.append_left (List.sublist_cons_self a s) rest
    have e : eraseSeed (a :: s) (rest ++ a :: s) = eraseSeed s (rest ++ s) := by
      simp only [eraseSeed, List.foldl_cons]
      rw [List.erase_append_right _ hnot, List.erase_cons_head]
    rw [e]
    exact ih rest hs

theorem popBack_append (road : TLinearRoad K) (sqrt : K → K) :
    ∀ (n : Nat) (currentSeed track : List (TReconCluster K)), currentSeed.length = n →
      (popBack road sqrt currentSeed track).1 ++ (popBack road sqrt currentSeed track).2
        = currentSeed ++ track := by
  intro n
  induction n with
  | zero =>
    intro currentSeed track hlen
    rw [popBack]
    have hno : ¬ (currentSeed.length > road.fSeedSize
        ∧ seedLength sqrt currentSeed ≥ road.fSeedLength) := by
      rw [hlen]
      exact fun h => Nat.not_lt_zero _ h.1
    rw [dif_neg hno]
  | succ n ih =>
    intro currentSeed track hlen
    rw [popBack]
    split_ifs with h
    · rw [ih _ _ (by rw [List.length_dropLast, hlen]; rfl)]
      rw [List.append_cons, List.dropLast_append_getLast]
    · rfl

theorem popFront_append (road : TLinearRoad K) (sqrt : K → K) :
    ∀ (currentSeed track : List (TReconCluster K)),
      (popFront road sqrt currentSeed track).2 ++ (popFront road sqrt currentSeed track).1
        = track ++ currentSeed := by
  intro currentSeed
  induction currentSeed with
  | nil =>
    intro track
    rfl
  | cons front rest ih =>
    intro track
    simp only [popFront]
    split_ifs
    · rw [ih]
      simp
    · rfl
/-- The upstream search puts new clusters in front of the seed and the track, and takes
them from the remaining clusters. -/
theorem followUpstream_spec (road : TLinearRoad K) (sqrt : K → K)
    (next : List (TReconCluster K) → List (TReconCluster K) → Bool → Option (TReconCluster K)) :
    ∀ (n : Nat) (remaining currentSeed track : List (TReconCluster K)) (collected : Int)
      (r : List (TReconCluster K) × List (TReconCluster K) × List (TReconCluster K)),
      remaining.length = n →
      followUpstream road sqrt next remaining currentSeed track collected = some r →
      ∃ added, r.2.1 ++ r.2.2 = added ++ (currentSeed ++ track)
        ∧ (added ++ r.1).Perm remaining := by
  intro n
  induction n with
  | zero =>
    intro remaining currentSeed track collected r hlen h
    rw [List.length_eq_zero.1 hlen, followUpstream] at h
    have c0 : ([] : List (TReconCluster K)).isEmpty = true ∨ currentSeed.length ≤ 2 :=
      Or.inl rfl
    rw [if_pos c0] at h
    rw [← Option.some.inj h, List.length_eq_zero.1 hlen]
    exact ⟨[], rfl, List.Perm.refl _⟩
  | succ n ih =>
    intro remaining currentSeed track collected r hlen h
    rw [followUpstream] at h
    by_cases c1 : remaining.isEmpty ∨ currentSeed.length ≤ 2
    · rw [if_pos c1] at h
      rw [← Option.some.inj h]
      exact ⟨[], rfl, List.Perm.refl _⟩
    · rw [if_neg c1] at h
      cases hn : next currentSeed remaining false with
      | none =>
        rw [hn] at h
        rw [← Option.some.inj h]
        exact ⟨[], rfl, List.Perm.refl _⟩
      | some cluster =>
        rw [hn] at h
        by_cases hm : cluster ∈ remaining
        · simp only [dif_pos hm] at h
          have hpop := popBack_append road sqrt _ (cluster :: currentSeed) track rfl
          by_cases hc : collected + 1 > road.fMaxClusters
          · rw [if_pos hc] at h
            rw [← Option.some.inj h]
            refine ⟨[cluster], ?_, ?_⟩
            · exact hpop
            · exact (List.perm_cons_erase hm).symm
          · rw [if_neg hc] at h
            obtain ⟨added, e1, e2⟩ := ih _ _ _ _ r
              (by rw [List.length_erase_of_mem hm, hlen]; rfl) h
            refine ⟨added ++ [cluster], ?_, ?_⟩
            · rw [e1, hpop]
              simp
            · refine List.Perm.trans ?_ (List.perm_cons_erase hm).symm
              refine List.Perm.trans ?_ (List.Perm.cons cluster e2)
              simp only [List.append_assoc, List.singleton_append]
              exact List.perm_middle
        · simp only [dif_neg hm] at h
          exact absurd h (by simp)

/-- The upstream search returns when `next` returns remaining clusters only. -/
theorem followUpstream_some (road : TLinearRoad K) (sqrt : K → K)
    (next : List (TReconCluster K) → List (TReconCluster K) → Bool → Option (TReconCluster K))
    (hnext : ∀ s r e c, next s r e = some c → c ∈ r) :
    ∀ (n : Nat) (remaining currentSeed track : List (TReconCluster K)) (collected : Int),
      remaining.length = n →
      ∃ r, followUpstream road sqrt next remaining currentSeed track collected = some r := by
  intro n
  induction n with
  | zero =>
    intro remaining currentSeed track collected hlen
    rw [List.length_eq_zero.1 hlen, followUpstream]
    have c0 : ([] : List (TReconCluster K)).isEmpty = true ∨ currentSeed.length ≤ 2 :=
      Or.inl rfl
    rw [if_pos c0]
    exact ⟨_, rfl⟩
  | succ n ih =>
    intro remaining currentSeed track collected hlen
    rw [followUpstream]
    by_cases c1 : remaining.isEmpty ∨ currentSeed.length ≤ 2
    · rw [if_pos c1]
      exact ⟨_, rfl⟩
    · rw [if_neg c1]
      cases hn : next currentSeed remaining false with
      | none => exact ⟨_, rfl⟩
      | some cluster =>
        have hm := hnext _ _ _ _ hn
        simp only [dif_pos hm]
        by_cases hc : collected + 1 > road.fMaxClusters
        · rw [if_pos hc]
          exact ⟨_, rfl⟩
        · rw [if_neg hc]
          exact ih _ _ _ _ (by rw [List.length_erase_of_mem hm, hlen]; rfl)

/-- The downstream search puts new clusters behind the track and the seed, and takes them
from the remaining clusters. -/
theorem followDownstream_spec (road : TLinearRoad K) (sqrt : K → K)
    (next : List (TReconCluster K) → List (TReconCluster K) → Bool → Option (TReconCluster K)) :
    ∀ (n : Nat) (remaining currentSeed track : List (TReconCluster K)) (collected : Int)
      (r : List (TReconCluster K) × List (TReconCluster K) × List (TReconCluster K)),
      remaining.length = n →
      followDownstream road sqrt next remaining currentSeed track collected = some r →
      ∃ added, r.2.2 ++ r.2.1 = (track ++ currentSeed) ++ added
        ∧ (added ++ r.1).Perm remaining := by
  intro n
  induction n with
  | zero =>
    intro remaining currentSeed track collected r hlen h
    rw [List.length_eq_zero.1 hlen, followDownstream] at h
    have c0 : ([] : List (TReconCluster K)).isEmpty = true ∨ currentSeed.length ≤ 2 :=
      Or.inl rfl
    rw [if_pos c0] at h
    rw [← Option.some.inj h, List.length_eq_zero.1 hlen]
    exact ⟨[], by simp, List.Perm.refl _⟩
  | succ n ih =>
    intro remaining currentSeed track collected r hlen h
    rw [followDownstream] at h
    by_cases c1 : remaining.isEmpty ∨ currentSeed.length ≤ 2
    · rw [if_pos c1] at h
      rw [← Option.some.inj h]
      exact ⟨[], by simp, List.Perm.refl _⟩
    · rw [if_neg c1] at h
      cases hn : next currentSeed remaining true with
      | none =>
        rw [hn] at h
        rw [← Option.some.inj h]
        exact ⟨[], by simp, List.Perm.refl _⟩
      | some cluster =>
        rw [hn] at h
        by_cases hm : cluster ∈ remaining
        · simp only [dif_pos hm] at h
          have hpop := popFront_append road sqrt (currentSeed ++ [cluster]) track
          by_cases hc : collected + 1 > road.fMaxClusters
          · rw [if_pos hc] at h
            rw [← Option.some.inj h]
            refine ⟨[cluster], ?_, ?_⟩
            · rw [hpop]
              simp
            · exact (List.perm_cons_erase hm).symm
          · rw [if_neg hc] at h
            obtain ⟨added, e1, e2⟩ := ih _ _ _ _ r
              (by rw [List.length_erase_of_mem hm, hlen]; rfl) h
            refine ⟨cluster :: added, ?_, ?_⟩
            · rw [e1, hpop]
              simp
            · refine List.Perm.trans ?_ (List.perm_cons_erase hm).symm
              exact List.Perm.cons cluster e2
        · simp only [dif_neg hm] at h
          exact absurd h (by simp)

/-- The downstream search returns when `next` returns remaining clusters only. -/
theorem followDownstream_some (road : TLinearRoad K) (sqrt : K → K)
    (next : List (TReconCluster K) → List (TReconCluster K) → Bool → Option (TReconCluster K))
    (hnext : ∀ s r e c, next s r e = some c → c ∈ r) :
    ∀ (n : Nat) (remaining currentSeed track : List (TReconCluster K)) (collected : Int),
      remaining.length = n →
      ∃ r, followDownstream road sqrt next remaining currentSeed track collected = some r := by
  intro n
  induction n with
  | zero =>
    intro remaining currentSeed track collected hlen
    rw [List.length_eq_zero.1 hlen, followDownstream]
    have c0 : ([] : List (TReconCluster K)).isEmpty = true ∨ currentSeed.length ≤ 2 :=
      Or.inl rfl
    rw [if_pos c0]
    exact ⟨_, rfl⟩
  | succ n ih =>
    intro remaining currentSeed track collected hlen
    rw [followDownstream]
    by_cases c1 : remaining.isEmpty ∨ currentSeed.length ≤ 2
    · rw [if_pos c1]
      exact ⟨_, rfl⟩
    · rw [if_neg c1]
      cases hn : next currentSeed remaining true with
      | none => exact ⟨_, rfl⟩
      | some cluster =>
        have hm := hnext _ _ _ _ hn
        simp only [dif_pos hm]
        by_cases hc : collected + 1 > road.fMaxClusters
        · rw [if_pos hc]
          exact ⟨_, rfl⟩
        · rw [if_neg hc]
          exact ih _ _ _ _ (by rw [List.length_erase_of_mem hm, hlen]; rfl)
omit [LinearOrderedField K] in
theorem foldr_push_front (l track : List (TReconCluster K)) :
    l.foldr (fun c track => c :: track) track = l ++ track := by
  induction l with
  | nil => rfl
  | cons a rest ih => simp [ih]

omit [LinearOrderedField K] in
theorem foldl_push_back (l : List (TReconCluster K)) :
    ∀ track : List (TReconCluster K), l.foldl (fun track c => track ++ [c]) track = track ++ l := by
  induction l with
  | nil =>
    intro track
    simp
  | cons a rest ih =>
    intro track
    simp [ih]

/-- One pass of the body of the `do` loop conserves the clusters, and it extends a track
without repeated clusters at its two ends. -/
theorem roadPass_spec (road : TLinearRoad K) (sqrt : K → K)
    (next : List (TReconCluster K) → List (TReconCluster K) → Bool → Option (TReconCluster K))
    (remaining track : List (TReconCluster K))
    (r : List (TReconCluster K) × List (TReconCluster K))
    (h : roadPass road sqrt next remaining track = some r) :
    (r.2 ++ r.1).Perm (track ++ remaining) ∧
      ((track ++ remaining).Nodup → ∃ front back, r.2 = front ++ track ++ back) := by
  obtain ⟨rest, hrest⟩ := gatherUpstream_front road sqrt track []
  rw [List.nil_append] at hrest
  have herase : eraseSeed (gatherUpstream road sqrt track []) track = rest :=
    (congrArg (eraseSeed (gatherUpstream road sqrt track [])) hrest).trans
      (eraseSeed_front _ rest)
  simp only [roadPass, herase, foldr_push_front, foldl_push_back] at h
  split at h
  · exact absurd h (by simp)
  · rename_i remaining1 upSeed1 track1 hup
    obtain ⟨addedUp, u1, u2⟩ := followUpstream_spec road sqrt next _ _ _ _ _ _ rfl hup
    simp only at u1 u2
    rw [← hrest] at u1
    obtain ⟨pre, hpre⟩ := gatherDownstream_suffix road sqrt (upSeed1 ++ track1).reverse []
    rw [List.reverse_reverse, List.append_nil] at hpre
    split at h
    · exact absurd h (by simp)
    · rename_i remaining2 downSeed1 track3 hdown
      obtain ⟨addedDown, d1, d2⟩ := followDownstream_spec road sqrt next _ _ _ _ _ _ rfl hdown
      simp only at d1 d2
      rw [← Option.some.inj h]
      simp only
      rw [d1]
      have hp : (eraseSeed (gatherDownstream road sqrt (upSeed1 ++ track1).reverse [])
          (upSeed1 ++ track1)
          ++ gatherDownstream road sqrt (upSeed1 ++ track1).reverse []).Perm
          (upSeed1 ++ track1) := by
        have := eraseSeed_perm (gatherDownstream road sqrt (upSeed1 ++ track1).reverse []) pre
        rw [← hpre] at this
        exact this
      have hperm1 : ((upSeed1 ++ track1) ++ remaining1).Perm (track ++ remaining) := by
        rw [u1]
        refine List.Perm.trans ?_ (List.Perm.append_left track u2)
        simp only [List.append_assoc]
        refine List.Perm.trans List.perm_append_comm ?_
        simp only [List.append_assoc]
        exact List.Perm.append_left track List.perm_append_comm
      constructor
      · refine List.Perm.trans ?_ hperm1
        rw [List.append_assoc _ addedDown remaining2]
        exact List.Perm.append hp d2
      · intro hnodup
        have hn1 : (upSeed1 ++ track1).Nodup :=
          ((hperm1.nodup_iff).2 hnodup).sublist (List.sublist_append_left _ _)
        have he : eraseSeed (gatherDownstream road sqrt (upSeed1 ++ track1).reverse [])
            (upSeed1 ++ track1) = pre := by
          have hn2 := hn1
          rw [hpre] at hn2
          have := eraseSeed_suffix _ pre hn2
          rw [← hpre] at this
          exact this
        rw [he, ← hpre, u1]
        exact ⟨addedUp, addedDown, rfl⟩

/-- One pass of the body of the `do` loop returns when `next` returns remaining clusters
only. -/
theorem roadPass_some (road : TLinearRoad K) (sqrt : K → K)
    (next : List (TReconCluster K) → List (TReconCluster K) → Bool → Option (TReconCluster K))
    (hnext : ∀ s r e c, next s r e = some c → c ∈ r)
    (remaining track : List (TReconCluster K)) :
    ∃ r, roadPass road sqrt next remaining track = some r := by
  simp only [roadPass]
  obtain ⟨r1, h1⟩ := followUpstream_some road sqrt next hnext _ remaining
    (gatherUpstream road sqrt track [])
    (eraseSeed (gatherUpstream road sqrt track []) track) 0 rfl
  rw [h1]
  simp only
  obtain ⟨r2, h2⟩ := followDownstream_some road sqrt next hnext _ r1.1
    (gatherDownstream road sqrt (r1.2.1.foldr (fun c track => c :: track) r1.2.2).reverse [])
    (eraseSeed (gatherDownstream road sqrt
      (r1.2.1.foldr (fun c track => c :: track) r1.2.2).reverse [])
      (r1.2.1.foldr (fun c track => c :: track) r1.2.2)) 0 rfl
  rw [h2]
  exact ⟨_, rfl⟩

/-- The `do` loop conserves the clusters, and it extends a track without repeated clusters
at its two ends. -/
theorem roadLoop_spec (road : TLinearRoad K) (sqrt : K → K)
    (next : List (TReconCluster K) → List (TReconCluster K) → Bool → Option (TReconCluster K)) :
    ∀ (throttle : Nat) (remaining track : List (TReconCluster K))
      (r : List (TReconCluster K) × List (TReconCluster K)),
      roadLoop road sqrt next throttle remaining track = some r →
      (r.2 ++ r.1).Perm (track ++ remaining) ∧
        ((track ++ remaining).Nodup → ∃ front back, r.2 = front ++ track ++ back) := by
  intro throttle
  induction throttle with
  | zero =>
    intro remaining track r h
    exact roadPass_spec road sqrt next remaining track r h
  | succ n ih =>
    intro remaining track r h
    simp only [roadLoop] at h
    split at h
    · exact absurd h (by simp)
    · rename_i remaining1 track1 hpass
      obtain ⟨p1, p2⟩ := roadPass_spec road sqrt next remaining track _ hpass
      simp only at p1 p2
      split_ifs at h
      · obtain ⟨q1, q2⟩ := ih remaining1 track1 r h
        refine ⟨q1.trans p1, ?_⟩
        intro hnodup
        obtain ⟨f1, b1, e1⟩ := p2 hnodup
        obtain ⟨f2, b2, e2⟩ := q2 ((p1.nodup_iff).2 hnodup)
        refine ⟨f2 ++ f1, b1 ++ b2, ?_⟩
        rw [e2, e1]
        simp
      · rw [← Option.some.inj h]
        exact ⟨p1, p2⟩

/-- The `do` loop returns when `next` returns remaining clusters only. -/
theorem roadLoop_some (road : TLinearRoad K) (sqrt : K → K)
    (next : List (TReconCluster K) → List (TReconCluster K) → Bool → Option (TReconCluster K))
    (hnext : ∀ s r e c, next s r e = some c → c ∈ r) :
    ∀ (throttle : Nat) (remaining track : List (TReconCluster K)),
      ∃ r, roadLoop road sqrt next throttle remaining track = some r := by
  intro throttle
  induction throttle with
  | zero =>
    intro remaining track
    exact roadPass_some road sqrt next hnext remaining track
  | succ n ih =>
    intro remaining track
    obtain ⟨r1, h1⟩ := roadPass_some road sqrt next hnext remaining track
    simp only [roadLoop, h1]
    split_ifs
    · exact ih _ _
    · exact ⟨_, rfl⟩

/-- The handle returned by `NextCluster` is an element of the container of clusters. -/
theorem NextCluster_mem (road : TLinearRoad K) (sqrt : K → K)
    (principal : List (TReconCluster K) → TPrincipal K) (seed clusters : List (TReconCluster K))
    (extendBack : Bool) (c : TReconCluster K)
    (h : NextCluster road sqrt principal seed clusters extendBack = some c) : c ∈ clusters := by
  have key : ∀ (p d : TVector3 K) (l : List (TReconCluster K)) (b : TReconCluster K),
      (l.foldl (checkCluster road sqrt p d) (100 * unit.meter, none)).2 = some b → b ∈ l := by
    intro p d l
    induction l using List.reverseRecOn with
    | nil =>
      intro b hb
      simp at hb
    | append_singleton l a ih =>
      intro b hb
      rw [List.foldl_append, List.foldl_cons, List.foldl_nil, checkCluster_def] at hb
      split_ifs at hb
      · exact List.mem_append_left _ (ih b hb)
      · exact List.mem_append_left _ (ih b hb)
      · have e : a = b := by simpa using hb
        rw [e]
        simp
      · exact List.mem_append_left _ (ih b hb)
      · exact List.mem_append_left _ (ih b hb)
  unfold NextCluster at h
  split at h
  · exact key _ _ _ _ h
  · exact absurd h (by simp)

theorem followUpstream_nil (road : TLinearRoad K) (sqrt : K → K)
    (next : List (TReconCluster K) → List (TReconCluster K) → Bool → Option (TReconCluster K))
    (currentSeed track : List (TReconCluster K)) (collected : Int) :
    followUpstream road sqrt next [] currentSeed track collected
      = some ([], currentSeed, track) := by
  have c0 : ([] : List (TReconCluster K)).isEmpty = true ∨ currentSeed.length ≤ 2 :=
    Or.inl rfl
  rw [followUpstream, if_pos c0]

theorem followDownstream_nil (road : TLinearRoad K) (sqrt : K → K)
    (next : List (TReconCluster K) → List (TReconCluster K) → Bool → Option (TReconCluster K))
    (currentSeed track : List (TReconCluster K)) (collected : Int) :
    followDownstream road sqrt next [] currentSeed track collected
      = some ([], currentSeed, track) := by
  have c0 : ([] : List (TReconCluster K)).isEmpty = true ∨ currentSeed.length ≤ 2 :=
    Or.inl rfl
  rw [followDownstream, if_pos c0]

/-- Without remaining clusters one pass takes the downstream seed out of the track and
puts it back at the end. -/
theorem roadPass_nil (road : TLinearRoad K) (sqrt : K → K)
    (next : List (TReconCluster K) → List (TReconCluster K) → Bool → Option (TReconCluster K))
    (track : List (TReconCluster K)) :
    roadPass road sqrt next [] track
      = some ([], eraseSeed (gatherDownstream road sqrt track.reverse []) track
          ++ gatherDownstream road sqrt track.reverse []) := by
  obtain ⟨rest, hrest⟩ := gatherUpstream_front road sqrt track []
  rw [List.nil_append] at hrest
  have herase : eraseSeed (gatherUpstream road sqrt track []) track = rest :=
    (congrArg (eraseSeed (gatherUpstream road sqrt track [])) hrest).trans
      (eraseSeed_front _ rest)
  simp only [roadPass, followUpstream_nil, followDownstream_nil, foldr_push_front,
    foldl_push_back, herase, ← hrest]

theorem sqrtQ_3600 : TCluster3D.sqrtQ 3600 = 60 := by
  have hn : (3600 : ℚ).num.toNat = 3600 := rfl
  have hd : (3600 : ℚ).den = 1 := rfl
  have h60 : Nat.sqrt 3600 = 60 := by
    symm
    rw [Nat.eq_sqrt]
    constructor <;> norm_num
  unfold TCluster3D.sqrtQ
  rw [hn, hd, h60, Nat.sqrt_one]
  norm_num

theorem Mag_eq (sqrt : K → K) (a : TVector3 K) : TVector3.Mag sqrt a = sqrt a.Mag2 := rfl

theorem gatherDownstream_short (road : TLinearRoad K) (sqrt : K → K) (c : TReconCluster K)
    (rest currentSeed : List (TReconCluster K))
    (h : (c :: currentSeed).length < road.fSeedSize) :
    gatherDownstream road sqrt (c :: rest) currentSeed
      = gatherDownstream road sqrt rest (c :: currentSeed) := by
  simp only [gatherDownstream, if_pos h]

theorem gatherDownstream_stop (road : TLinearRoad K) (sqrt : K → K) (c : TReconCluster K)
    (rest currentSeed : List (TReconCluster K))
    (h1 : ¬ (c :: currentSeed).length < road.fSeedSize)
    (h2 : ¬ seedLength sqrt (c :: currentSeed) < road.fSeedLength) :
    gatherDownstream road sqrt (c :: rest) currentSeed = c :: currentSeed := by
  simp only [gatherDownstream, if_neg h1, if_neg h2]

theorem gatherDownstream_loopSeed :
    gatherDownstream (create 10) TCluster3D.sqrtQ loopSeed.reverse []
      = [clusterAt 3 60 0 0, clusterAt 4 60 0 0, clusterAt 5 60 0 0, clusterAt 6 60 0 0,
          clusterAt 7 60 0 0, clusterAt 8 60 0 0, clusterAt 9 60 0 0, clusterAt 10 60 0 0,
          clusterAt 11 60 0 0, clusterAt 1 0 0 0] := by
  have hrev : loopSeed.reverse
      = [clusterAt 1 0 0 0, clusterAt 11 60 0 0, clusterAt 10 60 0 0, clusterAt 9 60 0 0,
          clusterAt 8 60 0 0, clusterAt 7 60 0 0, clusterAt 6 60 0 0, clusterAt 5 60 0 0,
          clusterAt 4 60 0 0, clusterAt 3 60 0 0, clusterAt 2 1 0 0, clusterAt 1 0 0 0] := rfl
  have hsize : (create 10 : TLinearRoad ℚ).fSeedSize = 10 := rfl
  have hlength : ¬ seedLength TCluster3D.sqrtQ
      [clusterAt 3 60 0 0, clusterAt 4 60 0 0, clusterAt 5 60 0 0, clusterAt 6 60 0 0,
        clusterAt 7 60 0 0, clusterAt 8 60 0 0, clusterAt 9 60 0 0, clusterAt 10 60 0 0,
        clusterAt 11 60 0 0, clusterAt 1 0 0 0] < (create 10 : TLinearRoad ℚ).fSeedLength := by
    have e : seedLength TCluster3D.sqrtQ
        [clusterAt 3 60 0 0, clusterAt 4 60 0 0, clusterAt 5 60 0 0, clusterAt 6 60 0 0,
          clusterAt 7 60 0 0, clusterAt 8 60 0 0, clusterAt 9 60 0 0, clusterAt 10 60 0 0,
          clusterAt 11 60 0 0, clusterAt 1 0 0 0]
        = TVector3.Mag TCluster3D.sqrtQ (TVector3.sub
          (clusterAt 3 (60 : ℚ) 0 0).Position (clusterAt 1 (0 : ℚ) 0 0).Position) := by
      unfold seedLength
      simp only [List.head?_cons, List.getLast?_cons_cons, List.getLast?_singleton]
    have e2 : TVector3.Mag2 (TVector3.sub
        (clusterAt 3 (60 : ℚ) 0 0).Position (clusterAt 1 (0 : ℚ) 0 0).Position) = 3600 := by
      norm_num [clusterAt, TVector3.Mag2, TVector3.sub]
    rw [e, Mag_eq, e2, sqrtQ_3600]
    norm_num [create, unit.cm, unit.mm]
  rw [hrev]
  rw [gatherDownstream_short _ _ _ _ _ (by rw [hsize]; decide)]
  rw [gatherDownstream_short _ _ _ _ _ (by rw [hsize]; decide)]
  rw [gatherDownstream_short _ _ _ _ _ (by rw [hsize]; decide)]
  rw [gatherDownstream_short _ _ _ _ _ (by rw [hsize]; decide)]
  rw [gatherDownstream_short _ _ _ _ _ (by rw [hsize]; decide)]
  rw [gatherDownstream_short _ _ _ _ _ (by rw [hsize]; decide)]
  rw [gatherDownstream_short _ _ _ _ _ (by rw [hsize]; decide)]
  rw [gatherDownstream_short _ _ _ _ _ (by rw [hsize]; decide)]
  rw [gatherDownstream_short _ _ _ _ _ (by rw [hsize]; decide)]
  rw [gatherDownstream_stop _ _ _ _ _ (by rw [hsize]; decide) hlength]
theorem roadLoop_loopSeed :
    roadLoop (create 10) TCluster3D.sqrtQ
        (NextCluster (create 10) TCluster3D.sqrtQ principalId) 5 [] loopSeed
      = some ([], loopTrack) := by
  have e : eraseSeed [clusterAt 3 60 0 0, clusterAt 4 60 0 0, clusterAt 5 60 0 0,
      clusterAt 6 60 0 0, clusterAt 7 60 0 0, clusterAt 8 60 0 0, clusterAt 9 60 0 0,
      clusterAt 10 60 0 0, clusterAt 11 60 0 0, clusterAt 1 0 0 0] loopSeed
      = [clusterAt 2 1 0 0, clusterAt 1 0 0 0] := by
    simp [eraseSeed, loopSeed, clusterAt, List.erase_cons]
  simp only [roadLoop, roadPass_nil, gatherDownstream_loopSeed, e]
  simp [loopSeed, loopTrack]

/-- With empty containers and valid clusters, `Process` is the `do` loop on the copies of
the two inputs. -/
theorem Process_of_roadLoop (road : TLinearRoad K) (sqrt : K → K)
    (next : List (TReconCluster K) → List (TReconCluster K) → Bool → Option (TReconCluster K))
    (hempty : road.fRemainingClusters = [] ∧ road.fOriginalClusters = []
      ∧ road.fTrackClusters = [])
    (seed clusters : List (TReconCluster K))
    (r : List (TReconCluster K) × List (TReconCluster K))
    (h : roadLoop road sqrt next 5 clusters seed = some r) :
    Process road sqrt next (seed.map some) (clusters.map some)
      = some { road with
          fRemainingClusters := r.1
          fOriginalClusters := seed
          fTrackClusters := r.2 } := by
  simp only [Process, hempty.1, hempty.2.1, hempty.2.2, copyClusters_map_some, h,
    List.isEmpty_nil, Bool.not_true, Bool.false_eq_true, if_false]

/-- Counterexample to C27 as stated: for a seed of twelve valid clusters whose first
cluster is also its last, `Process` with empty containers finishes; the track and the
remaining clusters are a permutation of the input, but the downstream search erases the
first occurrence of the repeated cluster, so that the second seed cluster comes before
the first: the seed is not in its order inside the track. -/
theorem repeated_seed_cluster_reordered :
    ∃ st, Process (create 10) TCluster3D.sqrtQ
        (NextCluster (create 10) TCluster3D.sqrtQ principalId) (loopSeed.map some) [] = some st ∧
      st.fTrackClusters = loopTrack ∧ st.fRemainingClusters = [] ∧
      (st.fTrackClusters ++ st.fRemainingClusters).Perm (loopSeed ++ []) ∧
      ¬ loopSeed.Sublist st.fTrackClusters := by
  refine ⟨_, Process_of_roadLoop (create 10) TCluster3D.sqrtQ _ ⟨rfl, rfl, rfl⟩ loopSeed [] _
    roadLoop_loopSeed, rfl, rfl, ?_, ?_⟩
  · simp only [List.append_nil]
    have h : loopTrack = [clusterAt 2 1 0 0, clusterAt 1 0 0 0] ++ loopSeed.drop 2 := rfl
    have h2 : loopSeed = [clusterAt 1 0 0 0, clusterAt 2 1 0 0] ++ loopSeed.drop 2 := rfl
    rw [h]
    nth_rewrite 2 [h2]
    exact List.Perm.append_right _ (List.Perm.swap _ _ _)
  · intro h
    have hlen : loopSeed.length = loopTrack.length := rfl
    have := List.Sublist.eq_of_length h hlen
    simp [loopSeed, loopTrack, clusterAt] at this

/-- C27 (amended): for every seed list and cluster list of valid clusters, when `Process`
is started with empty containers and finishes, the track clusters followed by the
remaining clusters are a permutation of `seed ++ clusters`, whatever `next` selects; and
when no cluster occurs twice in `seed ++ clusters`, the seed clusters keep their order
inside the track.  `Process` finishes when `next` selects among the remaining clusters,
as `NextCluster` does. -/
theorem road_conserves_clusters (road : TLinearRoad K) (sqrt : K → K)
    (next : List (TReconCluster K) → List (TReconCluster K) → Bool → Option (TReconCluster K))
    (seed clusters : List (TReconCluster K))
    (hempty : road.fRemainingClusters = [] ∧ road.fOriginalClusters = []
      ∧ road.fTrackClusters = []) :
    (∀ st, Process road sqrt next (seed.map some) (clusters.map some) = some st →
      (st.fTrackClusters ++ st.fRemainingClusters).Perm (seed ++ clusters) ∧
      ((seed ++ clusters).Nodup → seed.Sublist st.fTrackClusters)) ∧
    ((∀ s r e c, next s r e = some c → c ∈ r) →
      ∃ st, Process road sqrt next (seed.map some) (clusters.map some) = some st) ∧
    (∀ principal : List (TReconCluster K) → TPrincipal K,
      ∃ st, Process road sqrt (NextCluster road sqrt principal) (seed.map some)
        (clusters.map some) = some st) := by
  have hfinish : ∀ next1 : List (TReconCluster K) → List (TReconCluster K) → Bool →
      Option (TReconCluster K), (∀ s r e c, next1 s r e = some c → c ∈ r) →
      ∃ st, Process road sqrt next1 (seed.map some) (clusters.map some) = some st := by
    intro next1 hnext
    obtain ⟨r, hr⟩ := roadLoop_some road sqrt next1 hnext 5 clusters seed
    simp only [Process, hempty.1, hempty.2.1, hempty.2.2, copyClusters_map_some, hr,
      List.isEmpty_nil, Bool.not_true, Bool.false_eq_true, if_false]
    exact ⟨_, rfl⟩
  refine ⟨?_, hfinish next, ?_⟩
  · intro st hst
    simp only [Process, hempty.1, hempty.2.1, hempty.2.2, copyClusters_map_some,
      List.isEmpty_nil, Bool.not_true, Bool.false_eq_true, if_false] at hst
    split at hst
    · simp at hst
    · rename_i remaining1 track1 hloop
      obtain ⟨p1, p2⟩ := roadLoop_spec road sqrt next 5 clusters seed _ hloop
      rw [← Option.some.inj hst]
      refine ⟨p1, ?_⟩
      intro hnodup
      obtain ⟨front, back, e⟩ := p2 hnodup
      show seed.Sublist track1
      simp only at e
      rw [e]
      exact (List.sublist_append_right front seed).trans (List.sublist_append_left _ back)
  · intro principal
    exact hfinish _ (fun s r e c h => NextCluster_mem road sqrt principal s r e c h)

/-- Witness for C27 (amended): the road of the constructor, a seed of three clusters and
one further cluster. -/
theorem road_conserves_clusters_witness :
    ∃ st, Process (create 10) TCluster3D.sqrtQ
      (NextCluster (create 10) TCluster3D.sqrtQ principalId)
      ([clusterAt 1 0 0 0, clusterAt 2 1 0 0, clusterAt 3 (2 : ℚ) 0 0].map some)
      ([clusterAt 4 (3 : ℚ) 0 0].map some) = some st :=
  (road_conserves_clusters (create 10) TCluster3D.sqrtQ
    (NextCluster (create 10) TCluster3D.sqrtQ principalId)
    [clusterAt 1 0 0 0, clusterAt 2 1 0 0, clusterAt 3 (2 : ℚ) 0 0] [clusterAt 4 (3 : ℚ) 0 0]
    ⟨rfl, rfl, rfl⟩).2.1
    (fun s r e c h => NextCluster_mem (create 10) TCluster3D.sqrtQ principalId s r e c h)

/-! ## The passes of the road -/

/-- One pass of the body of the `do` loop does not add remaining clusters and does not
shorten the track. -/
theorem roadPass_lengths (road : TLinearRoad K) (sqrt : K → K)
    (next : List (TReconCluster K) → List (TReconCluster K) → Bool → Option (TReconCluster K))
    (remaining track : List (TReconCluster K))
    (r : List (TReconCluster K) × List (TReconCluster K))
    (h : roadPass road sqrt next remaining track = some r) :
    r.1.length ≤ remaining.length ∧ track.length ≤ r.2.length := by
  have hperm := (roadPass_spec road sqrt next remaining track r h).1.length_eq
  rw [List.length_append, List.length_append] at hperm
  have hrem : r.1.length ≤ remaining.length := by
    simp only [roadPass] at h
    split at h
    · exact absurd h (by simp)
    · rename_i remaining1 upSeed1 track1 hup
      obtain ⟨addedUp, _, u2⟩ := followUpstream_spec road sqrt next _ _ _ _ _ _ rfl hup
      simp only at u2
      split at h
      · exact absurd h (by simp)
      · rename_i remaining2 downSeed1 track3 hdown
        obtain ⟨addedDown, _, d2⟩ := followDownstream_spec road sqrt next _ _ _ _ _ _ rfl hdown
        simp only at d2
        rw [← Option.some.inj h]
        have l1 := u2.length_eq
        have l2 := d2.length_eq
        rw [List.length_append] at l1 l2
        show remaining2.length ≤ remaining.length
        omega
  exact ⟨hrem, by omega⟩

/-- The record of the passes: there are between one and `throttle` passes, the last pass
gives the result of the loop, no pass adds remaining clusters or shortens the track, and
every pass but the last changes the number of track clusters. -/
theorem roadTrace_spec (road : TLinearRoad K) (sqrt : K → K)
    (next : List (TReconCluster K) → List (TReconCluster K) → Bool → Option (TReconCluster K)) :
    ∀ (throttle : Nat) (remaining track : List (TReconCluster K))
      (passes : List (List (TReconCluster K) × List (TReconCluster K))),
      roadTrace road sqrt next throttle remaining track = some passes →
      1 ≤ passes.length ∧ passes.length ≤ max throttle 1 ∧
        roadLoop road sqrt next throttle remaining track = passes.getLast? ∧
        List.Chain (fun a b => a.2.length ≤ b.2.length ∧ b.1.length ≤ a.1.length)
          (remaining, track) passes ∧
        List.Chain (fun a b => a.2.length ≠ b.2.length) (remaining, track) passes.dropLast := by
  intro throttle
  induction throttle with
  | zero =>
    intro remaining track passes h
    simp only [roadTrace] at h
    split at h
    · exact absurd h (by simp)
    · rename_i r hpass
      rw [← Option.some.inj h]
      obtain ⟨l1, l2⟩ := roadPass_lengths road sqrt next remaining track r hpass
      refine ⟨le_refl 1, le_refl 1, ?_, ?_, ?_⟩
      · simp only [roadLoop, hpass, List.getLast?_singleton]
      · exact List.Chain.cons ⟨l2, l1⟩ List.Chain.nil
      · exact List.Chain.nil
  | succ n ih =>
    intro remaining track passes h
    simp only [roadTrace] at h
    split at h
    · exact absurd h (by simp)
    · rename_i remaining1 track1 hpass
      obtain ⟨l1, l2⟩ := roadPass_lengths road sqrt next remaining track _ hpass
      simp only at l1 l2
      split_ifs at h with hc
      · split at h
        · exact absurd h (by simp)
        · rename_i rest hrest
          obtain ⟨i1, i2, i3, i4, i5⟩ := ih remaining1 track1 rest hrest
          rw [← Option.some.inj h]
          have hne : rest ≠ [] := by
            intro e
            rw [e] at i1
            simp at i1
          refine ⟨by simp, ?_, ?_, ?_, ?_⟩
          · rw [List.length_cons]
            have := hc.2
            omega
          · simp only [roadLoop, hpass, if_pos hc]
            rw [i3]
            obtain ⟨p, rest1, e⟩ := List.exists_cons_of_ne_nil hne
            rw [e, List.getLast?_cons_cons]
          · exact List.Chain.cons ⟨l2, l1⟩ i4
          · rw [List.dropLast_cons_of_ne_nil hne]
            exact List.Chain.cons hc.1 i5
      · rw [← Option.some.inj h]
        refine ⟨le_refl 1, by simp, ?_, ?_, ?_⟩
        · simp only [roadLoop, hpass, if_neg hc, List.getLast?_singleton]
        · exact List.Chain.cons ⟨l2, l1⟩ List.Chain.nil
        · exact List.Chain.nil
/-- The record of the passes exists when `next` returns remaining clusters only. -/
theorem roadTrace_some (road : TLinearRoad K) (sqrt : K → K)
    (next : List (TReconCluster K) → List (TReconCluster K) → Bool → Option (TReconCluster K))
    (hnext : ∀ s r e c, next s r e = some c → c ∈ r) :
    ∀ (throttle : Nat) (remaining track : List (TReconCluster K)),
      ∃ passes, roadTrace road sqrt next throttle remaining track = some passes := by
  intro throttle
  induction throttle with
  | zero =>
    intro remaining track
    obtain ⟨r1, h1⟩ := roadPass_some road sqrt next hnext remaining track
    simp only [roadTrace, h1]
    exact ⟨_, rfl⟩
  | succ n ih =>
    intro remaining track
    obtain ⟨r1, h1⟩ := roadPass_some road sqrt next hnext remaining track
    simp only [roadTrace, h1]
    split_ifs
    · obtain ⟨rest, hrest⟩ := ih r1.1 r1.2
      rw [hrest]
      exact ⟨_, rfl⟩
    · exact ⟨_, rfl⟩

/-- A pass of the upstream search that goes on takes one cluster from the remaining
clusters. -/
theorem followUpstream_step (road : TLinearRoad K) (sqrt : K → K)
    (next : List (TReconCluster K) → List (TReconCluster K) → Bool → Option (TReconCluster K))
    (remaining currentSeed track : List (TReconCluster K)) (collected : Int)
    (cluster : TReconCluster K)
    (hloop : ¬ (remaining.isEmpty ∨ currentSeed.length ≤ 2))
    (hn : next currentSeed remaining false = some cluster) (hm : cluster ∈ remaining)
    (hc : ¬ collected + 1 > road.fMaxClusters) :
    followUpstream road sqrt next remaining currentSeed track collected
        = followUpstream road sqrt next (remaining.erase cluster)
            (popBack road sqrt (cluster :: currentSeed) track).1
            (popBack road sqrt (cluster :: currentSeed) track).2 (collected + 1) ∧
      (remaining.erase cluster).length + 1 = remaining.length := by
  constructor
  · conv_lhs => rw [followUpstream]
    rw [if_neg hloop, hn]
    simp only [dif_pos hm, if_neg hc]
  · rw [List.length_erase_of_mem hm]
    exact Nat.succ_pred_eq_of_pos (List.length_pos_of_mem hm)

/-- A pass of the downstream search that goes on takes one cluster from the remaining
clusters. -/
theorem followDownstream_step (road : TLinearRoad K) (sqrt : K → K)
    (next : List (TReconCluster K) → List (TReconCluster K) → Bool → Option (TReconCluster K))
    (remaining currentSeed track : List (TReconCluster K)) (collected : Int)
    (cluster : TReconCluster K)
    (hloop : ¬ (remaining.isEmpty ∨ currentSeed.length ≤ 2))
    (hn : next currentSeed remaining true = some cluster) (hm : cluster ∈ remaining)
    (hc : ¬ collected + 1 > road.fMaxClusters) :
    followDownstream road sqrt next remaining currentSeed track collected
        = followDownstream road sqrt next (remaining.erase cluster)
            (popFront road sqrt (currentSeed ++ [cluster]) track).1
            (popFront road sqrt (currentSeed ++ [cluster]) track).2 (collected + 1) ∧
      (remaining.erase cluster).length + 1 = remaining.length := by
  constructor
  · conv_lhs => rw [followDownstream]
    rw [if_neg hloop, hn]
    simp only [dif_pos hm, if_neg hc]
  · rw [List.length_erase_of_mem hm]
    exact Nat.succ_pred_eq_of_pos (List.length_pos_of_mem hm)

/-- The loop over `q` never ends for the energy deposit `+inf`. -/
theorem rowLoop_pinf (fl : K → K) (row1 row2 row3 : TVector3 K) :
    ∀ (fuel : Nat) (rows : List (TVector3 K)),
      rowLoop fl row1 row2 row3 fuel Double.pinf rows = none := by
  intro fuel
  induction fuel with
  | zero =>
    intro rows
    rfl
  | succ n ih =>
    intro rows
    simp only [rowLoop, Double.gt, if_true, Double.sub, Double.neg, Double.add, Double.round]
    exact ih _

/-- The loop over `q` ends within `n + 1` tests for a number that is at most `n * d`, when
each subtraction lowers a positive number up to `E` by at least `d`. -/
theorem rowLoop_num (fl : K → K) (E d : K)
    (hfl : ∀ q : K, 0 < q → q ≤ E → fl (q - 1000) ≤ q - d)
    (row1 row2 row3 : TVector3 K) :
    ∀ (n : Nat) (x : K) (rows : List (TVector3 K)), x ≤ E → x ≤ n * d →
      ∃ out, rowLoop fl row1 row2 row3 (n + 1) (Double.num x) rows = some out := by
  intro n
  induction n with
  | zero =>
    intro x rows _ hx
    have h0 : ¬ x > 0 := by
      simp only [Nat.cast_zero, zero_mul] at hx
      exact not_lt.mpr hx
    simp only [rowLoop, Double.gt, decide_eq_false h0]
    exact ⟨rows, rfl⟩
  | succ n ih =>
    intro x rows hE hx
    by_cases h0 : x > 0
    · have hstep := hfl x h0 hE
      have e : x + -1000 = x - 1000 := (sub_eq_add_neg x 1000).symm
      simp only [rowLoop, Double.gt, decide_eq_true h0, if_true, Double.sub, Double.neg,
        Double.add, Double.round, e]
      apply ih
      · have hd : 0 < d := by
          by_contra hnd
          have hd0 : d ≤ 0 := not_lt.mp hnd
          have h1 : ((n + 1 : ℕ) : K) * d ≤ 0 :=
            mul_nonpos_of_nonneg_of_nonpos (Nat.cast_nonneg _) hd0
          linarith
        linarith
      · have h1 : ((n + 1 : ℕ) : K) * d = n * d + d := by
          push_cast
          ring
        linarith
    · simp only [rowLoop, Double.gt, decide_eq_false h0]
      exact ⟨rows, rfl⟩

/-- The loop over `q` ends within `N + 1` tests for an energy deposit that is not above
`E`. -/
theorem rowLoop_some (fl : K → K) (E d : K) (N : Nat) (hN : E ≤ N * d)
    (hfl : ∀ q : K, 0 < q → q ≤ E → fl (q - 1000) ≤ q - d)
    (row1 row2 row3 : TVector3 K) (q : Double K) (rows : List (TVector3 K))
    (hq : Double.gt q (.num E) = false) :
    ∃ out, rowLoop fl row1 row2 row3 (N + 1) q rows = some out := by
  cases q with
  | num x =>
    have hx : x ≤ E := by
      simp only [Double.gt, decide_eq_false_iff_not, gt_iff_lt, not_lt] at hq
      exact hq
    exact rowLoop_num fl E d hfl row1 row2 row3 N x rows hx (le_trans hx hN)
  | pinf => simp [Double.gt] at hq
  | ninf => exact ⟨rows, by simp [rowLoop, Double.gt]⟩
  | nan => exact ⟨rows, by simp [rowLoop, Double.gt]⟩

/-- The rows of a seed are added within the fuel `N + 1` when no energy deposit of the seed
is above `E`. -/
theorem seedRows_some (fl : K → K) (E d : K) (N : Nat) (hN : E ≤ N * d)
    (hfl : ∀ q : K, 0 < q → q ≤ E → fl (q - 1000) ≤ q - d) :
    ∀ (seed : List (TReconCluster K)) (rows : List (TVector3 K)),
      (∀ c ∈ seed, Double.gt c.EDeposit (.num E) = false) →
      ∃ out, seedRows fl (N + 1) seed rows = some out := by
  intro seed
  induction seed with
  | nil =>
    intro rows _
    exact ⟨rows, rfl⟩
  | cons s rest ih =>
    intro rows h
    obtain ⟨rows1, h1⟩ := rowLoop_some fl E d N hN hfl (s.Position.sub s.LongAxis) s.Position
      (s.Position.add s.LongAxis) s.EDeposit rows (h s (List.mem_cons_self _ _))
    simp only [seedRows, h1]
    exact ih rows1 (fun c hc => h c (List.mem_cons_of_mem _ hc))

/-- The rows of a seed with a cluster of energy deposit `+inf` are not added within any
fuel. -/
theorem seedRows_pinf (fl : K → K) (fuel : Nat) :
    ∀ (seed : List (TReconCluster K)) (rows : List (TVector3 K)),
      (∃ c ∈ seed, c.EDeposit = Double.pinf) → seedRows fl fuel seed rows = none := by
  intro seed
  induction seed with
  | nil =>
    intro rows h
    obtain ⟨c, hc, _⟩ := h
    exact absurd hc (List.not_mem_nil c)
  | cons s rest ih =>
    intro rows h
    simp only [seedRows]
    cases h1 : rowLoop fl (s.Position.sub s.LongAxis) s.Position (s.Position.add s.LongAxis)
        fuel s.EDeposit rows with
    | none => rfl
    | some rows1 =>
      obtain ⟨c, hc, hinf⟩ := h
      rcases List.mem_cons.1 hc with e | hrest
      · rw [← e, hinf, rowLoop_pinf] at h1
        exact absurd h1 (by simp)
      · exact ih rows1 ⟨c, hrest, hinf⟩

/-- The method `NextCluster` with its loop over the rows returns the handle of
`NextCluster` for the principal components of the rows, when it returns within the
fuel. -/
theorem NextClusterWithin_eq (fuel : Nat) (road : TLinearRoad K) (sqrt : K → K) (fl : K → K)
    (MakePrincipals : List (TVector3 K) → TPrincipal K) (seed clusters : List (TReconCluster K))
    (extendBack : Bool) (rows : List (TVector3 K)) (h : seedRows fl fuel seed [] = some rows) :
    NextClusterWithin fuel road sqrt fl MakePrincipals seed clusters extendBack
      = some (NextCluster road sqrt
          (fun s => MakePrincipals ((seedRows fl fuel s []).getD [])) seed clusters
          extendBack) := by
  simp only [NextClusterWithin, h, NextCluster, Option.getD_some]

theorem NextClusterWithin_mem (fuel : Nat) (road : TLinearRoad K) (sqrt : K → K) (fl : K → K)
    (MakePrincipals : List (TVector3 K) → TPrincipal K) (seed clusters : List (TReconCluster K))
    (extendBack : Bool) (c : TReconCluster K)
    (h : NextClusterWithin fuel road sqrt fl MakePrincipals seed clusters extendBack
      = some (some c)) : c ∈ clusters := by
  unfold NextClusterWithin at h
  split at h
  · exact absurd h (by simp)
  · rename_i rows _
    exact NextCluster_mem road sqrt _ seed clusters extendBack c
      (Option.some.inj h)

theorem eraseSeed_subset (currentSeed track : List (TReconCluster K)) :
    eraseSeed currentSeed track ⊆ track := by
  rw [eraseSeed_eq_diff]
  exact List.diff_subset _ _

/-- The upstream search with a method that returns on the seeds of clusters with the
property `P` is the upstream search of `followUpstream`. -/
theorem followUpstreamWithin_eq (road : TLinearRoad K) (sqrt : K → K)
    (P : TReconCluster K → Prop)
    (nextW : List (TReconCluster K) → List (TReconCluster K) → Bool →
      Option (Option (TReconCluster K)))
    (next : List (TReconCluster K) → List (TReconCluster K) → Bool → Option (TReconCluster K))
    (hagree : ∀ s r e, (∀ c ∈ s, P c) → nextW s r e = some (next s r e)) :
    ∀ (n : Nat) (remaining currentSeed track : List (TReconCluster K)) (collected : Int),
      remaining.length = n → (∀ c ∈ currentSeed, P c) → (∀ c ∈ track, P c) →
      (∀ c ∈ remaining, P c) →
      followUpstreamWithin road sqrt nextW remaining currentSeed track collected
        = some (followUpstream road sqrt next remaining currentSeed track collected) := by
  intro n
  induction n with
  | zero =>
    intro remaining currentSeed track collected hlen _ _ _
    rw [List.length_eq_zero.1 hlen, followUpstreamWithin, followUpstream]
    have c0 : ([] : List (TReconCluster K)).isEmpty = true ∨ currentSeed.length ≤ 2 :=
      Or.inl rfl
    rw [if_pos c0, if_pos c0]
  | succ n ih =>
    intro remaining currentSeed track collected hlen hs ht hr
    rw [followUpstreamWithin, followUpstream]
    by_cases c1 : remaining.isEmpty ∨ currentSeed.length ≤ 2
    · rw [if_pos c1, if_pos c1]
    · rw [if_neg c1, if_neg c1, hagree _ _ _ hs]
      cases hn : next currentSeed remaining false with
      | none => rfl
      | some cluster =>
        by_cases hm : cluster ∈ remaining
        · simp only [dif_pos hm]
          by_cases hc : collected + 1 > road.fMaxClusters
          · rw [if_pos hc, if_pos hc]
          · rw [if_neg hc, if_neg hc]
            have hpop := popBack_append road sqrt _ (cluster :: currentSeed) track rfl
            have hall : ∀ c ∈ (popBack road sqrt (cluster :: currentSeed) track).1
                ++ (popBack road sqrt (cluster :: currentSeed) track).2, P c := by
              rw [hpop]
              intro c hc1
              rcases List.mem_append.1 hc1 with h1 | h1
              · rcases List.mem_cons.1 h1 with e | h2
                · rw [e]
                  exact hr _ hm
                · exact hs _ h2
              · exact ht _ h1
            exact ih _ _ _ _ (by rw [List.length_erase_of_mem hm, hlen]; rfl)
              (fun c hc1 => hall c (List.mem_append_left _ hc1))
              (fun c hc1 => hall c (List.mem_append_right _ hc1))
              (fun c hc1 => hr c (List.mem_of_mem_erase hc1))
        · simp only [dif_neg hm]

/-- The downstream search with a method that returns on the seeds of clusters with the
property `P` is the downstream search of `followDownstream`. -/
theorem followDownstreamWithin_eq (road : TLinearRoad K) (sqrt : K → K)
    (P : TReconCluster K → Prop)
    (nextW : List (TReconCluster K) → List (TReconCluster K) → Bool →
      Option (Option (TReconCluster K)))
    (next : List (TReconCluster K) → List (TReconCluster K) → Bool → Option (TReconCluster K))
    (hagree : ∀ s r e, (∀ c ∈ s, P c) → nextW s r e = some (next s r e)) :
    ∀ (n : Nat) (remaining currentSeed track : List (TReconCluster K)) (collected : Int),
      remaining.length = n → (∀ c ∈ currentSeed, P c) → (∀ c ∈ track, P c) →
      (∀ c ∈ remaining, P c) →
      followDownstreamWithin road sqrt nextW remaining currentSeed track collected
        = some (followDownstream road sqrt next remaining currentSeed track collected) := by
  intro n
  induction n with
  | zero =>
    intro remaining currentSeed track collected hlen _ _ _
    rw [List.length_eq_zero.1 hlen, followDownstreamWithin, followDownstream]
    have c0 : ([] : List (TReconCluster K)).isEmpty = true ∨ currentSeed.length ≤ 2 :=
      Or.inl rfl
    rw [if_pos c0, if_pos c0]
  | succ n ih =>
    intro remaining currentSeed track collected hlen hs ht hr
    rw [followDownstreamWithin, followDownstream]
    by_cases c1 : remaining.isEmpty ∨ currentSeed.length ≤ 2
    · rw [if_pos c1, if_pos c1]
    · rw [if_neg c1, if_neg c1, hagree _ _ _ hs]
      cases hn : next currentSeed remaining true with
      | none => rfl
      | some cluster =>
        by_cases hm : cluster ∈ remaining
        · simp only [dif_pos hm]
          by_cases hc : collected + 1 > road.fMaxClusters
          · rw [if_pos hc, if_pos hc]
          · rw [if_neg hc, if_neg hc]
            have hpop := popFront_append road sqrt (currentSeed ++ [cluster]) track
            have hall : ∀ c ∈ (popFront road sqrt (currentSeed ++ [cluster]) track).2
                ++ (popFront road sqrt (currentSeed ++ [cluster]) track).1, P c := by
              rw [hpop]
              intro c hc1
              rcases List.mem_append.1 hc1 with h1 | h1
              · exact ht _ h1
              · rcases List.mem_append.1 h1 with h2 | h2
                · exact hs _ h2
                · rw [List.mem_singleton.1 h2]
                  exact hr _ hm
            exact ih _ _ _ _ (by rw [List.length_erase_of_mem hm, hlen]; rfl)
              (fun c hc1 => hall c (List.mem_append_right _ hc1))
              (fun c hc1 => hall c (List.mem_append_left _ hc1))
              (fun c hc1 => hr c (List.mem_of_mem_erase hc1))
        · simp only [dif_neg hm]

/-- One pass of the body of the `do` loop with a method that returns on the seeds of
clusters with the property `P` is the pass of `roadPass`. -/
theorem roadPassWithin_eq (road : TLinearRoad K) (sqrt : K → K)
    (P : TReconCluster K → Prop)
    (nextW : List (TReconCluster K) → List (TReconCluster K) → Bool →
      Option (Option (TReconCluster K)))
    (next : List (TReconCluster K) → List (TReconCluster K) → Bool → Option (TReconCluster K))
    (hagree : ∀ s r e, (∀ c ∈ s, P c) → nextW s r e = some (next s r e))
    (remaining track : List (TReconCluster K))
    (ht : ∀ c ∈ track, P c) (hr : ∀ c ∈ remaining, P c) :
    roadPassWithin road sqrt nextW remaining track
      = some (roadPass road sqrt next remaining track) := by
  obtain ⟨rest, hrest⟩ := gatherUpstream_front road sqrt track []
  rw [List.nil_append] at hrest
  have hup : ∀ c ∈ gatherUpstream road sqrt track [], P c := by
    intro c hc
    apply ht
    rw [hrest]
    exact List.mem_append_left _ hc
  have hupe : ∀ c ∈ eraseSeed (gatherUpstream road sqrt track []) track, P c :=
    fun c hc => ht c (eraseSeed_subset _ _ hc)
  simp only [roadPassWithin, roadPass]
  rw [followUpstreamWithin_eq road sqrt P nextW next hagree _ _ _ _ _ rfl hup hupe hr]
  cases h1 : followUpstream road sqrt next remaining (gatherUpstream road sqrt track [])
      (eraseSeed (gatherUpstream road sqrt track []) track) 0 with
  | none => rfl
  | some r1 =>
    obtain ⟨remaining1, upSeed1, track1⟩ := r1
    obtain ⟨added, u1, u2⟩ := followUpstream_spec road sqrt next _ _ _ _ _ _ rfl h1
    simp only at u1 u2
    have hr1 : ∀ c ∈ remaining1, P c :=
      fun c hc => hr c (u2.subset (List.mem_append_right _ hc))
    have ht2 : ∀ c ∈ upSeed1.foldr (fun c track => c :: track) track1, P c := by
      intro c hc
      rw [foldr_push_front, u1] at hc
      rcases List.mem_append.1 hc with h2 | h2
      · exact hr c (u2.subset (List.mem_append_left _ h2))
      · rcases List.mem_append.1 h2 with h3 | h3
        · exact hup c h3
        · exact hupe c h3
    obtain ⟨pre, hpre⟩ := gatherDownstream_suffix road sqrt
      (upSeed1.foldr (fun c track => c :: track) track1).reverse []
    rw [List.reverse_reverse, List.append_nil] at hpre
    have hdown : ∀ c ∈ gatherDownstream road sqrt
        (upSeed1.foldr (fun c track => c :: track) track1).reverse [], P c := by
      intro c hc
      apply ht2
      rw [hpre]
      exact List.mem_append_right _ hc
    have hdowne : ∀ c ∈ eraseSeed (gatherDownstream road sqrt
        (upSeed1.foldr (fun c track => c :: track) track1).reverse [])
        (upSeed1.foldr (fun c track => c :: track) track1), P c :=
      fun c hc => ht2 c (eraseSeed_subset _ _ hc)
    simp only
    rw [followDownstreamWithin_eq road sqrt P nextW next hagree _ _ _ _ _ rfl hdown hdowne hr1]
    cases h2 : followDownstream road sqrt next remaining1
        (gatherDownstream road sqrt
          (upSeed1.foldr (fun c track => c :: track) track1).reverse [])
        (eraseSeed (gatherDownstream road sqrt
          (upSeed1.foldr (fun c track => c :: track) track1).reverse [])
          (upSeed1.foldr (fun c track => c :: track) track1)) 0 with
    | none => rfl
    | some r2 => rfl

/-- The `do` loop with a method that returns on the seeds of clusters with the property `P`
is the loop of `roadLoop`. -/
theorem roadLoopWithin_eq (road : TLinearRoad K) (sqrt : K → K)
    (P : TReconCluster K → Prop)
    (nextW : List (TReconCluster K) → List (TReconCluster K) → Bool →
      Option (Option (TReconCluster K)))
    (next : List (TReconCluster K) → List (TReconCluster K) → Bool → Option (TReconCluster K))
    (hagree : ∀ s r e, (∀ c ∈ s, P c) → nextW s r e = some (next s r e)) :
    ∀ (throttle : Nat) (remaining track : List (TReconCluster K)),
      (∀ c ∈ track, P c) → (∀ c ∈ remaining, P c) →
      roadLoopWithin road sqrt nextW throttle remaining track
        = some (roadLoop road sqrt next throttle remaining track) := by
  intro throttle
  induction throttle with
  | zero =>
    intro remaining track ht hr
    exact roadPassWithin_eq road sqrt P nextW next hagree remaining track ht hr
  | succ n ih =>
    intro remaining track ht hr
    simp only [roadLoopWithin, roadLoop]
    rw [roadPassWithin_eq road sqrt P nextW next hagree remaining track ht hr]
    cases h1 : roadPass road sqrt next remaining track with
    | none => rfl
    | some r1 =>
      obtain ⟨remaining1, track1⟩ := r1
      obtain ⟨p1, _⟩ := roadPass_spec road sqrt next remaining track _ h1
      simp only at p1
      have hall : ∀ c ∈ track1 ++ remaining1, P c := by
        intro c hc
        rcases List.mem_append.1 (p1.subset hc) with h2 | h2
        · exact ht c h2
        · exact hr c h2
      simp only
      split_ifs
      · exact ih remaining1 track1 (fun c hc => hall c (List.mem_append_left _ hc))
          (fun c hc => hall c (List.mem_append_right _ hc))
      · rfl

/-- The record of the passes with a method that returns on the seeds of clusters with the
property `P` is the record of `roadTrace`. -/
theorem roadTraceWithin_eq (road : TLinearRoad K) (sqrt : K → K)
    (P : TReconCluster K → Prop)
    (nextW : List (TReconCluster K) → List (TReconCluster K) → Bool →
      Option (Option (TReconCluster K)))
    (next : List (TReconCluster K) → List (TReconCluster K) → Bool → Option (TReconCluster K))
    (hagree : ∀ s r e, (∀ c ∈ s, P c) → nextW s r e = some (next s r e)) :
    ∀ (throttle : Nat) (remaining track : List (TReconCluster K)),
      (∀ c ∈ track, P c) → (∀ c ∈ remaining, P c) →
      roadTraceWithin road sqrt nextW throttle remaining track
        = some (roadTrace road sqrt next throttle remaining track) := by
  intro throttle
  induction throttle with
  | zero =>
    intro remaining track ht hr
    simp only [roadTraceWithin, roadTrace]
    rw [roadPassWithin_eq road sqrt P nextW next hagree remaining track ht hr]
    cases h1 : roadPass road sqrt next remaining track with
    | none => rfl
    | some r1 => rfl
  | succ n ih =>
    intro remaining track ht hr
    simp only [roadTraceWithin, roadTrace]
    rw [roadPassWithin_eq road sqrt P nextW next hagree remaining track ht hr]
    cases h1 : roadPass road sqrt next remaining track with
    | none => rfl
    | some r1 =>
      obtain ⟨remaining1, track1⟩ := r1
      obtain ⟨p1, _⟩ := roadPass_spec road sqrt next remaining track _ h1
      simp only at p1
      have hall : ∀ c ∈ track1 ++ remaining1, P c := by
        intro c hc
        rcases List.mem_append.1 (p1.subset hc) with h2 | h2
        · exact ht c h2
        · exact hr c h2
      simp only
      split_ifs
      · rw [ih remaining1 track1 (fun c hc => hall c (List.mem_append_left _ hc))
          (fun c hc => hall c (List.mem_append_right _ hc))]
        cases h2 : roadTrace road sqrt next n remaining1 track1 with
        | none => rfl
        | some passes => rfl
      · rfl

/-- The method `Process` with a method `next` that returns in its loop is `Process`. -/
theorem ProcessWithin_of_roadLoop (road : TLinearRoad K) (sqrt : K → K)
    (nextW : List (TReconCluster K) → List (TReconCluster K) → Bool →
      Option (Option (TReconCluster K)))
    (next : List (TReconCluster K) → List (TReconCluster K) → Bool → Option (TReconCluster K))
    (seed clusters : List (TReconCluster K))
    (h : roadLoopWithin road sqrt nextW 5 clusters seed
      = some (roadLoop road sqrt next 5 clusters seed)) :
    ProcessWithin road sqrt nextW (seed.map some) (clusters.map some)
      = some (Process road sqrt next (seed.map some) (clusters.map some)) := by
  unfold ProcessWithin Process
  split_ifs
  · rfl
  · rfl
  · rfl
  · simp only [copyClusters_map_some, h]
    cases h1 : roadLoop road sqrt next 5 clusters seed with
    | none => rfl
    | some r => rfl

/-- The method `Process` does not return when the first call of `NextCluster` does not. -/
theorem ProcessWithin_none (road : TLinearRoad K) (sqrt : K → K)
    (nextW : List (TReconCluster K) → List (TReconCluster K) → Bool →
      Option (Option (TReconCluster K)))
    (seed clusters : List (TReconCluster K))
    (hempty : road.fRemainingClusters = [] ∧ road.fOriginalClusters = []
      ∧ road.fTrackClusters = [])
    (hloop : ¬ (clusters.isEmpty ∨ (gatherUpstream road sqrt seed []).length ≤ 2))
    (hnone : nextW (gatherUpstream road sqrt seed []) clusters false = none) :
    ProcessWithin road sqrt nextW (seed.map some) (clusters.map some) = none := by
  have hup : followUpstreamWithin road sqrt nextW clusters (gatherUpstream road sqrt seed [])
      (eraseSeed (gatherUpstream road sqrt seed []) seed) 0 = none := by
    rw [followUpstreamWithin, if_neg hloop, hnone]
  have hpass : roadPassWithin road sqrt nextW clusters seed = none := by
    simp only [roadPassWithin, hup]
  obtain ⟨e1, e2, e3⟩ := hempty
  simp only [ProcessWithin, e1, e2, e3, List.isEmpty_nil, Bool.not_true, Bool.false_eq_true,
    if_false, copyClusters_map_some, roadLoopWithin, hpass]

theorem gatherUpstream_small (road : TLinearRoad K) (sqrt : K → K) :
    ∀ (track currentSeed : List (TReconCluster K)),
      currentSeed.length + track.length < road.fSeedSize →
      gatherUpstream road sqrt track currentSeed = currentSeed ++ track := by
  intro track
  induction track with
  | nil =>
    intro currentSeed _
    simp [gatherUpstream]
  | cons c rest ih =>
    intro currentSeed h
    have h1 : (currentSeed ++ [c]).length < road.fSeedSize := by
      simp only [List.length_append, List.length_cons, List.length_nil] at h ⊢
      omega
    simp only [gatherUpstream, if_pos h1]
    rw [ih]
    · simp
    · simp only [List.length_append, List.length_cons, List.length_nil] at h ⊢
      omega

/-- Counterexample to C32 as stated: for the seed of three clusters whose second cluster
has the energy deposit `+inf`, one further cluster and the road of the constructor, the
first pass calls `NextCluster` on the seed, the loop over `q` of the second cluster does not
end within any fuel, and neither `NextCluster` nor `Process` returns. -/
theorem infinite_deposit_never_returns :
    gatherUpstream (create 10) TCluster3D.sqrtQ infiniteSeed [] = infiniteSeed ∧
      ¬ ([clusterAt 4 (3 : ℚ) 0 0].isEmpty ∨ infiniteSeed.length ≤ 2) ∧
      (∀ (fuel : Nat) (row1 row2 row3 : TVector3 ℚ) (rows : List (TVector3 ℚ)),
        rowLoop id row1 row2 row3 fuel Double.pinf rows = none) ∧
      (∀ fuel : Nat, NextClusterWithin fuel (create 10) TCluster3D.sqrtQ id principalRows
        infiniteSeed [clusterAt 4 (3 : ℚ) 0 0] false = none) ∧
      ∀ fuel : Nat, ProcessWithin (create 10) TCluster3D.sqrtQ
        (NextClusterWithin fuel (create 10) TCluster3D.sqrtQ id principalRows)
        (infiniteSeed.map some) ([clusterAt 4 (3 : ℚ) 0 0].map some) = none := by
  have hg : gatherUpstream (create 10) TCluster3D.sqrtQ infiniteSeed [] = infiniteSeed := by
    rw [gatherUpstream_small]
    · rfl
    · decide
  have hl : ¬ ([clusterAt 4 (3 : ℚ) 0 0].isEmpty ∨ infiniteSeed.length ≤ 2) := by
    decide
  have hn : ∀ fuel : Nat, NextClusterWithin fuel (create 10) TCluster3D.sqrtQ id principalRows
      infiniteSeed [clusterAt 4 (3 : ℚ) 0 0] false = none := by
    intro fuel
    have hrows := seedRows_pinf (id : ℚ → ℚ) fuel infiniteSeed []
      ⟨{ clusterAt 2 1 0 0 with EDeposit := .pinf }, by simp [infiniteSeed], rfl⟩
    simp only [NextClusterWithin, hrows]
  refine ⟨hg, hl, fun fuel row1 row2 row3 rows => rowLoop_pinf id row1 row2 row3 fuel rows,
    hn, ?_⟩
  intro fuel
  apply ProcessWithin_none _ _ _ infiniteSeed [clusterAt 4 (3 : ℚ) 0 0] ⟨rfl, rfl, rfl⟩
  · rw [hg]
    exact hl
  · rw [hg]
    exact hn fuel

/-- C32 (amended): when no cluster of the seed and of the cluster list has an energy
deposit above a bound `E` (so none is `+inf`), and subtracting 1000 from a positive
`double` up to `E` lowers it by at least `d`, with `E ≤ N * d`, then `Process` with empty
containers returns, every call of `NextCluster` having its loops over `q` end within
`N + 1` tests.  Its `do` loop makes between one and five passes and stops after the first
pass that leaves the number of track clusters unchanged; from pass to pass the number of
track clusters does not decrease and the number of remaining clusters does not increase; and
each pass of a follow loop that goes on has one remaining cluster less. -/
theorem road_terminates (road : TLinearRoad K) (sqrt : K → K) (fl : K → K)
    (MakePrincipals : List (TVector3 K) → TPrincipal K)
    (seed clusters : List (TReconCluster K)) (E d : K) (N : Nat)
    (hempty : road.fRemainingClusters = [] ∧ road.fOriginalClusters = []
      ∧ road.fTrackClusters = [])
    (hN : E ≤ N * d)
    (hfl : ∀ q : K, 0 < q → q ≤ E → fl (q - 1000) ≤ q - d)
    (hdep : ∀ c ∈ seed ++ clusters, Double.gt c.EDeposit (.num E) = false) :
    (∃ st passes,
      ProcessWithin road sqrt (NextClusterWithin (N + 1) road sqrt fl MakePrincipals)
        (seed.map some) (clusters.map some) = some (some st) ∧
      roadTraceWithin road sqrt (NextClusterWithin (N + 1) road sqrt fl MakePrincipals) 5
        clusters seed = some (some passes) ∧
      passes.getLast? = some (st.fRemainingClusters, st.fTrackClusters) ∧
      1 ≤ passes.length ∧ passes.length ≤ 5 ∧
      List.Chain (fun a b => a.2.length ≤ b.2.length ∧ b.1.length ≤ a.1.length)
        (clusters, seed) passes ∧
      List.Chain (fun a b => a.2.length ≠ b.2.length) (clusters, seed) passes.dropLast) ∧
    (∀ (remaining currentSeed track : List (TReconCluster K)) (collected : Int)
      (cluster : TReconCluster K) (extendBack : Bool),
      ¬ (remaining.isEmpty ∨ currentSeed.length ≤ 2) →
      NextClusterWithin (N + 1) road sqrt fl MakePrincipals currentSeed remaining extendBack
        = some (some cluster) →
      ¬ collected + 1 > road.fMaxClusters →
      (remaining.erase cluster).length + 1 = remaining.length ∧
      (extendBack = false →
        followUpstreamWithin road sqrt (NextClusterWithin (N + 1) road sqrt fl MakePrincipals)
            remaining currentSeed track collected
          = followUpstreamWithin road sqrt
              (NextClusterWithin (N + 1) road sqrt fl MakePrincipals) (remaining.erase cluster)
              (popBack road sqrt (cluster :: currentSeed) track).1
              (popBack road sqrt (cluster :: currentSeed) track).2 (collected + 1)) ∧
      (extendBack = true →
        followDownstreamWithin road sqrt (NextClusterWithin (N + 1) road sqrt fl MakePrincipals)
            remaining currentSeed track collected
          = followDownstreamWithin road sqrt
              (NextClusterWithin (N + 1) road sqrt fl MakePrincipals) (remaining.erase cluster)
              (popFront road sqrt (currentSeed ++ [cluster]) track).1
              (popFront road sqrt (currentSeed ++ [cluster]) track).2 (collected + 1))) := by
  have hagree : ∀ s r e, (∀ c ∈ s, Double.gt c.EDeposit (.num E) = false) →
      NextClusterWithin (N + 1) road sqrt fl MakePrincipals s r e
        = some (NextCluster road sqrt
            (fun s => MakePrincipals ((seedRows fl (N + 1) s []).getD [])) s r e) := by
    intro s r e hs
    obtain ⟨rows, hrows⟩ := seedRows_some fl E d N hN hfl s [] hs
    exact NextClusterWithin_eq (N + 1) road sqrt fl MakePrincipals s r e rows hrows
  have hnext : ∀ s r e c, NextCluster road sqrt
      (fun s => MakePrincipals ((seedRows fl (N + 1) s []).getD [])) s r e = some c → c ∈ r :=
    fun s r e c h => NextCluster_mem road sqrt _ s r e c h
  have hseed : ∀ c ∈ seed, Double.gt c.EDeposit (.num E) = false :=
    fun c hc => hdep c (List.mem_append_left _ hc)
  have hclusters : ∀ c ∈ clusters, Double.gt c.EDeposit (.num E) = false :=
    fun c hc => hdep c (List.mem_append_right _ hc)
  constructor
  · obtain ⟨passes, hp⟩ := roadTrace_some road sqrt _ hnext 5 clusters seed
    obtain ⟨i1, i2, i3, i4, i5⟩ := roadTrace_spec road sqrt _ 5 clusters seed passes hp
    obtain ⟨r, hr⟩ := roadLoop_some road sqrt _ hnext 5 clusters seed
    have hloop := roadLoopWithin_eq road sqrt _ _ _ hagree 5 clusters seed hseed hclusters
    have htrace := roadTraceWithin_eq road sqrt _ _ _ hagree 5 clusters seed hseed hclusters
    refine ⟨{ road with
        fRemainingClusters := r.1
        fOriginalClusters := seed
        fTrackClusters := r.2 }, passes, ?_, ?_, ?_, i1, i2, i4, i5⟩
    · rw [ProcessWithin_of_roadLoop road sqrt _ _ seed clusters hloop,
        Process_of_roadLoop road sqrt _ hempty seed clusters r hr]
    · rw [htrace, hp]
    · rw [← i3, hr]
  · intro remaining currentSeed track collected cluster extendBack hloop hn hc
    have hm := NextClusterWithin_mem (N + 1) road sqrt fl MakePrincipals _ _ _ _ hn
    refine ⟨?_, ?_, ?_⟩
    · rw [List.length_erase_of_mem hm]
      exact Nat.succ_pred_eq_of_pos (List.length_pos_of_mem hm)
    · intro e
      rw [e] at hn
      conv_lhs => rw [followUpstreamWithin]
      rw [if_neg hloop, hn]
      simp only [dif_pos hm, if_neg hc]
    · intro e
      rw [e] at hn
      conv_lhs => rw [followDownstreamWithin]
      rw [if_neg hloop, hn]
      simp only [dif_pos hm, if_neg hc]

/-- Witness for C32 (amended): the road of the constructor, a seed of three clusters and
one further cluster, each of energy deposit 1000, with exact subtraction. -/
theorem road_terminates_witness :
    ∃ st passes, ProcessWithin (create 10) TCluster3D.sqrtQ
        (NextClusterWithin 2 (create 10) TCluster3D.sqrtQ id principalRows)
        ([clusterAt 1 0 0 0, clusterAt 2 1 0 0, clusterAt 3 (2 : ℚ) 0 0].map some)
        ([clusterAt 4 (3 : ℚ) 0 0].map some) = some (some st) ∧
      roadTraceWithin (create 10) TCluster3D.sqrtQ
        (NextClusterWithin 2 (create 10) TCluster3D.sqrtQ id principalRows) 5
        [clusterAt 4 (3 : ℚ) 0 0]
        [clusterAt 1 0 0 0, clusterAt 2 1 0 0, clusterAt 3 (2 : ℚ) 0 0] = some (some passes) ∧
      passes.length ≤ 5 :=
  let ⟨st, passes, h1, h2, _, _, h5, _⟩ := (road_terminates (create 10) TCluster3D.sqrtQ id
    principalRows
    [clusterAt 1 0 0 0, clusterAt 2 1 0 0, clusterAt 3 (2 : ℚ) 0 0] [clusterAt 4 (3 : ℚ) 0 0]
    1000 1000 1 ⟨rfl, rfl, rfl⟩ (by norm_num)
    (fun q _ _ => le_refl _)
    (by
      intro c hc
      simp only [List.cons_append, List.nil_append, List.mem_cons, List.mem_singleton,
        List.not_mem_nil, or_false] at hc
      rcases hc with e | e | e | e <;> rw [e] <;> simp [clusterAt, Double.gt])).1
  ⟨st, passes, h1, h2, h5⟩

/-! ## Short seeds -/

theorem followUpstream_short (road : TLinearRoad K) (sqrt : K → K)
    (next : List (TReconCluster K) → List (TReconCluster K) → Bool → Option (TReconCluster K))
    (remaining currentSeed track : List (TReconCluster K)) (collected : Int)
    (h : currentSeed.length ≤ 2) :
    followUpstream road sqrt next remaining currentSeed track collected
      = some (remaining, currentSeed, track) := by
  have c0 : remaining.isEmpty = true ∨ currentSeed.length ≤ 2 := Or.inr h
  rw [followUpstream, if_pos c0]

theorem followDownstream_short (road : TLinearRoad K) (sqrt : K → K)
    (next : List (TReconCluster K) → List (TReconCluster K) → Bool → Option (TReconCluster K))
    (remaining currentSeed track : List (TReconCluster K)) (collected : Int)
    (h : currentSeed.length ≤ 2) :
    followDownstream road sqrt next remaining currentSeed track collected
      = some (remaining, currentSeed, track) := by
  have c0 : remaining.isEmpty = true ∨ currentSeed.length ≤ 2 := Or.inr h
  rw [followDownstream, if_pos c0]

/-- Erasing the clusters of the back of a track of at most two clusters leaves its
front. -/
theorem eraseSeed_suffix_short (front back : List (TReconCluster K))
    (h : (front ++ back).length ≤ 2) : eraseSeed back (front ++ back) = front := by
  cases front with
  | nil =>
    have := eraseSeed_front back []
    rw [List.append_nil] at this
    rw [List.nil_append]
    exact this
  | cons x front1 =>
    cases back with
    | nil => simp [eraseSeed]
    | cons y back1 =>
      have hf : front1 = [] := by
        cases front1 with
        | nil => rfl
        | cons _ _ =>
          simp only [List.length_append, List.length_cons] at h
          omega
      have hb : back1 = [] := by
        cases back1 with
        | nil => rfl
        | cons _ _ =>
          simp only [List.length_append, List.length_cons] at h
          omega
      rw [hf, hb]
      by_cases e : x = y
      · rw [e]
        simp [eraseSeed]
      · simp [eraseSeed, List.erase_cons, e]

/-- One pass of the body of the `do` loop leaves a track of at most two clusters, and a
track without repeated clusters when no cluster remains. -/
theorem roadPass_short (road : TLinearRoad K) (sqrt : K → K)
    (next : List (TReconCluster K) → List (TReconCluster K) → Bool → Option (TReconCluster K))
    (remaining track : List (TReconCluster K))
    (h : track.length ≤ 2 ∨ (remaining = [] ∧ track.Nodup)) :
    roadPass road sqrt next remaining track = some (remaining, track) := by
  obtain ⟨pre, hpre⟩ := gatherDownstream_suffix road sqrt track.reverse []
  rw [List.reverse_reverse, List.append_nil] at hpre
  rcases h with h | ⟨h1, h2⟩
  · obtain ⟨rest, hrest⟩ := gatherUpstream_front road sqrt track []
    rw [List.nil_append] at hrest
    have herase : eraseSeed (gatherUpstream road sqrt track []) track = rest :=
      (congrArg (eraseSeed (gatherUpstream road sqrt track [])) hrest).trans
        (eraseSeed_front _ rest)
    have hup : (gatherUpstream road sqrt track []).length ≤ 2 := by
      have := congrArg List.length hrest
      rw [List.length_append] at this
      omega
    have hdown : (gatherDownstream road sqrt track.reverse []).length ≤ 2 := by
      have := congrArg List.length hpre
      rw [List.length_append] at this
      omega
    have he : eraseSeed (gatherDownstream road sqrt track.reverse []) track = pre :=
      (congrArg (eraseSeed (gatherDownstream road sqrt track.reverse [])) hpre).trans
        (eraseSeed_suffix_short pre _ (by rw [← hpre]; exact h))
    simp only [roadPass, herase, followUpstream_short road sqrt next _ _ _ _ hup,
      foldr_push_front, ← hrest, followDownstream_short road sqrt next _ _ _ _ hdown,
      foldl_push_back, he, ← hpre]
  · have he : eraseSeed (gatherDownstream road sqrt track.reverse []) track = pre :=
      (congrArg (eraseSeed (gatherDownstream road sqrt track.reverse [])) hpre).trans
        (eraseSeed_suffix _ pre (by rw [← hpre]; exact h2))
    rw [h1, roadPass_nil, he, ← hpre]

/-- C33 (amended): if the seed has at most two clusters, or the cluster list is empty and
no cluster occurs twice in the seed, then after `Process` the track clusters are the seed
in the same order, the remaining clusters are the cluster list in the same order, and the
`do` loop made one pass; and `GetTrack` returns an empty handle when the seed has fewer
than two clusters. -/
theorem short_seed_identity (road : TLinearRoad K) (sqrt : K → K)
    (next : List (TReconCluster K) → List (TReconCluster K) → Bool → Option (TReconCluster K))
    (seed clusters : List (TReconCluster K))
    (hempty : road.fRemainingClusters = [] ∧ road.fOriginalClusters = []
      ∧ road.fTrackClusters = [])
    (hshort : seed.length ≤ 2 ∨ (clusters = [] ∧ seed.Nodup)) :
    ∃ st, Process road sqrt next (seed.map some) (clusters.map some) = some st ∧
      st.fTrackClusters = seed ∧ st.fRemainingClusters = clusters ∧
      roadTrace road sqrt next 5 clusters seed = some [(clusters, seed)] ∧
      (seed.length < 2 →
        ∀ (T : Type) (CreateTrackFromClusters : List (TReconCluster K) → Option T),
          GetTrack CreateTrackFromClusters st = none) := by
  have hpass := roadPass_short road sqrt next clusters seed hshort
  have hloop : roadLoop road sqrt next 5 clusters seed = some (clusters, seed) := by
    simp only [roadLoop, hpass, ne_eq, not_true_eq_false, false_and, if_false]
  refine ⟨_, Process_of_roadLoop road sqrt next hempty seed clusters _ hloop, rfl, rfl, ?_, ?_⟩
  · simp only [roadTrace, hpass, ne_eq, not_true_eq_false, false_and, if_false]
  · intro hlen T CreateTrackFromClusters
    unfold GetTrack
    exact if_pos hlen

/-- Witness for C33 (amended): a seed of two clusters and one further cluster. -/
theorem short_seed_identity_witness :
    ∃ st, Process (create 10) TCluster3D.sqrtQ
        (NextCluster (create 10) TCluster3D.sqrtQ principalId)
        ([clusterAt 1 0 0 0, clusterAt 2 (1 : ℚ) 0 0].map some)
        ([clusterAt 4 (3 : ℚ) 0 0].map some) = some st ∧
      st.fTrackClusters = [clusterAt 1 0 0 0, clusterAt 2 (1 : ℚ) 0 0] ∧
      st.fRemainingClusters = [clusterAt 4 (3 : ℚ) 0 0] :=
  let ⟨st, h1, h2, h3, _⟩ := short_seed_identity (create 10) TCluster3D.sqrtQ
    (NextCluster (create 10) TCluster3D.sqrtQ principalId)
    [clusterAt 1 0 0 0, clusterAt 2 (1 : ℚ) 0 0] [clusterAt 4 (3 : ℚ) 0 0]
    ⟨rfl, rfl, rfl⟩ (Or.inl (le_refl 2))
  ⟨st, h1, h2, h3⟩

/-- Counterexample to C33 as stated: with an empty cluster list and the seed of twelve
clusters whose first cluster is also its last, the track after `Process` is not the
seed: its first two clusters are exchanged. -/
theorem empty_cluster_list_reorders_seed :
    ∃ st, Process (create 10) TCluster3D.sqrtQ
        (NextCluster (create 10) TCluster3D.sqrtQ principalId) (loopSeed.map some)
        (([] : List (TReconCluster ℚ)).map some) = some st ∧
      st.fTrackClusters = loopTrack ∧ st.fRemainingClusters = [] ∧
      st.fTrackClusters ≠ loopSeed := by
  refine ⟨_, Process_of_roadLoop (create 10) TCluster3D.sqrtQ _ ⟨rfl, rfl, rfl⟩ loopSeed [] _
    roadLoop_loopSeed, rfl, rfl, ?_⟩
  intro h
  have h2 : loopTrack = loopSeed := h
  simp [loopSeed, loopTrack, clusterAt] at h2

end TLinearRoad

end CP
